import Mathlib

/-!
# FlexDesk: the indexed record store of `src/FlexDesk.c`

A shallow embedding of the storage core of the program: the four record
lists, the member hash index, the add / update / delete operations, and the
load / save routines with their `fscanf` / `fprintf` formats.

Conventions of the embedding.

* A C `int` is a mathematical integer (`Int`).  The embedding follows the
  program as long as every value stays within `INT_MIN .. INT_MAX`: the
  overflow of `next_<entity>_id++` and of `maxId + 1`, and the `%d`
  conversion of a number outside that range, are undefined in C and are not
  represented.  The statements that depend on them carry the range as a
  hypothesis (`is_int`, `INT_MAX`, `FilesInRange`).
* A C string is the list of its characters (`List Char`), without the
  terminating NUL.
* A doubly linked list `head .. tail` is the list of its nodes in `next`
  order.  Member nodes carry their heap address, because the hash index
  stores pointers to them; the nodes of the other three lists are only ever
  reached by walking the list, so they are represented by their data.
* An operation returns `Option State`: `none` stands for undefined behaviour
  of the C program (indexing `member_index` outside its `INDEX_SIZE` buckets,
  or dereferencing a pointer to a node that is not allocated).
* An operation takes what each of its reads obtains: the value returned by
  each `getInt` and the characters stored by the `fgets` of each `getString`.
  The section on standard input makes these reads one after the other on the
  same input (`fgets`, `getInt`, `addMember_stdin`, ...), where a line that
  does not fit its buffer leaves its rest to the next read and where the
  input can end.
* Console output, the timestamps of the log and the reader/writer locks are
  not represented.
-/

namespace FlexDesk

/-! ## Data structures -/

/-- Number of buckets of the hash map (`#define INDEX_SIZE 1009`). -/
def INDEX_SIZE : Int := 1009

/-- Record of a member (`typedef struct { int memberId; ... } Member`). -/
structure Member where
  memberId : Int
  name : List Char
  email : List Char
deriving DecidableEq, Repr

/-- Record of a workspace. -/
structure Workspace where
  workspaceId : Int
  type : List Char
  location : List Char
  capacity : Int
  price_in_cents : Int
deriving DecidableEq, Repr

/-- Record of a booking. -/
structure Booking where
  bookingId : Int
  memberId : Int
  workspaceId : Int
  startTime : List Char
  endTime : List Char
  status : List Char
deriving DecidableEq, Repr

/-- Record of a payment. -/
structure Payment where
  paymentId : Int
  bookingId : Int
  amount_in_cents : Int
  paymentDate : List Char
  status : List Char
deriving DecidableEq, Repr

/-- Heap node of the member list: the address returned by `malloc` and the
record stored there.  The `next` / `prev` links are the list order. -/
structure MemberNode where
  addr : Nat
  data : Member
deriving DecidableEq, Repr

/-- Global variables of the program.  `member_index i` is the chain of bucket
`i` (the `target` pointers of its `IndexNode`s, head first); only the buckets
`0 .. INDEX_SIZE - 1` exist, and every access goes through `bucket?`. -/
structure State where
  member_list : List MemberNode
  workspace_list : List Workspace
  booking_list : List Booking
  payment_list : List Payment
  member_index : Nat → List Nat
  next_member_id : Int
  next_workspace_id : Int
  next_booking_id : Int
  next_payment_id : Int
  log : List (List Char)

/-- Initial values of the globals: empty lists, all buckets `NULL`, every
counter 1. -/
def init : State where
  member_list := []
  workspace_list := []
  booking_list := []
  payment_list := []
  member_index := fun _ => []
  next_member_id := 1
  next_workspace_id := 1
  next_booking_id := 1
  next_payment_id := 1
  log := []

/-! ## Helpers: strings, formatted output, allocation -/

/-- The C string held by a buffer: the characters before the first NUL. -/
def cstr (buf : List Char) : List Char :=
  buf.takeWhile (fun c => c != Char.ofNat 0)

/-- Buffer after `getString(prompt, buffer, size)` when `line` is what its
`fgets` call finds and stores from: `fgets` stores at most `size - 1`
characters, and the buffer is then cut at the first newline.  At the end of
the input `fgets` stores nothing and the buffer keeps what it held; that case
is in the operations on standard input (`updateMember_stdin`, ...). -/
def getString (line : List Char) (size : Nat) : List Char :=
  cstr ((line.take (size - 1)).takeWhile (fun c => c != '\n'))

/-- Decimal digit `d` as a character. -/
def digitChar (d : Nat) : Char := Char.ofNat (48 + d)

/-- Decimal digits of `n`, most significant first; `fuel` bounds the number
of digits. -/
def fmt_nat_fuel : Nat → Nat → List Char
  | 0, _ => []
  | fuel + 1, n =>
    if n < 10 then [digitChar n] else fmt_nat_fuel fuel (n / 10) ++ [digitChar (n % 10)]

/-- Output of `%u`-style decimal printing of a natural number. -/
def fmt_nat (n : Nat) : List Char := fmt_nat_fuel (n + 1) n

/-- Output of the `%d` conversion of `printf`. -/
def fmt_int : Int → List Char
  | Int.ofNat n => fmt_nat n
  | Int.negSucc n => '-' :: fmt_nat (n + 1)

/-- Address returned by `malloc` for a new member node: one that no node
currently allocated occupies. -/
def malloc (heap : List MemberNode) : Nat :=
  (heap.map (fun n => n.addr)).foldr max 0 + 1

/-- Dereference of a `MemberNode *`: the node allocated at address `p`, if
any. -/
def deref (heap : List MemberNode) (p : Nat) : Option MemberNode :=
  heap.find? (fun n => n.addr == p)

/-- Effect of `log_operation(message)`: one more line in the log. -/
def log_operation (s : State) (message : List Char) : State :=
  { s with log := s.log ++ [message] }

/-! ## Hash map -/

/-- Hash of an id: `id % INDEX_SIZE` with the truncating remainder of C. -/
def hash_function (id : Int) : Int := Int.tmod id INDEX_SIZE

/-- Read of `member_index[i]`; `none` when `i` is not a valid subscript. -/
def bucket? (idx : Nat → List Nat) (i : Int) : Option (List Nat) :=
  if 0 ≤ i ∧ i < INDEX_SIZE then some (idx i.toNat) else none

/-- Insertion of a new `IndexNode` pointing to `node` at the head of its
bucket. -/
def add_to_index (idx : Nat → List Nat) (node : MemberNode) : Option (Nat → List Nat) :=
  let index := hash_function node.data.memberId
  match bucket? idx index with
  | none => none
  | some chain => some (Function.update idx index.toNat (node.addr :: chain))

/-- Walk of one chain by `remove_from_index`: the first entry whose target
carries `id` is unlinked. -/
def remove_from_chain (heap : List MemberNode) (id : Int) : List Nat → Option (List Nat)
  | [] => some []
  | t :: rest =>
    match deref heap t with
    | none => none
    | some n =>
      if n.data.memberId = id then some rest
      else (remove_from_chain heap id rest).map (fun c => t :: c)

/-- Removal of the entry of `id` from the index. -/
def remove_from_index (heap : List MemberNode) (idx : Nat → List Nat) (id : Int) :
    Option (Nat → List Nat) :=
  let index := hash_function id
  match bucket? idx index with
  | none => none
  | some chain =>
    (remove_from_chain heap id chain).map (fun c => Function.update idx index.toNat c)

/-- Walk of one chain by `findMemberNodeById`; `some none` is the `NULL`
result. -/
def find_in_chain (heap : List MemberNode) (id : Int) : List Nat → Option (Option MemberNode)
  | [] => some none
  | t :: rest =>
    match deref heap t with
    | none => none
    | some n => if n.data.memberId = id then some (some n) else find_in_chain heap id rest

/-- Lookup of a member through the index.  The outer `Option` is undefined
behaviour, the inner one the possibly `NULL` pointer returned. -/
def findMemberNodeById (s : State) (id : Int) : Option (Option MemberNode) :=
  match bucket? s.member_index (hash_function id) with
  | none => none
  | some chain => find_in_chain s.member_list id chain

/-! ## Member operations -/

/-- Operation `addMember`, with what the `fgets` calls of its two prompts
store. -/
def addMember (s : State) (nameIn emailIn : List Char) : Option State :=
  let name := getString nameIn 100
  let email := getString emailIn 100
  if s.member_list.any (fun n => n.data.email == email) then some s
  else
    let newNode : MemberNode := ⟨malloc s.member_list, ⟨s.next_member_id, name, email⟩⟩
    match add_to_index s.member_index newNode with
    | none => none
    | some idx =>
      some (log_operation
        { s with
          member_list := s.member_list ++ [newNode]
          member_index := idx
          next_member_id := s.next_member_id + 1 }
        ("Added Member ID ".toList ++ fmt_int newNode.data.memberId ++ " (".toList
          ++ name ++ ")".toList))

/-- Operation `updateMember`, with the id returned by `getInt` and what the
`fgets` call of the name prompt stores. -/
def updateMember (s : State) (id : Int) (nameIn : List Char) : Option State :=
  match findMemberNodeById s id with
  | none => none
  | some none => some s
  | some (some node) =>
    some (log_operation
      { s with
        member_list := s.member_list.map (fun n =>
          if n.addr = node.addr then { n with data := { n.data with name := getString nameIn 100 } }
          else n) }
      ("Updated Member ID ".toList ++ fmt_int id))

/-- Operation `deleteMember`.  The index is walked after the node has been
unlinked and before it is freed, so the chain targets are read in the heap
that still holds it. -/
def deleteMember (s : State) (id : Int) : Option State :=
  match findMemberNodeById s id with
  | none => none
  | some none => some s
  | some (some node) =>
    match remove_from_index s.member_list s.member_index id with
    | none => none
    | some idx =>
      some (log_operation
        { s with
          member_list := s.member_list.filter (fun n => n.addr != node.addr)
          member_index := idx }
        ("Deleted Member ID ".toList ++ fmt_int id))

/-! ## Workspace, booking and payment operations -/

/-- In-place change of the first element that satisfies `p` (the node a
linear search returns). -/
def updateFirst {α : Type} (p : α → Bool) (f : α → α) : List α → List α
  | [] => []
  | x :: xs => if p x then f x :: xs else x :: updateFirst p f xs

/-- Linear search of the workspace list. -/
def findWorkspaceNodeById (s : State) (id : Int) : Option Workspace :=
  s.workspace_list.find? (fun w => w.workspaceId == id)

/-- Operation `addWorkspace`, with what its two `fgets` calls store and the
values returned by its two `getInt` calls. -/
def addWorkspace (s : State) (typeIn locationIn : List Char) (capacity price : Int) :
    Option State :=
  let newNode : Workspace :=
    ⟨s.next_workspace_id, getString typeIn 50, getString locationIn 100, capacity, price⟩
  some (log_operation
    { s with
      workspace_list := s.workspace_list ++ [newNode]
      next_workspace_id := s.next_workspace_id + 1 }
    ("Added Workspace ID ".toList ++ fmt_int newNode.workspaceId ++ " (".toList
      ++ newNode.type ++ ")".toList))

/-- Operation `updateWorkspace`. -/
def updateWorkspace (s : State) (id capacity price : Int) : Option State :=
  match findWorkspaceNodeById s id with
  | none => some s
  | some _ =>
    some (log_operation
      { s with
        workspace_list := updateFirst (fun w => w.workspaceId == id)
          (fun w => { w with capacity := capacity, price_in_cents := price }) s.workspace_list }
      ("Updated Workspace ID ".toList ++ fmt_int id))

/-- Operation `deleteWorkspace`. -/
def deleteWorkspace (s : State) (id : Int) : Option State :=
  match findWorkspaceNodeById s id with
  | none => some s
  | some _ =>
    some (log_operation
      { s with workspace_list := s.workspace_list.eraseP (fun w => w.workspaceId == id) }
      ("Deleted Workspace ID ".toList ++ fmt_int id))

/-- Linear search of the booking list. -/
def findBookingNodeById (s : State) (id : Int) : Option Booking :=
  s.booking_list.find? (fun b => b.bookingId == id)

/-- Operation `addBooking`: the two integrity checks, then the insertion,
with what the three `fgets` calls store. -/
def addBooking (s : State) (mId wId : Int) (startIn endIn statusIn : List Char) :
    Option State :=
  match findMemberNodeById s mId with
  | none => none
  | some none => some s
  | some (some _) =>
    match findWorkspaceNodeById s wId with
    | none => some s
    | some _ =>
      let newNode : Booking :=
        ⟨s.next_booking_id, mId, wId, getString startIn 20, getString endIn 20,
          getString statusIn 20⟩
      some (log_operation
        { s with
          booking_list := s.booking_list ++ [newNode]
          next_booking_id := s.next_booking_id + 1 }
        ("Added Booking ID ".toList ++ fmt_int newNode.bookingId ++ " (Mem: ".toList
          ++ fmt_int mId ++ ", WS: ".toList ++ fmt_int wId ++ ")".toList))

/-- Operation `updateBooking`. -/
def updateBooking (s : State) (id : Int) (statusIn : List Char) : Option State :=
  match findBookingNodeById s id with
  | none => some s
  | some _ =>
    some (log_operation
      { s with
        booking_list := updateFirst (fun b => b.bookingId == id)
          (fun b => { b with status := getString statusIn 20 }) s.booking_list }
      ("Updated Booking ID ".toList ++ fmt_int id ++ " status to ".toList
        ++ getString statusIn 20))

/-- Operation `deleteBooking`. -/
def deleteBooking (s : State) (id : Int) : Option State :=
  match findBookingNodeById s id with
  | none => some s
  | some _ =>
    some (log_operation
      { s with booking_list := s.booking_list.eraseP (fun b => b.bookingId == id) }
      ("Deleted Booking ID ".toList ++ fmt_int id))

/-- Linear search of the payment list. -/
def findPaymentNodeById (s : State) (id : Int) : Option Payment :=
  s.payment_list.find? (fun p => p.paymentId == id)

/-- Operation `addPayment`: the integrity check, then the insertion, with
what the `fgets` calls of the date prompt (into `paymentDate[11]`) and of the
status prompt store.  On one standard input the second call starts where the
first one stopped: see `addPayment_stdin`. -/
def addPayment (s : State) (bId amount : Int) (dateIn statusIn : List Char) : Option State :=
  match findBookingNodeById s bId with
  | none => some s
  | some _ =>
    let newNode : Payment :=
      ⟨s.next_payment_id, bId, amount, getString dateIn 11, getString statusIn 20⟩
    some (log_operation
      { s with
        payment_list := s.payment_list ++ [newNode]
        next_payment_id := s.next_payment_id + 1 }
      ("Added Payment ID ".toList ++ fmt_int newNode.paymentId ++ " for Booking ".toList
        ++ fmt_int bId))

/-- Operation `updatePayment`. -/
def updatePayment (s : State) (id : Int) (statusIn : List Char) : Option State :=
  match findPaymentNodeById s id with
  | none => some s
  | some _ =>
    some (log_operation
      { s with
        payment_list := updateFirst (fun p => p.paymentId == id)
          (fun p => { p with status := getString statusIn 20 }) s.payment_list }
      ("Updated Payment ID ".toList ++ fmt_int id ++ " status".toList))

/-- Operation `deletePayment`. -/
def deletePayment (s : State) (id : Int) : Option State :=
  match findPaymentNodeById s id with
  | none => some s
  | some _ =>
    some (log_operation
      { s with payment_list := s.payment_list.eraseP (fun p => p.paymentId == id) }
      ("Deleted Payment ID ".toList ++ fmt_int id))

/-- Menu choice that changes the stores, with what each read at its prompts
obtains. -/
inductive Op where
  | addMember (nameIn emailIn : List Char)
  | updateMember (id : Int) (nameIn : List Char)
  | deleteMember (id : Int)
  | addWorkspace (typeIn locationIn : List Char) (capacity price : Int)
  | updateWorkspace (id capacity price : Int)
  | deleteWorkspace (id : Int)
  | addBooking (mId wId : Int) (startIn endIn statusIn : List Char)
  | updateBooking (id : Int) (statusIn : List Char)
  | deleteBooking (id : Int)
  | addPayment (bId amount : Int) (dateIn statusIn : List Char)
  | updatePayment (id : Int) (statusIn : List Char)
  | deletePayment (id : Int)

/-- One turn of the menu loop of `main`. -/
def step (s : State) : Op → Option State
  | .addMember n e => addMember s n e
  | .updateMember id n => updateMember s id n
  | .deleteMember id => deleteMember s id
  | .addWorkspace t l c p => addWorkspace s t l c p
  | .updateWorkspace id c p => updateWorkspace s id c p
  | .deleteWorkspace id => deleteWorkspace s id
  | .addBooking m w a b c => addBooking s m w a b c
  | .updateBooking id st => updateBooking s id st
  | .deleteBooking id => deleteBooking s id
  | .addPayment b a d st => addPayment s b a d st
  | .updatePayment id st => updatePayment s id st
  | .deletePayment id => deletePayment s id

/-- A sequence of menu choices, executed from `s`. -/
def run (s : State) : List Op → Option State
  | [] => some s
  | op :: ops => (step s op).bind (fun s1 => run s1 ops)

/-! ## Formatted input -/

/-- The `isspace` test of the C locale. -/
def isspace (c : Char) : Bool :=
  c == ' ' || c == '\t' || c == '\n' || c == Char.ofNat 11 || c == Char.ofNat 12 || c == '\r'

/-- The `isdigit` test. -/
def isdigit (c : Char) : Bool := 48 ≤ c.toNat && c.toNat ≤ 57

/-- Input white space skipped by a conversion or by a white-space
directive. -/
def skip_space (inp : List Char) : List Char := inp.dropWhile isspace

/-- Accumulation of the decimal digits at the front of the input. -/
def scan_digits : Nat → List Char → Nat × List Char
  | acc, [] => (acc, [])
  | acc, c :: rest =>
    if isdigit c then scan_digits (acc * 10 + (c.toNat - 48)) rest else (acc, c :: rest)

/-- A nonempty run of decimal digits. -/
def scan_unsigned : List Char → Option (Nat × List Char)
  | [] => none
  | c :: rest => if isdigit c then some (scan_digits 0 (c :: rest)) else none

/-- The `%d` conversion: white space, an optional sign, decimal digits.
Returns the number written and the rest of the input, or `none` on a matching
failure.  The number is the value stored in the `int` when it is within
`INT_MIN .. INT_MAX` (`is_int`); outside that range the C conversion is
undefined and the number is kept as written. -/
def scan_int (inp : List Char) : Option (Int × List Char) :=
  match skip_space inp with
  | [] => none
  | c :: rest =>
    if c = '-' then (scan_unsigned rest).map (fun r => (-(r.1 : Int), r.2))
    else if c = '+' then (scan_unsigned rest).map (fun r => ((r.1 : Int), r.2))
    else (scan_unsigned (c :: rest)).map (fun r => ((r.1 : Int), r.2))

/-- Directives of the four `fscanf` formats of `load_all_data`. -/
inductive Directive where
  | int
  | lit (c : Char)
  | scanset (width : Nat) (stop : Char)
  | space
deriving DecidableEq, Repr

/-- Value stored by a conversion. -/
inductive Value where
  | int (i : Int)
  | str (s : List Char)
deriving DecidableEq, Repr

/-- Characters matched by `%<width>[^<stop>]`: the longest run, of at most
`width` characters, free of `stop`. -/
def scan_set (width : Nat) (stop : Char) (inp : List Char) : List Char :=
  (inp.takeWhile (fun c => c != stop)).take width

/-- Model of `fscanf(file, format, ...)`: the values assigned, in order (their
number is the return value), and the input left.  After a failure the input
left is not used by the callers. -/
def fscanf : List Directive → List Char → List Value × List Char
  | [], inp => ([], inp)
  | Directive.int :: ds, inp =>
    match scan_int inp with
    | none => ([], inp)
    | some (i, rest) => (Value.int i :: (fscanf ds rest).1, (fscanf ds rest).2)
  | Directive.lit c :: ds, inp =>
    match inp with
    | [] => ([], inp)
    | x :: rest => if x = c then fscanf ds rest else ([], inp)
  | Directive.scanset width stop :: ds, inp =>
    if scan_set width stop inp = [] then ([], inp)
    else
      (Value.str (cstr (scan_set width stop inp))
          :: (fscanf ds (inp.drop (scan_set width stop inp).length)).1,
        (fscanf ds (inp.drop (scan_set width stop inp).length)).2)
  | Directive.space :: ds, inp => fscanf ds (skip_space inp)

/-- Format `"%d,%99[^,],%99[^\n]\n"`. -/
def MEMBER_FORMAT : List Directive :=
  [.int, .lit ',', .scanset 99 ',', .lit ',', .scanset 99 '\n', .space]

/-- Format `"%d,%49[^,],%99[^,],%d,%d\n"`. -/
def WORKSPACE_FORMAT : List Directive :=
  [.int, .lit ',', .scanset 49 ',', .lit ',', .scanset 99 ',', .lit ',', .int, .lit ',',
    .int, .space]

/-- Format `"%d,%d,%d,%19[^,],%19[^,],%19[^\n]\n"`. -/
def BOOKING_FORMAT : List Directive :=
  [.int, .lit ',', .int, .lit ',', .int, .lit ',', .scanset 19 ',', .lit ',',
    .scanset 19 ',', .lit ',', .scanset 19 '\n', .space]

/-- Format `"%d,%d,%d,%10[^,],%19[^\n]\n"`. -/
def PAYMENT_FORMAT : List Directive :=
  [.int, .lit ',', .int, .lit ',', .int, .lit ',', .scanset 10 ',', .lit ',',
    .scanset 19 '\n', .space]

/-! ## Load and save -/

/-- The four data files; `none` is a file that cannot be opened. -/
structure Files where
  members : Option (List Char)
  workspaces : Option (List Char)
  bookings : Option (List Char)
  payments : Option (List Char)
deriving DecidableEq, Repr

/-- The call `fscanf(file, "%d,%99[^,],%99[^\n]\n", &temp.memberId, temp.name,
temp.email)`: the record read and the input left when it returns 3. -/
def read_member (file : List Char) : Option (Member × List Char) :=
  match fscanf MEMBER_FORMAT file with
  | ([Value.int id, Value.str name, Value.str email], rest) => some (⟨id, name, email⟩, rest)
  | _ => none

/-- The `fscanf` call of the workspace loop, when it returns 5. -/
def read_workspace (file : List Char) : Option (Workspace × List Char) :=
  match fscanf WORKSPACE_FORMAT file with
  | ([Value.int id, Value.str type, Value.str location, Value.int capacity,
      Value.int price], rest) => some (⟨id, type, location, capacity, price⟩, rest)
  | _ => none

/-- The `fscanf` call of the booking loop, when it returns 6. -/
def read_booking (file : List Char) : Option (Booking × List Char) :=
  match fscanf BOOKING_FORMAT file with
  | ([Value.int id, Value.int mId, Value.int wId, Value.str startTime, Value.str endTime,
      Value.str status], rest) => some (⟨id, mId, wId, startTime, endTime, status⟩, rest)
  | _ => none

/-- The `fscanf` call of the payment loop, when it returns 5. -/
def read_payment (file : List Char) : Option (Payment × List Char) :=
  match fscanf PAYMENT_FORMAT file with
  | ([Value.int id, Value.int bId, Value.int amount, Value.str paymentDate,
      Value.str status], rest) => some (⟨id, bId, amount, paymentDate, status⟩, rest)
  | _ => none

/-- The `while (fscanf(...) == 3)` loop over the members file, with the
running `maxId`: each record read is linked at the tail and entered in the
index.  `fuel` bounds the number of iterations. -/
def load_members_loop : Nat → List Char → State → Int → Option (State × Int)
  | 0, _, s, maxId => some (s, maxId)
  | fuel + 1, file, s, maxId =>
    match read_member file with
    | some (temp, rest) =>
      let newNode : MemberNode := ⟨malloc s.member_list, temp⟩
      match add_to_index s.member_index newNode with
      | none => none
      | some idx =>
        load_members_loop fuel rest
          { s with member_list := s.member_list ++ [newNode], member_index := idx }
          (if temp.memberId > maxId then temp.memberId else maxId)
    | none => some (s, maxId)

/-- The `while (fscanf(...) == 5)` loop over the workspaces file. -/
def load_workspaces_loop : Nat → List Char → State → Int → State × Int
  | 0, _, s, maxId => (s, maxId)
  | fuel + 1, file, s, maxId =>
    match read_workspace file with
    | some (temp, rest) =>
      load_workspaces_loop fuel rest
        { s with workspace_list := s.workspace_list ++ [temp] }
        (if temp.workspaceId > maxId then temp.workspaceId else maxId)
    | none => (s, maxId)

/-- The `while (fscanf(...) == 6)` loop over the bookings file. -/
def load_bookings_loop : Nat → List Char → State → Int → State × Int
  | 0, _, s, maxId => (s, maxId)
  | fuel + 1, file, s, maxId =>
    match read_booking file with
    | some (temp, rest) =>
      load_bookings_loop fuel rest
        { s with booking_list := s.booking_list ++ [temp] }
        (if temp.bookingId > maxId then temp.bookingId else maxId)
    | none => (s, maxId)

/-- The `while (fscanf(...) == 5)` loop over the payments file. -/
def load_payments_loop : Nat → List Char → State → Int → State × Int
  | 0, _, s, maxId => (s, maxId)
  | fuel + 1, file, s, maxId =>
    match read_payment file with
    | some (temp, rest) =>
      load_payments_loop fuel rest
        { s with payment_list := s.payment_list ++ [temp] }
        (if temp.paymentId > maxId then temp.paymentId else maxId)
    | none => (s, maxId)

/-- Member block of `load_all_data`.  The counter is `maxId + 1` in the
integers: the value of the C expression as long as `maxId < INT_MAX`. -/
def load_members (file : Option (List Char)) (s : State) : Option State :=
  match file with
  | none => some s
  | some f =>
    (load_members_loop (f.length + 1) f s 0).map
      (fun r => { r.1 with next_member_id := r.2 + 1 })

/-- Workspace block of `load_all_data`.  The counter is `maxId + 1` in the
integers: the value of the C expression as long as `maxId < INT_MAX`. -/
def load_workspaces (file : Option (List Char)) (s : State) : State :=
  match file with
  | none => s
  | some f =>
    { (load_workspaces_loop (f.length + 1) f s 0).1 with
      next_workspace_id := (load_workspaces_loop (f.length + 1) f s 0).2 + 1 }

/-- Booking block of `load_all_data`, with the same `maxId + 1`. -/
def load_bookings (file : Option (List Char)) (s : State) : State :=
  match file with
  | none => s
  | some f =>
    { (load_bookings_loop (f.length + 1) f s 0).1 with
      next_booking_id := (load_bookings_loop (f.length + 1) f s 0).2 + 1 }

/-- Payment block of `load_all_data`, with the same `maxId + 1`. -/
def load_payments (file : Option (List Char)) (s : State) : State :=
  match file with
  | none => s
  | some f =>
    { (load_payments_loop (f.length + 1) f s 0).1 with
      next_payment_id := (load_payments_loop (f.length + 1) f s 0).2 + 1 }

/-- Function `load_all_data`: the four files in turn. -/
def load_all_data (fs : Files) (s : State) : Option State :=
  (load_members fs.members s).map (fun s1 =>
    load_payments fs.payments (load_bookings fs.bookings (load_workspaces fs.workspaces s1)))

/-- Line written for a member by `fprintf(file, "%d,%s,%s\n", ...)`. -/
def member_line (m : Member) : List Char :=
  fmt_int m.memberId ++ (',' :: (m.name ++ (',' :: (m.email ++ ['\n']))))

/-- Line written for a workspace by `fprintf(file, "%d,%s,%s,%d,%d\n", ...)`. -/
def workspace_line (w : Workspace) : List Char :=
  fmt_int w.workspaceId ++ (',' :: (w.type ++ (',' :: (w.location ++ (',' ::
    (fmt_int w.capacity ++ (',' :: (fmt_int w.price_in_cents ++ ['\n']))))))))

/-- Line written for a booking by `fprintf(file, "%d,%d,%d,%s,%s,%s\n", ...)`. -/
def booking_line (b : Booking) : List Char :=
  fmt_int b.bookingId ++ (',' :: (fmt_int b.memberId ++ (',' :: (fmt_int b.workspaceId ++
    (',' :: (b.startTime ++ (',' :: (b.endTime ++ (',' :: (b.status ++ ['\n']))))))))))

/-- Line written for a payment by `fprintf(file, "%d,%d,%d,%s,%s\n", ...)`. -/
def payment_line (p : Payment) : List Char :=
  fmt_int p.paymentId ++ (',' :: (fmt_int p.bookingId ++ (',' :: (fmt_int p.amount_in_cents ++
    (',' :: (p.paymentDate ++ (',' :: (p.status ++ ['\n']))))))))

/-- Text written by the `for` loop of a save block: one line per node, in
list order. -/
def write_lines {α : Type} (line : α → List Char) : List α → List Char
  | [] => []
  | x :: rest => line x ++ write_lines line rest

/-- Outcome of the four `fopen(..., "w")` calls of `save_all_data`. -/
structure OpenOk where
  members : Bool
  workspaces : Bool
  bookings : Bool
  payments : Bool
deriving DecidableEq, Repr

/-- Function `save_all_data`: each file that can be opened is overwritten
with the lines of its list; a file that cannot be opened keeps its
content. -/
def save_all_data (ok : OpenOk) (old : Files) (s : State) : Files where
  members :=
    if ok.members then some (write_lines member_line (s.member_list.map (fun n => n.data)))
    else old.members
  workspaces :=
    if ok.workspaces then some (write_lines workspace_line s.workspace_list) else old.workspaces
  bookings :=
    if ok.bookings then some (write_lines booking_line s.booking_list) else old.bookings
  payments :=
    if ok.payments then some (write_lines payment_line s.payment_list) else old.payments

/-- All four files can be opened for writing. -/
def allOk : OpenOk := ⟨true, true, true, true⟩

/-- No data file exists. -/
def noFiles : Files := ⟨none, none, none, none⟩

/-! ## Runs of the program and the properties stated about them -/

/-- States of a run of `main`: `load_all_data` is called once, on the initial
globals, and the menu loop follows.  With no data file the load leaves the
initial state, so the runs from the empty state are included. -/
inductive Reachable : State → Prop where
  | boot (fs : Files) (s : State) (h : load_all_data fs init = some s) : Reachable s
  | step (s t : State) (op : Op) (hs : Reachable s) (h : step s op = some t) : Reachable t

/-- States obtained from the initial globals by menu choices and by calls of
`load_all_data` in any order, each of them running without undefined
behaviour. -/
inductive IndexReach : State → Prop where
  | init : IndexReach init
  | load (fs : Files) (s t : State) (hs : IndexReach s) (h : load_all_data fs s = some t) :
      IndexReach t
  | step (s t : State) (op : Op) (hs : IndexReach s) (h : step s op = some t) : IndexReach t

/-- The index and the member list are in lockstep: node addresses are
distinct; every node of the list is the target of exactly one chain entry,
which sits in bucket `memberId mod 1009`; and every chain entry targets a
node of the list. -/
def Lockstep (s : State) : Prop :=
  (s.member_list.map (fun n => n.addr)).Nodup ∧
  (∀ n ∈ s.member_list,
    (s.member_index (n.data.memberId % 1009).toNat).count n.addr = 1 ∧
    ∀ j, j ≠ (n.data.memberId % 1009).toNat → n.addr ∉ s.member_index j) ∧
  (∀ i a, a ∈ s.member_index i → i < 1009 ∧ ∃ n ∈ s.member_list, n.addr = a)

/-- The four entity types. -/
inductive Entity where
  | member
  | workspace
  | booking
  | payment
deriving DecidableEq, Repr

/-- Ids carried by the records of a store, in list order. -/
def store_ids (s : State) : Entity → List Int
  | .member => s.member_list.map (fun n => n.data.memberId)
  | .workspace => s.workspace_list.map (fun w => w.workspaceId)
  | .booking => s.booking_list.map (fun b => b.bookingId)
  | .payment => s.payment_list.map (fun p => p.paymentId)

/-- The counter `next_<entity>_id`. -/
def next_id (s : State) : Entity → Int
  | .member => s.next_member_id
  | .workspace => s.next_workspace_id
  | .booking => s.next_booking_id
  | .payment => s.next_payment_id

/-- Records that the successive `fscanf` calls of a load loop read from a
file, in file order; `fuel` bounds the number of calls. -/
def scan_records {α : Type} (read : List Char → Option (α × List Char)) :
    Nat → List Char → List α
  | 0, _ => []
  | fuel + 1, file =>
    match read file with
    | some (x, rest) => x :: scan_records read fuel rest
    | none => []

/-- Records of a file: those read before the first call that fails.  A
missing file has none. -/
def file_records {α : Type} (read : List Char → Option (α × List Char)) :
    Option (List Char) → List α
  | none => []
  | some f => scan_records read (f.length + 1) f

/-- Greatest of 0 and the given ids: the final `maxId` of a load loop. -/
def max_id (ids : List Int) : Int := ids.foldl (fun m i => if i > m then i else m) 0

/-- A text field that the file format can carry: not empty, without comma
and without newline. -/
def clean (f : List Char) : Prop := f ≠ [] ∧ ',' ∉ f ∧ '\n' ∉ f

instance (f : List Char) : Decidable (clean f) := by
  unfold clean
  exact inferInstance

/-- Every text field of the four stores is `clean`. -/
def CleanText (s : State) : Prop :=
  (∀ n ∈ s.member_list, clean n.data.name ∧ clean n.data.email) ∧
  (∀ w ∈ s.workspace_list, clean w.type ∧ clean w.location) ∧
  (∀ b ∈ s.booking_list, clean b.startTime ∧ clean b.endTime ∧ clean b.status) ∧
  (∀ p ∈ s.payment_list, clean p.paymentDate ∧ clean p.status)

instance (s : State) : Decidable (CleanText s) := by
  unfold CleanText
  exact inferInstance

/-- A text field without comma and without newline. -/
def separator_free (f : List Char) : Prop := ',' ∉ f ∧ '\n' ∉ f

instance (f : List Char) : Decidable (separator_free f) := by
  unfold separator_free
  exact inferInstance

/-- No text field of the four stores contains a comma or a newline. -/
def SeparatorFree (s : State) : Prop :=
  (∀ n ∈ s.member_list, separator_free n.data.name ∧ separator_free n.data.email) ∧
  (∀ w ∈ s.workspace_list, separator_free w.type ∧ separator_free w.location) ∧
  (∀ b ∈ s.booking_list,
    separator_free b.startTime ∧ separator_free b.endTime ∧ separator_free b.status) ∧
  (∀ p ∈ s.payment_list, separator_free p.paymentDate ∧ separator_free p.status)

instance (s : State) : Decidable (SeparatorFree s) := by
  unfold SeparatorFree
  exact inferInstance

/-- A text field fits a buffer read with the given width: at most `width`
characters, none of them NUL. -/
def fits (width : Nat) (f : List Char) : Prop := f.length ≤ width ∧ Char.ofNat 0 ∉ f

/-- The values assigned by a call of `fscanf` agree with the conversions of
its format: an integer for `%d`, and for a scanset a string that fits its
width. -/
def vals_fit : List Directive → List Value → Prop
  | _, [] => True
  | [], _ :: _ => False
  | Directive.int :: ds, Value.int _ :: vs => vals_fit ds vs
  | Directive.int :: _, Value.str _ :: _ => False
  | Directive.lit _ :: ds, v :: vs => vals_fit ds (v :: vs)
  | Directive.space :: ds, v :: vs => vals_fit ds (v :: vs)
  | Directive.scanset w _ :: ds, Value.str f :: vs => fits w f ∧ vals_fit ds vs
  | Directive.scanset _ _ :: _, Value.int _ :: _ => False

/-- Every text field of the four stores fits the buffer of its record. -/
def BoundedText (s : State) : Prop :=
  (∀ n ∈ s.member_list, fits 99 n.data.name ∧ fits 99 n.data.email) ∧
  (∀ w ∈ s.workspace_list, fits 49 w.type ∧ fits 99 w.location) ∧
  (∀ b ∈ s.booking_list, fits 19 b.startTime ∧ fits 19 b.endTime ∧ fits 19 b.status) ∧
  (∀ p ∈ s.payment_list, fits 10 p.paymentDate ∧ fits 19 p.status)

/-- Every id in a store is below the counter of its entity type, and the
counters are positive. -/
def CounterInv (s : State) : Prop :=
  ∀ e : Entity, 0 < next_id s e ∧ ∀ i ∈ store_ids s e, i < next_id s e

/-- Working form of the lockstep property, on a member list and an index:
distinct addresses, every node hashed to a valid bucket and entered there
once, every chain entry pointing to a node of the list with that hash. -/
structure IndexInv (l : List MemberNode) (idx : Nat → List Nat) : Prop where
  nodup : (l.map (fun n => n.addr)).Nodup
  valid : ∀ n ∈ l, 0 ≤ hash_function n.data.memberId
  once : ∀ n ∈ l, (idx (hash_function n.data.memberId).toNat).count n.addr = 1
  target : ∀ i a, a ∈ idx i →
    ∃ n ∈ l, n.addr = a ∧ hash_function n.data.memberId = (i : Int)

/-! ## Example states -/

/-- The globals after `addMember` with name `Ana` and email `ana@x.com` in
the initial state. -/
def ex_ana : State :=
  { init with
    member_list := [⟨1, ⟨1, "Ana".toList, "ana@x.com".toList⟩⟩]
    member_index := Function.update (fun _ => []) 1 [1]
    next_member_id := 2
    log := ["Added Member ID 1 (Ana)".toList] }

/-- The globals after Ana has been added and member 1 deleted. -/
def ex_deleted : State :=
  { init with
    member_index := Function.update (Function.update (fun _ => []) 1 [1]) 1 []
    next_member_id := 2
    log := ["Added Member ID 1 (Ana)".toList, "Deleted Member ID 1".toList] }

/-- The globals after Ana and the workspace `Desk` at `Floor1` (capacity 4,
price 500) have been added. -/
def ex_desk : State :=
  { ex_ana with
    workspace_list := [⟨1, "Desk".toList, "Floor1".toList, 4, 500⟩]
    next_workspace_id := 2
    log := ["Added Member ID 1 (Ana)".toList, "Added Workspace ID 1 (Desk)".toList] }

/-- The globals after `addMember` with an empty line typed for the name. -/
def ex_noname : State :=
  { init with
    member_list := [⟨1, ⟨1, [], "bo@x.com".toList⟩⟩]
    member_index := Function.update (fun _ => []) 1 [1]
    next_member_id := 2
    log := ["Added Member ID 1 ()".toList] }

/-- A workspaces file whose only record has a negative id. -/
def ex_negative_file : Files :=
  ⟨none, some "-3,Desk,Floor1,4,500\n".toList, none, none⟩

/-- A members file with two records that carry the same id. -/
def ex_twins_file : Files :=
  ⟨some "7,Ana,ana@x.com\n7,Bo,bo@x.com\n".toList, none, none, none⟩

/-- The globals after loading `ex_twins_file` in the initial state. -/
def ex_twins : State :=
  { init with
    member_list := [⟨1, ⟨7, "Ana".toList, "ana@x.com".toList⟩⟩,
      ⟨2, ⟨7, "Bo".toList, "bo@x.com".toList⟩⟩]
    member_index := Function.update (Function.update (fun _ => []) 7 [1]) 7 [2, 1]
    next_member_id := 8 }

/-- The globals after `deleteMember` with id 7 in `ex_twins`: the lookup
finds the node of Bo, at the head of the chain. -/
def ex_twins_deleted : State :=
  { init with
    member_list := [⟨1, ⟨7, "Ana".toList, "ana@x.com".toList⟩⟩]
    member_index :=
      Function.update (Function.update (Function.update (fun _ => []) 7 [1]) 7 [2, 1]) 7 [1]
    next_member_id := 8
    log := ["Deleted Member ID 7".toList] }

/-! ## Frames of update and delete -/

/-- The store of entity type `e` is the same in `s` and in `t`. -/
def same_store (e : Entity) (s t : State) : Prop :=
  match e with
  | .member => t.member_list = s.member_list
  | .workspace => t.workspace_list = s.workspace_list
  | .booking => t.booking_list = s.booking_list
  | .payment => t.payment_list = s.payment_list

/-- From `s` to `t` only the store of `e` may differ among the four stores,
and no counter differs. -/
def only_store_changed (e : Entity) (s t : State) : Prop :=
  (∀ e2, e2 ≠ e → same_store e2 s t) ∧ ∀ e2, next_id t e2 = next_id s e2

/-! ## Lock traces -/

/-- Events of the lock discipline: the three `pthread_rwlock_*` calls on the
lock of an entity type, and a read or a write of shared state of that type
(its list and the records in it, its counter, and for members the index). -/
inductive LockEvent where
  | rdlock (e : Entity)
  | wrlock (e : Entity)
  | unlock (e : Entity)
  | read (e : Entity)
  | write (e : Entity)
deriving DecidableEq, Repr

/-- Events of `addMember`, in statement order: lock, duplicate scan; then
either the early return, or `next_member_id++`, the link at the tail,
`add_to_index`, the `sprintf` of the new record, the unlock and the final
`printf` of `newNode->data.memberId`. -/
def addMember_trace (emailExists : Bool) : List LockEvent :=
  [.wrlock .member, .read .member] ++
    if emailExists then [.unlock .member]
    else [.write .member, .write .member, .write .member, .read .member, .unlock .member,
      .read .member]

/-- Events of `displayAllMembers`. -/
def displayAllMembers_trace : List LockEvent :=
  [.rdlock .member, .read .member, .unlock .member]

/-- Events of `updateMember`: lock, lookup; when found, the `printf` of the
old name and `getString` into `node->data.name`; unlock. -/
def updateMember_trace (found : Bool) : List LockEvent :=
  [.wrlock .member, .read .member] ++
    (if found then [.read .member, .write .member] else []) ++ [.unlock .member]

/-- Events of `deleteMember`: lock, lookup; when found, the unlink,
`remove_from_index` and `free`; unlock. -/
def deleteMember_trace (found : Bool) : List LockEvent :=
  [.wrlock .member, .read .member] ++
    (if found then [.write .member, .write .member, .write .member] else []) ++
    [.unlock .member]

/-- Events of `addWorkspace`: lock, `next_workspace_id++`, the link, the
`sprintf`, unlock, and the final `printf` of `newNode->data.workspaceId`. -/
def addWorkspace_trace : List LockEvent :=
  [.wrlock .workspace, .write .workspace, .write .workspace, .read .workspace,
    .unlock .workspace, .read .workspace]

/-- Events of `displayAllWorkspaces`. -/
def displayAllWorkspaces_trace : List LockEvent :=
  [.rdlock .workspace, .read .workspace, .unlock .workspace]

/-- Events of `updateWorkspace`: lock, search; when found, the `printf` of the
type and the two assignments; unlock. -/
def updateWorkspace_trace (found : Bool) : List LockEvent :=
  [.wrlock .workspace, .read .workspace] ++
    (if found then [.read .workspace, .write .workspace, .write .workspace] else []) ++
    [.unlock .workspace]

/-- Events of `deleteWorkspace`: lock, search; when found, the unlink and
`free`; unlock. -/
def deleteWorkspace_trace (found : Bool) : List LockEvent :=
  [.wrlock .workspace, .read .workspace] ++
    (if found then [.write .workspace, .write .workspace] else []) ++ [.unlock .workspace]

/-- Events of `addBooking`: the member check under the members read lock, the
workspace check under the workspaces read lock, then under the bookings write
lock `next_booking_id++`, the link and the `sprintf`; after the unlock, the
final `printf` of `newNode->data.bookingId`. -/
def addBooking_trace (memberFound workspaceFound : Bool) : List LockEvent :=
  [.rdlock .member, .read .member, .unlock .member] ++
    if memberFound then
      [.rdlock .workspace, .read .workspace, .unlock .workspace] ++
        if workspaceFound then
          [.wrlock .booking, .write .booking, .write .booking, .read .booking,
            .unlock .booking, .read .booking]
        else []
    else []

/-- Events of `displayAllBookings`. -/
def displayAllBookings_trace : List LockEvent :=
  [.rdlock .booking, .read .booking, .unlock .booking]

/-- Events of `updateBooking`: lock, search; when found, the `printf` of the
status, `getString` into it and the `sprintf` of it; unlock. -/
def updateBooking_trace (found : Bool) : List LockEvent :=
  [.wrlock .booking, .read .booking] ++
    (if found then [.read .booking, .write .booking, .read .booking] else []) ++
    [.unlock .booking]

/-- Events of `deleteBooking`. -/
def deleteBooking_trace (found : Bool) : List LockEvent :=
  [.wrlock .booking, .read .booking] ++
    (if found then [.write .booking, .write .booking] else []) ++ [.unlock .booking]

/-- Events of `addPayment`: the booking check under the bookings read lock,
then under the payments write lock `next_payment_id++`, the link and the
`sprintf`; after the unlock, the final `printf` of
`newNode->data.paymentId`. -/
def addPayment_trace (bookingFound : Bool) : List LockEvent :=
  [.rdlock .booking, .read .booking, .unlock .booking] ++
    if bookingFound then
      [.wrlock .payment, .write .payment, .write .payment, .read .payment,
        .unlock .payment, .read .payment]
    else []

/-- Events of `displayAllPayments`. -/
def displayAllPayments_trace : List LockEvent :=
  [.rdlock .payment, .read .payment, .unlock .payment]

/-- Events of `updatePayment`: lock, search; when found, the `printf` of the
status and `getString` into it; unlock. -/
def updatePayment_trace (found : Bool) : List LockEvent :=
  [.wrlock .payment, .read .payment] ++
    (if found then [.read .payment, .write .payment] else []) ++ [.unlock .payment]

/-- Events of `deletePayment`. -/
def deletePayment_trace (found : Bool) : List LockEvent :=
  [.wrlock .payment, .read .payment] ++
    (if found then [.write .payment, .write .payment] else []) ++ [.unlock .payment]

/-- Events of one save block of `save_all_data`, entered when its `fopen`
succeeds. -/
def save_block_trace (opened : Bool) (e : Entity) : List LockEvent :=
  if opened then [.rdlock e, .read e, .unlock e] else []

/-- Events of `save_all_data`. -/
def save_all_data_trace (ok : OpenOk) : List LockEvent :=
  save_block_trace ok.members .member ++ save_block_trace ok.workspaces .workspace ++
    save_block_trace ok.bookings .booking ++ save_block_trace ok.payments .payment

/-- A path through one of the sixteen menu operations or through
`save_all_data`: the function and the outcomes of its branches. -/
inductive Path where
  | addMember (emailExists : Bool)
  | displayAllMembers
  | updateMember (found : Bool)
  | deleteMember (found : Bool)
  | addWorkspace
  | displayAllWorkspaces
  | updateWorkspace (found : Bool)
  | deleteWorkspace (found : Bool)
  | addBooking (memberFound workspaceFound : Bool)
  | displayAllBookings
  | updateBooking (found : Bool)
  | deleteBooking (found : Bool)
  | addPayment (bookingFound : Bool)
  | displayAllPayments
  | updatePayment (found : Bool)
  | deletePayment (found : Bool)
  | save_all_data (ok : OpenOk)
deriving DecidableEq, Repr

/-- The events along a path. -/
def path_trace : Path → List LockEvent
  | .addMember b => addMember_trace b
  | .displayAllMembers => displayAllMembers_trace
  | .updateMember b => updateMember_trace b
  | .deleteMember b => deleteMember_trace b
  | .addWorkspace => addWorkspace_trace
  | .displayAllWorkspaces => displayAllWorkspaces_trace
  | .updateWorkspace b => updateWorkspace_trace b
  | .deleteWorkspace b => deleteWorkspace_trace b
  | .addBooking m w => addBooking_trace m w
  | .displayAllBookings => displayAllBookings_trace
  | .updateBooking b => updateBooking_trace b
  | .deleteBooking b => deleteBooking_trace b
  | .addPayment b => addPayment_trace b
  | .displayAllPayments => displayAllPayments_trace
  | .updatePayment b => updatePayment_trace b
  | .deletePayment b => deletePayment_trace b
  | .save_all_data ok => save_all_data_trace ok

/-- The path is an add that inserts a record. -/
def inserts : Path → Bool
  | .addMember emailExists => !emailExists
  | .addWorkspace => true
  | .addBooking m w => m && w
  | .addPayment b => b
  | _ => false

/-- Locks held after a trace that starts with the locks `held`; `none` when
the trace releases a lock that is not held. -/
def held_after : List Entity → List LockEvent → Option (List Entity)
  | held, [] => some held
  | held, .rdlock e :: tr => held_after (e :: held) tr
  | held, .wrlock e :: tr => held_after (e :: held) tr
  | held, .unlock e :: tr => if e ∈ held then held_after (held.erase e) tr else none
  | held, .read _ :: tr => held_after held tr
  | held, .write _ :: tr => held_after held tr

/-- The trace releases every lock it acquires, and no other. -/
def balanced (tr : List LockEvent) : Bool := held_after [] tr == some []

/-- Every read and write of the trace happens while the lock of its entity
type is held. -/
def guarded : List Entity → List LockEvent → Bool
  | _, [] => true
  | held, .rdlock e :: tr => guarded (e :: held) tr
  | held, .wrlock e :: tr => guarded (e :: held) tr
  | held, .unlock e :: tr => guarded (held.erase e) tr
  | held, .read e :: tr => held.contains e && guarded held tr
  | held, .write e :: tr => held.contains e && guarded held tr

/-! ## Formats and the records built from them -/

/-- The globals after `updateMember` for member 1 in `ex_ana` with an empty
line (just Enter) typed for the new name. -/
def ex_ana_renamed : State :=
  { ex_ana with
    member_list := [⟨1, ⟨1, [], "ana@x.com".toList⟩⟩]
    log := ["Added Member ID 1 (Ana)".toList, "Updated Member ID 1".toList] }

/-- The globals after a booking of member 1 at workspace 1 has been added in
`ex_desk`. -/
def ex_booked : State :=
  { ex_desk with
    booking_list := [⟨1, 1, 1, "2024-01-01T09:00".toList, "2024-01-01T17:00".toList,
      "Confirmed".toList⟩]
    next_booking_id := 2
    log := ["Added Member ID 1 (Ana)".toList, "Added Workspace ID 1 (Desk)".toList,
      "Added Booking ID 1 (Mem: 1, WS: 1)".toList] }

/-- Largest value of the 32-bit `int`. -/
def INT_MAX : Int := 2147483647

/-- Smallest value of the 32-bit `int`. -/
def INT_MIN : Int := -2147483648

/-- The integer `i` is a value of type `int`. -/
def is_int (i : Int) : Prop := INT_MIN ≤ i ∧ i ≤ INT_MAX

instance (i : Int) : Decidable (is_int i) := by
  unfold is_int
  exact inferInstance

/-- Files on which the integers of the embedding are the `int`s of the C
program during `load_all_data`: every number converted by `%d` in a record
that is read is a value of type `int` (the conversion is undefined
otherwise), and no id read is `INT_MAX` (`maxId + 1` overflows otherwise). -/
def FilesInRange (fs : Files) : Prop :=
  (∀ x ∈ file_records read_member fs.members, is_int x.memberId ∧ x.memberId < INT_MAX) ∧
  (∀ x ∈ file_records read_workspace fs.workspaces,
    is_int x.workspaceId ∧ x.workspaceId < INT_MAX ∧ is_int x.capacity ∧
      is_int x.price_in_cents) ∧
  (∀ x ∈ file_records read_booking fs.bookings,
    is_int x.bookingId ∧ x.bookingId < INT_MAX ∧ is_int x.memberId ∧ is_int x.workspaceId) ∧
  (∀ x ∈ file_records read_payment fs.payments,
    is_int x.paymentId ∧ x.paymentId < INT_MAX ∧ is_int x.bookingId ∧
      is_int x.amount_in_cents)

instance (fs : Files) : Decidable (FilesInRange fs) := by
  unfold FilesInRange
  exact inferInstance

/-! ## Standard input

The operations of the sections above take what each of their reads obtains.
Here the reads are made one after the other on the same standard input, as
`getString` and `getInt` make them: what one read leaves is what the next
one finds. -/

/-- Characters of the input up to and including the first newline. -/
def read_line : List Char → List Char
  | [] => []
  | c :: rest => if c = '\n' then [c] else c :: read_line rest

/-- Call `fgets(buffer, size, stdin)`: `none` at end of input (the call
returns `NULL` and stores nothing); otherwise the characters stored, which
stop after the first newline and are at most `size - 1`, and the input that
is left. -/
def fgets (size : Nat) (stdin : List Char) : Option (List Char × List Char) :=
  match stdin with
  | [] => none
  | _ :: _ =>
    let line := (read_line stdin).take (size - 1)
    some (line, stdin.drop line.length)

/-- Loop `while (getchar() != '\n');`: the input after the next newline;
`none` when the input ends before a newline, where `getchar` returns `EOF`
for ever and the loop does not end. -/
def skip_line : List Char → Option (List Char)
  | [] => none
  | c :: rest => if c = '\n' then some rest else skip_line rest

/-- Body of `getInt`, `fuel` bounding the turns of its retry loop: `scanf`
of `%d`; on a failure the rest of the line is discarded and the conversion
is tried again; on success the rest of the line is discarded and the value
returned.  `none` when the call does not return (the input ends first) or
the number typed is not a value of type `int` (undefined conversion). -/
def getInt_loop : Nat → List Char → Option (Int × List Char)
  | 0, _ => none
  | fuel + 1, stdin =>
    match scan_int stdin with
    | some (value, rest) =>
      if is_int value then (skip_line rest).map (fun r => (value, r)) else none
    | none =>
      match skip_line (skip_space stdin) with
      | none => none
      | some r => getInt_loop fuel r

/-- Call `getInt(prompt)` on standard input: the value returned and the input
left.  Every retry discards at least one character, so the length of the
input bounds the turns. -/
def getInt (stdin : List Char) : Option (Int × List Char) :=
  getInt_loop (stdin.length + 1) stdin

/-- Operation `addMember` on standard input.  When `fgets` stores nothing the
buffer of the node just allocated is read uninitialised by `strcspn`. -/
def addMember_stdin (s : State) (stdin : List Char) : Option (State × List Char) :=
  match fgets 100 stdin with
  | none => none
  | some (nameIn, r1) =>
    match fgets 100 r1 with
    | none => none
    | some (emailIn, r2) => (addMember s nameIn emailIn).map (fun t => (t, r2))

/-- Operation `updateMember` on standard input.  The buffer of `getString`
is the name of the node found: when `fgets` stores nothing the name stays
(cut at its first newline). -/
def updateMember_stdin (s : State) (stdin : List Char) : Option (State × List Char) :=
  match getInt stdin with
  | none => none
  | some (id, r1) =>
    match findMemberNodeById s id with
    | none => none
    | some none => some (s, r1)
    | some (some node) =>
      match fgets 100 r1 with
      | some (nameIn, r2) => (updateMember s id nameIn).map (fun t => (t, r2))
      | none => (updateMember s id node.data.name).map (fun t => (t, r1))

/-- Operation `deleteMember` on standard input. -/
def deleteMember_stdin (s : State) (stdin : List Char) : Option (State × List Char) :=
  match getInt stdin with
  | none => none
  | some (id, r1) => (deleteMember s id).map (fun t => (t, r1))

/-- Operation `addWorkspace` on standard input. -/
def addWorkspace_stdin (s : State) (stdin : List Char) : Option (State × List Char) :=
  match fgets 50 stdin with
  | none => none
  | some (typeIn, r1) =>
    match fgets 100 r1 with
    | none => none
    | some (locationIn, r2) =>
      match getInt r2 with
      | none => none
      | some (capacity, r3) =>
        match getInt r3 with
        | none => none
        | some (price, r4) =>
          (addWorkspace s typeIn locationIn capacity price).map (fun t => (t, r4))

/-- Operation `updateWorkspace` on standard input. -/
def updateWorkspace_stdin (s : State) (stdin : List Char) : Option (State × List Char) :=
  match getInt stdin with
  | none => none
  | some (id, r1) =>
    match findWorkspaceNodeById s id with
    | none => some (s, r1)
    | some _ =>
      match getInt r1 with
      | none => none
      | some (capacity, r2) =>
        match getInt r2 with
        | none => none
        | some (price, r3) => (updateWorkspace s id capacity price).map (fun t => (t, r3))

/-- Operation `deleteWorkspace` on standard input. -/
def deleteWorkspace_stdin (s : State) (stdin : List Char) : Option (State × List Char) :=
  match getInt stdin with
  | none => none
  | some (id, r1) => (deleteWorkspace s id).map (fun t => (t, r1))

/-- Operation `addBooking` on standard input: the two ids are read first,
the three text fields only when both integrity checks pass. -/
def addBooking_stdin (s : State) (stdin : List Char) : Option (State × List Char) :=
  match getInt stdin with
  | none => none
  | some (mId, r1) =>
    match getInt r1 with
    | none => none
    | some (wId, r2) =>
      match findMemberNodeById s mId with
      | none => none
      | some none => some (s, r2)
      | some (some _) =>
        match findWorkspaceNodeById s wId with
        | none => some (s, r2)
        | some _ =>
          match fgets 20 r2 with
          | none => none
          | some (startIn, r3) =>
            match fgets 20 r3 with
            | none => none
            | some (endIn, r4) =>
              match fgets 20 r4 with
              | none => none
              | some (statusIn, r5) =>
                (addBooking s mId wId startIn endIn statusIn).map (fun t => (t, r5))

/-- Operation `updateBooking` on standard input.  When `fgets` stores nothing
the status of the node found stays. -/
def updateBooking_stdin (s : State) (stdin : List Char) : Option (State × List Char) :=
  match getInt stdin with
  | none => none
  | some (id, r1) =>
    match findBookingNodeById s id with
    | none => some (s, r1)
    | some node =>
      match fgets 20 r1 with
      | some (statusIn, r2) => (updateBooking s id statusIn).map (fun t => (t, r2))
      | none => (updateBooking s id node.status).map (fun t => (t, r1))

/-- Operation `deleteBooking` on standard input. -/
def deleteBooking_stdin (s : State) (stdin : List Char) : Option (State × List Char) :=
  match getInt stdin with
  | none => none
  | some (id, r1) => (deleteBooking s id).map (fun t => (t, r1))

/-- Operation `addPayment` on standard input: the booking id, then, when the
booking exists, the amount, the date into `paymentDate[11]` and the status
into `status[20]`. -/
def addPayment_stdin (s : State) (stdin : List Char) : Option (State × List Char) :=
  match getInt stdin with
  | none => none
  | some (bId, r1) =>
    match findBookingNodeById s bId with
    | none => some (s, r1)
    | some _ =>
      match getInt r1 with
      | none => none
      | some (amount, r2) =>
        match fgets 11 r2 with
        | none => none
        | some (dateIn, r3) =>
          match fgets 20 r3 with
          | none => none
          | some (statusIn, r4) =>
            (addPayment s bId amount dateIn statusIn).map (fun t => (t, r4))

/-- Operation `updatePayment` on standard input.  When `fgets` stores nothing
the status of the node found stays. -/
def updatePayment_stdin (s : State) (stdin : List Char) : Option (State × List Char) :=
  match getInt stdin with
  | none => none
  | some (id, r1) =>
    match findPaymentNodeById s id with
    | none => some (s, r1)
    | some node =>
      match fgets 20 r1 with
      | some (statusIn, r2) => (updatePayment s id statusIn).map (fun t => (t, r2))
      | none => (updatePayment s id node.status).map (fun t => (t, r1))

/-- Operation `deletePayment` on standard input. -/
def deletePayment_stdin (s : State) (stdin : List Char) : Option (State × List Char) :=
  match getInt stdin with
  | none => none
  | some (id, r1) => (deletePayment s id).map (fun t => (t, r1))

/-- The twelve menu choices that change the stores, run on standard input. -/
def stdin_ops : List (State → List Char → Option (State × List Char)) :=
  [addMember_stdin, updateMember_stdin, deleteMember_stdin,
    addWorkspace_stdin, updateWorkspace_stdin, deleteWorkspace_stdin,
    addBooking_stdin, updateBooking_stdin, deleteBooking_stdin,
    addPayment_stdin, updatePayment_stdin, deletePayment_stdin]

/-! ## Further example states -/

/-- State `ex_booked` after a payment of 100 for booking 1 with the date
`2024-01-01` and the empty status. -/
def ex_paid_blank : State :=
  { ex_booked with
    payment_list := [⟨1, 1, 100, "2024-01-01".toList, []⟩]
    next_payment_id := 2
    log := ["Added Member ID 1 (Ana)".toList, "Added Workspace ID 1 (Desk)".toList,
      "Added Booking ID 1 (Mem: 1, WS: 1)".toList,
      "Added Payment ID 1 for Booking 1".toList] }

/-- Globals with the record `-1,Ana,ana@x.com` linked in the member list and
the buckets `0 .. INDEX_SIZE - 1` as they were: what the load of that line
leaves inside the arrays of the program. -/
def ex_orphan : State :=
  { init with member_list := [⟨1, ⟨-1, "Ana".toList, "ana@x.com".toList⟩⟩] }

/-! ## Heap and allocation -/

theorem deref_some {heap : List MemberNode} {p : Nat} {n : MemberNode}
    (h : deref heap p = some n) : n ∈ heap ∧ n.addr = p := by
  unfold deref at h
  exact ⟨List.mem_of_find?_eq_some h, by simpa using List.find?_some h⟩

theorem deref_of_mem {heap : List MemberNode} (hnd : (heap.map (fun n => n.addr)).Nodup)
    {n : MemberNode} (hn : n ∈ heap) : deref heap n.addr = some n := by
  induction heap with
  | nil => cases hn
  | cons x xs ih =>
    simp only [List.map_cons, List.nodup_cons, List.mem_map, not_exists, not_and] at hnd
    unfold deref
    rw [List.find?_cons]
    rcases List.mem_cons.1 hn with rfl | hmem
    · simp
    · have hne : x.addr ≠ n.addr := fun h => hnd.1 n hmem h.symm
      have : (x.addr == n.addr) = false := by simpa using hne
      rw [this]
      exact ih hnd.2 hmem

theorem lt_malloc {heap : List MemberNode} {n : MemberNode} (hn : n ∈ heap) :
    n.addr < malloc heap := by
  unfold malloc
  induction heap with
  | nil => cases hn
  | cons x xs ih =>
    simp only [List.map_cons, List.foldr_cons]
    rcases List.mem_cons.1 hn with rfl | hmem
    · omega
    · have := ih hmem
      omega

/-! ## The hash function -/

theorem hash_lt (id : Int) : hash_function id < 1009 := by
  unfold hash_function INDEX_SIZE
  exact Int.tmod_lt_of_pos _ (by decide)

theorem hash_eq_emod {id : Int} (h : 0 ≤ hash_function id) : hash_function id = id % 1009 := by
  unfold hash_function INDEX_SIZE at *
  rcases id with n | n
  · exact Int.tmod_eq_emod (Int.ofNat_nonneg n) (by decide)
  · have e : Int.tmod (Int.negSucc n) 1009 = -((((n + 1) % 1009 : Nat)) : Int) := rfl
    rw [e] at h ⊢
    have : (Int.negSucc n) = -((n : Int) + 1) := Int.negSucc_eq n
    rw [this]
    omega

theorem hash_of_nonneg {id : Int} (h : 0 ≤ id) : 0 ≤ hash_function id := by
  unfold hash_function
  exact Int.tmod_nonneg _ h

/-! ## The index invariant: insertion and in-place update -/

theorem bucket?_eq_some {idx : Nat → List Nat} {i : Int} {c : List Nat}
    (h : bucket? idx i = some c) : 0 ≤ i ∧ i < 1009 ∧ c = idx i.toNat := by
  unfold bucket? INDEX_SIZE at h
  split at h
  · rename_i hi
    simp only [Option.some.injEq] at h
    exact ⟨hi.1, hi.2, h.symm⟩
  · cases h

theorem bucket?_of_valid (idx : Nat → List Nat) {i : Int} (h : 0 ≤ i) (h2 : i < 1009) :
    bucket? idx i = some (idx i.toNat) := by
  unfold bucket? INDEX_SIZE
  rw [if_pos ⟨h, h2⟩]

theorem indexInv_init : IndexInv [] (fun _ => []) where
  nodup := List.nodup_nil
  valid := by intro n hn; cases hn
  once := by intro n hn; cases hn
  target := by intro i a ha; cases ha

theorem indexInv_add {l : List MemberNode} {idx idx2 : Nat → List Nat} (m : Member)
    (hinv : IndexInv l idx) (h : add_to_index idx ⟨malloc l, m⟩ = some idx2) :
    IndexInv (l ++ [⟨malloc l, m⟩]) idx2 := by
  unfold add_to_index at h
  simp only at h
  split at h
  · cases h
  · rename_i chain hb
    simp only [Option.some.injEq] at h
    obtain ⟨h0, h1, hc⟩ := bucket?_eq_some hb
    subst hc
    subst h
    have hfresh : ∀ j, malloc l ∉ idx j := by
      intro j hj
      obtain ⟨n, hn, ha, -⟩ := hinv.target j _ hj
      have := lt_malloc hn
      omega
    refine ⟨?_, ?_, ?_, ?_⟩
    · rw [List.map_append, List.nodup_append]
      refine ⟨hinv.nodup, by simp, ?_⟩
      intro a ha hb2
      simp only [List.map_cons, List.map_nil, List.mem_singleton] at hb2
      obtain ⟨n, hn, rfl⟩ := List.mem_map.1 ha
      have := lt_malloc hn
      omega
    · intro n hn
      rcases List.mem_append.1 hn with hn | hn
      · exact hinv.valid n hn
      · simp only [List.mem_singleton] at hn
        subst hn
        exact h0
    · intro n hn
      rcases List.mem_append.1 hn with hn | hn
      · have hne : malloc l ≠ n.addr := by
          have := lt_malloc hn
          omega
        by_cases hj : (hash_function n.data.memberId).toNat = (hash_function m.memberId).toNat
        · rw [hj, Function.update_same, List.count_cons_of_ne hne.symm, ← hj]
          exact hinv.once n hn
        · rw [Function.update_noteq hj]
          exact hinv.once n hn
      · simp only [List.mem_singleton] at hn
        subst hn
        simp only [Function.update_same, List.count_cons_self]
        rw [List.count_eq_zero_of_not_mem (hfresh _)]
    · intro i a ha
      by_cases hi : i = (hash_function m.memberId).toNat
      · subst hi
        rw [Function.update_same] at ha
        rcases List.mem_cons.1 ha with rfl | ha
        · exact ⟨⟨malloc l, m⟩, by simp, rfl, by simp only; omega⟩
        · obtain ⟨n, hn, h1, h2⟩ := hinv.target _ _ ha
          exact ⟨n, List.mem_append_left _ hn, h1, h2⟩
      · rw [Function.update_noteq hi] at ha
        obtain ⟨n, hn, h1, h2⟩ := hinv.target _ _ ha
        exact ⟨n, List.mem_append_left _ hn, h1, h2⟩

theorem indexInv_map {l : List MemberNode} {idx : Nat → List Nat} (f : MemberNode → MemberNode)
    (hf : ∀ n, (f n).addr = n.addr ∧ (f n).data.memberId = n.data.memberId)
    (hinv : IndexInv l idx) : IndexInv (l.map f) idx := by
  refine ⟨?_, ?_, ?_, ?_⟩
  · have : (l.map f).map (fun n => n.addr) = l.map (fun n => n.addr) := by
      rw [List.map_map]
      apply List.map_congr_left
      intro n _
      exact (hf n).1
    rw [this]
    exact hinv.nodup
  · intro n hn
    obtain ⟨n0, hn0, rfl⟩ := List.mem_map.1 hn
    rw [(hf n0).2]
    exact hinv.valid n0 hn0
  · intro n hn
    obtain ⟨n0, hn0, rfl⟩ := List.mem_map.1 hn
    rw [(hf n0).2, (hf n0).1]
    exact hinv.once n0 hn0
  · intro i a ha
    obtain ⟨n, hn, h1, h2⟩ := hinv.target i a ha
    exact ⟨f n, List.mem_map_of_mem f hn, by rw [(hf n).1, h1], by rw [(hf n).2, h2]⟩

/-! ## The index invariant: lookup and removal -/

theorem find_in_chain_some {heap : List MemberNode} {id : Int} {chain : List Nat}
    {node : MemberNode} (h : find_in_chain heap id chain = some (some node)) :
    node ∈ heap ∧ node.data.memberId = id ∧ node.addr ∈ chain ∧
      remove_from_chain heap id chain = some (chain.erase node.addr) := by
  induction chain with
  | nil => simp [find_in_chain] at h
  | cons t rest ih =>
    unfold find_in_chain at h
    unfold remove_from_chain
    cases hd : deref heap t with
    | none => rw [hd] at h; cases h
    | some n =>
      rw [hd] at h
      simp only at h ⊢
      obtain ⟨hmem, haddr⟩ := deref_some hd
      by_cases hid : n.data.memberId = id
      · rw [if_pos hid] at h
        simp only [Option.some.injEq] at h
        subst h
        rw [if_pos hid]
        refine ⟨hmem, hid, by simp [haddr], ?_⟩
        rw [haddr]
        simp
      · rw [if_neg hid] at h
        rw [if_neg hid]
        obtain ⟨h1, h2, h3, h4⟩ := ih h
        refine ⟨h1, h2, List.mem_cons_of_mem _ h3, ?_⟩
        rw [h4]
        have hne : t ≠ node.addr := by
          intro e
          have hfirst : deref heap node.addr = some n := by rw [← e]; exact hd
          -- the later entry that was found dereferences to `node` itself
          have : ∀ c : List Nat, find_in_chain heap id c = some (some node) →
              deref heap node.addr = some node := by
            intro c
            induction c with
            | nil => intro hc; simp [find_in_chain] at hc
            | cons u us ihc =>
              intro hc
              unfold find_in_chain at hc
              cases hu : deref heap u with
              | none => rw [hu] at hc; cases hc
              | some k =>
                rw [hu] at hc
                simp only at hc
                by_cases hk : k.data.memberId = id
                · rw [if_pos hk] at hc
                  simp only [Option.some.injEq] at hc
                  subst hc
                  rw [(deref_some hu).2]
                  exact hu
                · rw [if_neg hk] at hc
                  exact ihc hc
          have h5 := this rest h
          rw [hfirst] at h5
          simp only [Option.some.injEq] at h5
          exact hid (h5 ▸ h2)
        simp [List.erase_cons_tail, hne]

theorem find_in_chain_none {heap : List MemberNode} {id : Int} {chain : List Nat}
    (h : find_in_chain heap id chain = some none) :
    ∀ a ∈ chain, ∀ n, deref heap a = some n → n.data.memberId ≠ id := by
  induction chain with
  | nil => intro a ha; cases ha
  | cons t rest ih =>
    unfold find_in_chain at h
    cases hd : deref heap t with
    | none => rw [hd] at h; cases h
    | some n =>
      rw [hd] at h
      simp only at h
      by_cases hid : n.data.memberId = id
      · rw [if_pos hid] at h; cases h
      · rw [if_neg hid] at h
        intro a ha k hk
        rcases List.mem_cons.1 ha with rfl | ha
        · rw [hd] at hk
          simp only [Option.some.injEq] at hk
          exact hk ▸ hid
        · exact ih h a ha k hk

theorem find_in_chain_defined (heap : List MemberNode) (id : Int) (chain : List Nat)
    (hd : ∀ a ∈ chain, ∃ n, deref heap a = some n) :
    ∃ r, find_in_chain heap id chain = some r := by
  induction chain with
  | nil => exact ⟨none, rfl⟩
  | cons t rest ih =>
    obtain ⟨n, hn⟩ := hd t (List.mem_cons_self _ _)
    unfold find_in_chain
    rw [hn]
    simp only
    by_cases hid : n.data.memberId = id
    · rw [if_pos hid]; exact ⟨_, rfl⟩
    · rw [if_neg hid]
      exact ih (fun a ha => hd a (List.mem_cons_of_mem _ ha))

/-- Under the invariant every chain entry can be dereferenced. -/
theorem indexInv_deref {l : List MemberNode} {idx : Nat → List Nat} (hinv : IndexInv l idx)
    {i a : Nat} (ha : a ∈ idx i) :
    ∃ n, deref l a = some n ∧ n ∈ l ∧ hash_function n.data.memberId = (i : Int) := by
  obtain ⟨n, hn, h1, h2⟩ := hinv.target i a ha
  exact ⟨n, by rw [← h1]; exact deref_of_mem hinv.nodup hn, hn, h2⟩

/-- Lookup under the invariant, for an id whose hash is a valid subscript: it
is defined, it returns `NULL` exactly when no node of the list carries the
id, and a node it returns is in the list and carries the id. -/
theorem find_spec {s : State} (hinv : IndexInv s.member_list s.member_index) {id : Int}
    (hid : 0 ≤ hash_function id) :
    ∃ r, findMemberNodeById s id = some r ∧
      (r = none ↔ ∀ n ∈ s.member_list, n.data.memberId ≠ id) ∧
      (∀ n, r = some n → n ∈ s.member_list ∧ n.data.memberId = id) := by
  unfold findMemberNodeById
  rw [bucket?_of_valid _ hid (hash_lt id)]
  simp only
  obtain ⟨r, hr⟩ := find_in_chain_defined s.member_list id
    (s.member_index (hash_function id).toNat)
    (fun a ha => by
      obtain ⟨n, hn, -, -⟩ := indexInv_deref hinv ha
      exact ⟨n, hn⟩)
  refine ⟨r, hr, ?_, ?_⟩
  · constructor
    · intro hnone
      subst hnone
      intro n hn hnid
      have hcount := hinv.once n hn
      rw [hnid] at hcount
      have hmem : n.addr ∈ s.member_index (hash_function id).toNat := by
        apply List.count_pos_iff.1
        omega
      exact find_in_chain_none hr n.addr hmem n (deref_of_mem hinv.nodup hn) hnid
    · intro hall
      cases r with
      | none => rfl
      | some n =>
        obtain ⟨h1, h2, -, -⟩ := find_in_chain_some hr
        exact absurd h2 (hall n h1)
  · intro n hn
    subst hn
    obtain ⟨h1, h2, -, -⟩ := find_in_chain_some hr
    exact ⟨h1, h2⟩

theorem indexInv_delete {l : List MemberNode} {idx : Nat → List Nat} (hinv : IndexInv l idx)
    {id : Int} {node : MemberNode} (hid : 0 ≤ hash_function id)
    (hfind : find_in_chain l id (idx (hash_function id).toNat) = some (some node)) :
    IndexInv (l.filter (fun n => n.addr != node.addr))
      (Function.update idx (hash_function id).toNat
        ((idx (hash_function id).toNat).erase node.addr)) := by
  obtain ⟨hmem, hnid, hin, -⟩ := find_in_chain_some hfind
  have hcount := hinv.once node hmem
  rw [hnid] at hcount
  have huniq : ∀ n ∈ l, n.addr = node.addr → n = node := by
    intro n hn e
    have h1 := deref_of_mem hinv.nodup hn
    have h2 := deref_of_mem hinv.nodup hmem
    rw [e, h2] at h1
    simp only [Option.some.injEq] at h1
    exact h1.symm
  refine ⟨?_, ?_, ?_, ?_⟩
  · have hsub : List.Sublist (l.filter (fun n => n.addr != node.addr)) l :=
      List.filter_sublist l
    exact List.Nodup.sublist (List.Sublist.map _ hsub) hinv.nodup
  · intro n hn
    exact hinv.valid n (List.mem_filter.1 hn).1
  · intro n hn
    obtain ⟨hn1, hn2⟩ := List.mem_filter.1 hn
    have hne : n.addr ≠ node.addr := by simpa using hn2
    by_cases hj : (hash_function n.data.memberId).toNat = (hash_function id).toNat
    · rw [hj, Function.update_same, List.count_erase_of_ne hne, ← hj]
      exact hinv.once n hn1
    · rw [Function.update_noteq hj]
      exact hinv.once n hn1
  · intro i a ha
    by_cases hi : i = (hash_function id).toNat
    · subst hi
      rw [Function.update_same] at ha
      have ha2 : a ∈ idx (hash_function id).toNat := List.mem_of_mem_erase ha
      obtain ⟨n, hn, h1, h2⟩ := hinv.target _ _ ha2
      refine ⟨n, List.mem_filter.2 ⟨hn, ?_⟩, h1, h2⟩
      have hne : a ≠ node.addr := by
        intro e
        subst e
        have h0 : ((idx (hash_function id).toNat).erase node.addr).count node.addr = 0 := by
          rw [List.count_erase_self, hcount]
        exact (List.count_eq_zero.1 h0) ha
      simpa [h1] using hne
    · rw [Function.update_noteq hi] at ha
      obtain ⟨n, hn, h1, h2⟩ := hinv.target _ _ ha
      refine ⟨n, List.mem_filter.2 ⟨hn, ?_⟩, h1, h2⟩
      have hne : n.addr ≠ node.addr := by
        intro e
        have := huniq n hn e
        subst this
        rw [hnid] at h2
        apply hi
        omega
      simpa using hne

/-! ## The index invariant along runs -/

theorem indexInv_addMember {s t : State} {nm em : List Char}
    (hinv : IndexInv s.member_list s.member_index) (h : addMember s nm em = some t) :
    IndexInv t.member_list t.member_index := by
  unfold addMember at h
  simp only at h
  split at h
  · simp only [Option.some.injEq] at h
    subst h
    exact hinv
  · split at h
    · cases h
    · rename_i idx hidx
      simp only [Option.some.injEq] at h
      subst h
      exact indexInv_add _ hinv hidx

theorem indexInv_updateMember {s t : State} {id : Int} {nm : List Char}
    (hinv : IndexInv s.member_list s.member_index) (h : updateMember s id nm = some t) :
    IndexInv t.member_list t.member_index := by
  unfold updateMember at h
  split at h
  · cases h
  · simp only [Option.some.injEq] at h
    subst h
    exact hinv
  · rename_i node _
    simp only [Option.some.injEq] at h
    subst h
    apply indexInv_map _ _ hinv
    intro n
    by_cases e : n.addr = node.addr <;> simp [e]

theorem indexInv_deleteMember {s t : State} {id : Int}
    (hinv : IndexInv s.member_list s.member_index) (h : deleteMember s id = some t) :
    IndexInv t.member_list t.member_index := by
  unfold deleteMember at h
  split at h
  · cases h
  · simp only [Option.some.injEq] at h
    subst h
    exact hinv
  · rename_i node hfind
    split at h
    · cases h
    · rename_i idx hidx
      simp only [Option.some.injEq] at h
      subst h
      unfold findMemberNodeById at hfind
      unfold remove_from_index at hidx
      simp only at hidx
      cases hb : bucket? s.member_index (hash_function id) with
      | none => rw [hb] at hfind; cases hfind
      | some chain =>
        rw [hb] at hfind hidx
        simp only at hfind hidx
        obtain ⟨h0, -, hc⟩ := bucket?_eq_some hb
        subst hc
        obtain ⟨-, -, -, hrem⟩ := find_in_chain_some hfind
        rw [hrem] at hidx
        simp only [Option.map_some', Option.some.injEq] at hidx
        subst hidx
        exact indexInv_delete hinv h0 hfind

theorem indexInv_step {s t : State} {op : Op}
    (hinv : IndexInv s.member_list s.member_index) (h : step s op = some t) :
    IndexInv t.member_list t.member_index := by
  cases op with
  | addMember n e => exact indexInv_addMember hinv h
  | updateMember id n => exact indexInv_updateMember hinv h
  | deleteMember id => exact indexInv_deleteMember hinv h
  | addWorkspace a b c d =>
    simp only [step, addWorkspace, Option.some.injEq] at h
    subst h; exact hinv
  | updateWorkspace id c p =>
    simp only [step, updateWorkspace] at h
    split at h <;> (simp only [Option.some.injEq] at h; subst h; exact hinv)
  | deleteWorkspace id =>
    simp only [step, deleteWorkspace] at h
    split at h <;> (simp only [Option.some.injEq] at h; subst h; exact hinv)
  | addBooking m w a b c =>
    simp only [step, addBooking] at h
    split at h
    · cases h
    · simp only [Option.some.injEq] at h; subst h; exact hinv
    · split at h <;> (simp only [Option.some.injEq] at h; subst h; exact hinv)
  | updateBooking id st =>
    simp only [step, updateBooking] at h
    split at h <;> (simp only [Option.some.injEq] at h; subst h; exact hinv)
  | deleteBooking id =>
    simp only [step, deleteBooking] at h
    split at h <;> (simp only [Option.some.injEq] at h; subst h; exact hinv)
  | addPayment b a d st =>
    simp only [step, addPayment] at h
    split at h <;> (simp only [Option.some.injEq] at h; subst h; exact hinv)
  | updatePayment id st =>
    simp only [step, updatePayment] at h
    split at h <;> (simp only [Option.some.injEq] at h; subst h; exact hinv)
  | deletePayment id =>
    simp only [step, deletePayment] at h
    split at h <;> (simp only [Option.some.injEq] at h; subst h; exact hinv)

/-! Frame of the three loops that do not touch the members. -/

theorem load_workspaces_loop_frame (fuel : Nat) (f : List Char) (s : State) (m : Int) :
    ∃ l, (load_workspaces_loop fuel f s m).1 = { s with workspace_list := l } := by
  induction fuel generalizing f s m with
  | zero => exact ⟨s.workspace_list, rfl⟩
  | succ k ih =>
    unfold load_workspaces_loop
    split
    · obtain ⟨l, hl⟩ := ih _ _ _
      exact ⟨l, hl⟩
    · exact ⟨s.workspace_list, rfl⟩

theorem load_bookings_loop_frame (fuel : Nat) (f : List Char) (s : State) (m : Int) :
    ∃ l, (load_bookings_loop fuel f s m).1 = { s with booking_list := l } := by
  induction fuel generalizing f s m with
  | zero => exact ⟨s.booking_list, rfl⟩
  | succ k ih =>
    unfold load_bookings_loop
    split
    · obtain ⟨l, hl⟩ := ih _ _ _
      exact ⟨l, hl⟩
    · exact ⟨s.booking_list, rfl⟩

theorem load_payments_loop_frame (fuel : Nat) (f : List Char) (s : State) (m : Int) :
    ∃ l, (load_payments_loop fuel f s m).1 = { s with payment_list := l } := by
  induction fuel generalizing f s m with
  | zero => exact ⟨s.payment_list, rfl⟩
  | succ k ih =>
    unfold load_payments_loop
    split
    · obtain ⟨l, hl⟩ := ih _ _ _
      exact ⟨l, hl⟩
    · exact ⟨s.payment_list, rfl⟩

theorem load_workspaces_frame (file : Option (List Char)) (s : State) :
    ∃ l c, load_workspaces file s = { s with workspace_list := l, next_workspace_id := c } := by
  cases file with
  | none => exact ⟨s.workspace_list, s.next_workspace_id, rfl⟩
  | some f =>
    obtain ⟨l, hl⟩ := load_workspaces_loop_frame (f.length + 1) f s 0
    refine ⟨l, (load_workspaces_loop (f.length + 1) f s 0).2 + 1, ?_⟩
    simp only [load_workspaces]
    rw [hl]

theorem load_bookings_frame (file : Option (List Char)) (s : State) :
    ∃ l c, load_bookings file s = { s with booking_list := l, next_booking_id := c } := by
  cases file with
  | none => exact ⟨s.booking_list, s.next_booking_id, rfl⟩
  | some f =>
    obtain ⟨l, hl⟩ := load_bookings_loop_frame (f.length + 1) f s 0
    refine ⟨l, (load_bookings_loop (f.length + 1) f s 0).2 + 1, ?_⟩
    simp only [load_bookings]
    rw [hl]

theorem load_payments_frame (file : Option (List Char)) (s : State) :
    ∃ l c, load_payments file s = { s with payment_list := l, next_payment_id := c } := by
  cases file with
  | none => exact ⟨s.payment_list, s.next_payment_id, rfl⟩
  | some f =>
    obtain ⟨l, hl⟩ := load_payments_loop_frame (f.length + 1) f s 0
    refine ⟨l, (load_payments_loop (f.length + 1) f s 0).2 + 1, ?_⟩
    simp only [load_payments]
    rw [hl]

theorem indexInv_load_members_loop (fuel : Nat) (f : List Char) (s : State) (m : Int)
    (r : State × Int) (hinv : IndexInv s.member_list s.member_index)
    (h : load_members_loop fuel f s m = some r) :
    IndexInv r.1.member_list r.1.member_index := by
  induction fuel generalizing f s m with
  | zero =>
    simp only [load_members_loop, Option.some.injEq] at h
    subst h; exact hinv
  | succ k ih =>
    unfold load_members_loop at h
    split at h
    · simp only at h
      split at h
      · cases h
      · rename_i idx hidx
        exact ih _ _ _ (indexInv_add _ hinv hidx) h
    · simp only [Option.some.injEq] at h
      subst h; exact hinv

theorem indexInv_load {fs : Files} {s t : State}
    (hinv : IndexInv s.member_list s.member_index) (h : load_all_data fs s = some t) :
    IndexInv t.member_list t.member_index := by
  unfold load_all_data at h
  cases h1 : load_members fs.members s with
  | none => rw [h1] at h; cases h
  | some s1 =>
    rw [h1] at h
    simp only [Option.map_some', Option.some.injEq] at h
    have hinv1 : IndexInv s1.member_list s1.member_index := by
      unfold load_members at h1
      cases hf : fs.members with
      | none =>
        rw [hf] at h1
        simp only [Option.some.injEq] at h1
        subst h1; exact hinv
      | some f =>
        rw [hf] at h1
        simp only at h1
        cases hl : load_members_loop (f.length + 1) f s 0 with
        | none => rw [hl] at h1; cases h1
        | some r =>
          rw [hl] at h1
          simp only [Option.map_some', Option.some.injEq] at h1
          subst h1
          exact indexInv_load_members_loop _ _ _ _ _ hinv hl
    obtain ⟨l1, c1, e1⟩ := load_workspaces_frame fs.workspaces s1
    obtain ⟨l2, c2, e2⟩ := load_bookings_frame fs.bookings (load_workspaces fs.workspaces s1)
    obtain ⟨l3, c3, e3⟩ := load_payments_frame fs.payments
      (load_bookings fs.bookings (load_workspaces fs.workspaces s1))
    rw [e3, e2, e1] at h
    subst h
    exact hinv1

theorem indexInv_of_indexReach {s : State} (h : IndexReach s) :
    IndexInv s.member_list s.member_index := by
  induction h with
  | init => exact indexInv_init
  | load fs s t _ h ih => exact indexInv_load ih h
  | step s t op _ h ih => exact indexInv_step ih h

theorem indexReach_of_reachable {s : State} (h : Reachable s) : IndexReach s := by
  induction h with
  | boot fs s h => exact IndexReach.load fs init s IndexReach.init h
  | step s t op _ h ih => exact IndexReach.step s t op ih h

theorem lockstep_of_indexInv {s : State} (hinv : IndexInv s.member_list s.member_index) :
    Lockstep s := by
  refine ⟨hinv.nodup, ?_, ?_⟩
  · intro n hn
    have hv := hinv.valid n hn
    have he := hash_eq_emod hv
    rw [← he]
    refine ⟨hinv.once n hn, ?_⟩
    intro j hj hmem
    obtain ⟨k, hk, h1, h2⟩ := hinv.target j _ hmem
    have h3 := deref_of_mem hinv.nodup hk
    rw [h1, deref_of_mem hinv.nodup hn] at h3
    simp only [Option.some.injEq] at h3
    subst h3
    apply hj
    omega
  · intro i a ha
    obtain ⟨n, hn, h1, h2⟩ := hinv.target i a ha
    have := hash_lt n.data.memberId
    exact ⟨by omega, n, hn, h1⟩

/-! ## Printing and scanning integers -/

theorem digitChar_spec {d : Nat} (h : d < 10) :
    isdigit (digitChar d) = true ∧ (digitChar d).toNat - 48 = d := by
  interval_cases d <;> decide

theorem isdigit_not_space {c : Char} (h : isdigit c = true) :
    isspace c = false ∧ c ≠ '-' ∧ c ≠ '+' ∧ c ≠ ',' ∧ c ≠ '\n' := by
  refine ⟨?_, ?_, ?_, ?_, ?_⟩
  · by_contra hs
    simp only [Bool.not_eq_false] at hs
    unfold isspace at hs
    simp only [Bool.or_eq_true, beq_iff_eq] at hs
    rcases hs with ((((rfl | rfl) | rfl) | rfl) | rfl) | rfl <;> revert h <;> decide
  all_goals (rintro rfl; revert h; decide)

theorem fmt_nat_fuel_digits (fuel n : Nat) : ∀ c ∈ fmt_nat_fuel fuel n, isdigit c = true := by
  induction fuel generalizing n with
  | zero => intro c hc; simp [fmt_nat_fuel] at hc
  | succ k ih =>
    intro c hc
    unfold fmt_nat_fuel at hc
    split at hc
    · rename_i hlt
      simp only [List.mem_singleton] at hc
      subst hc
      exact (digitChar_spec hlt).1
    · rcases List.mem_append.1 hc with hc | hc
      · exact ih _ c hc
      · simp only [List.mem_singleton] at hc
        subst hc
        exact (digitChar_spec (Nat.mod_lt _ (by decide))).1

theorem fmt_nat_fuel_ne_nil (fuel n : Nat) : fmt_nat_fuel (fuel + 1) n ≠ [] := by
  unfold fmt_nat_fuel
  split <;> simp

theorem scan_digits_append (ds rest : List Char) (acc : Nat)
    (hds : ∀ c ∈ ds, isdigit c = true) :
    scan_digits acc (ds ++ rest) =
      scan_digits (ds.foldl (fun a c => a * 10 + (c.toNat - 48)) acc) rest := by
  induction ds generalizing acc with
  | nil => rfl
  | cons d ds ih =>
    simp only [List.cons_append, List.foldl_cons]
    rw [scan_digits, if_pos (hds d (List.mem_cons_self _ _))]
    exact ih _ (fun c hc => hds c (List.mem_cons_of_mem _ hc))

theorem fmt_nat_fuel_value (fuel n acc : Nat) (h : n < fuel) :
    (fmt_nat_fuel fuel n).foldl (fun a c => a * 10 + (c.toNat - 48)) acc =
      acc * 10 ^ (fmt_nat_fuel fuel n).length + n := by
  induction fuel generalizing n acc with
  | zero => omega
  | succ k ih =>
    unfold fmt_nat_fuel
    split
    · rename_i hlt
      simp only [List.foldl_cons, List.foldl_nil, List.length_singleton, pow_one]
      rw [(digitChar_spec hlt).2]
    · rename_i hge
      have hk : n / 10 < k := by omega
      rw [List.foldl_append, ih _ _ hk]
      simp only [List.foldl_cons, List.foldl_nil, List.length_append, List.length_singleton]
      rw [(digitChar_spec (Nat.mod_lt n (by decide : 0 < 10))).2, pow_succ]
      have := Nat.div_add_mod n 10
      nlinarith [this]

theorem scan_digits_stop (acc : Nat) (c : Char) (rest : List Char) (hc : isdigit c = false) :
    scan_digits acc (c :: rest) = (acc, c :: rest) := by
  unfold scan_digits
  simp [hc]

theorem scan_unsigned_fmt (n : Nat) (c : Char) (rest : List Char) (hc : isdigit c = false) :
    scan_unsigned (fmt_nat n ++ c :: rest) = some (n, c :: rest) := by
  unfold fmt_nat
  have hne := fmt_nat_fuel_ne_nil n n
  have hdig := fmt_nat_fuel_digits (n + 1) n
  have hval := fmt_nat_fuel_value (n + 1) n 0 (by omega)
  generalize fmt_nat_fuel (n + 1) n = ds at hne hdig hval
  cases ds with
  | nil => exact absurd rfl hne
  | cons d ds =>
    simp only [List.cons_append]
    rw [scan_unsigned, if_pos (hdig d (List.mem_cons_self _ _))]
    have := scan_digits_append (d :: ds) (c :: rest) 0 hdig
    simp only [List.cons_append] at this
    rw [this, hval, scan_digits_stop _ _ _ hc]
    simp

theorem fmt_int_head (i : Int) :
    ∃ d ds, fmt_int i = d :: ds ∧ isspace d = false := by
  rcases i with n | n
  · have hne := fmt_nat_fuel_ne_nil n n
    have hdig := fmt_nat_fuel_digits (n + 1) n
    show ∃ d ds, fmt_nat n = d :: ds ∧ isspace d = false
    unfold fmt_nat
    generalize fmt_nat_fuel (n + 1) n = ds at hne hdig
    cases ds with
    | nil => exact absurd rfl hne
    | cons d ds => exact ⟨d, ds, rfl, (isdigit_not_space (hdig d (List.mem_cons_self _ _))).1⟩
  · exact ⟨'-', fmt_nat (n + 1), rfl, by decide⟩

theorem skip_space_cons {d : Char} (h : isspace d = false) (rest : List Char) :
    skip_space (d :: rest) = d :: rest := by
  unfold skip_space
  rw [List.dropWhile_cons]
  simp [h]

theorem scan_int_fmt (i : Int) (c : Char) (rest : List Char) (hc : isdigit c = false) :
    scan_int (fmt_int i ++ c :: rest) = some (i, c :: rest) := by
  rcases i with n | n
  · have hne := fmt_nat_fuel_ne_nil n n
    have hdig := fmt_nat_fuel_digits (n + 1) n
    have hscan := scan_unsigned_fmt n c rest hc
    show scan_int (fmt_nat n ++ c :: rest) = some (Int.ofNat n, c :: rest)
    unfold fmt_nat at hscan ⊢
    generalize fmt_nat_fuel (n + 1) n = ds at hne hdig hscan
    cases ds with
    | nil => exact absurd rfl hne
    | cons d ds =>
      obtain ⟨h1, h2, h3, -, -⟩ := isdigit_not_space (hdig d (List.mem_cons_self _ _))
      unfold scan_int
      simp only [List.cons_append] at hscan ⊢
      rw [skip_space_cons h1]
      simp only [h2, h3, if_false]
      rw [hscan]
      rfl
  · show scan_int (('-' :: fmt_nat (n + 1)) ++ c :: rest) = some (Int.negSucc n, c :: rest)
    unfold scan_int
    simp only [List.cons_append]
    rw [skip_space_cons (by decide)]
    simp only [if_true]
    rw [scan_unsigned_fmt (n + 1) c rest hc]
    simp only [Option.map_some', Option.some.injEq, Prod.mk.injEq, and_true]
    rw [Int.negSucc_eq]
    push_cast
    ring

/-! ## Reading back a written line -/

theorem fscanf_int (ds : List Directive) (i : Int) (c : Char) (rest : List Char)
    (hc : isdigit c = false) :
    fscanf (Directive.int :: ds) (fmt_int i ++ c :: rest) =
      (Value.int i :: (fscanf ds (c :: rest)).1, (fscanf ds (c :: rest)).2) := by
  rw [fscanf, scan_int_fmt i c rest hc]

theorem fscanf_lit (ds : List Directive) (c : Char) (rest : List Char) :
    fscanf (Directive.lit c :: ds) (c :: rest) = fscanf ds rest := by
  rw [fscanf, if_pos rfl]

theorem cstr_of_fits {w : Nat} {f : List Char} (h : fits w f) : cstr f = f := by
  unfold cstr
  rw [List.takeWhile_eq_self_iff]
  intro c hc
  have : c ≠ Char.ofNat 0 := fun e => h.2 (e ▸ hc)
  simpa using this

theorem scan_set_field {w : Nat} {stop : Char} {f : List Char} (rest : List Char)
    (hstop : stop ∉ f) (hlen : f.length ≤ w) :
    scan_set w stop (f ++ stop :: rest) = f := by
  unfold scan_set
  rw [List.takeWhile_append_of_pos, List.takeWhile_cons_of_neg, List.append_nil,
    List.take_of_length_le hlen]
  · simp
  · intro c hc
    have : c ≠ stop := fun e => hstop (e ▸ hc)
    simpa using this

theorem fscanf_set (ds : List Directive) {w : Nat} {stop : Char} {f : List Char}
    (rest : List Char) (hne : f ≠ []) (hstop : stop ∉ f) (hfit : fits w f) :
    fscanf (Directive.scanset w stop :: ds) (f ++ stop :: rest) =
      (Value.str f :: (fscanf ds (stop :: rest)).1, (fscanf ds (stop :: rest)).2) := by
  rw [fscanf, scan_set_field rest hstop hfit.1, if_neg hne, cstr_of_fits hfit,
    List.drop_left]

theorem fscanf_space (inp : List Char) :
    fscanf [Directive.space] inp = ([], skip_space inp) := by
  rw [fscanf, fscanf]

theorem skip_space_newline (rest : List Char) : skip_space ('\n' :: rest) = skip_space rest := by
  unfold skip_space
  rw [List.dropWhile_cons]
  simp [isspace]

theorem isdigit_comma : isdigit ',' = false := by decide
theorem isdigit_newline : isdigit '\n' = false := by decide

theorem read_member_line (m : Member) (tail : List Char)
    (hc : clean m.name ∧ clean m.email) (hf : fits 99 m.name ∧ fits 99 m.email) :
    read_member (member_line m ++ tail) = some (m, skip_space tail) := by
  obtain ⟨⟨n1, n2, -⟩, ⟨e1, -, e3⟩⟩ := hc
  unfold read_member member_line MEMBER_FORMAT
  simp only [List.append_assoc, List.cons_append, List.nil_append]
  rw [fscanf_int _ _ _ _ isdigit_comma, fscanf_lit, fscanf_set _ _ n1 n2 hf.1, fscanf_lit,
    fscanf_set _ _ e1 e3 hf.2, fscanf_space, skip_space_newline]

theorem read_workspace_line (w : Workspace) (tail : List Char)
    (hc : clean w.type ∧ clean w.location) (hf : fits 49 w.type ∧ fits 99 w.location) :
    read_workspace (workspace_line w ++ tail) = some (w, skip_space tail) := by
  obtain ⟨⟨n1, n2, -⟩, ⟨e1, e2, -⟩⟩ := hc
  unfold read_workspace workspace_line WORKSPACE_FORMAT
  simp only [List.append_assoc, List.cons_append, List.nil_append]
  rw [fscanf_int _ _ _ _ isdigit_comma, fscanf_lit, fscanf_set _ _ n1 n2 hf.1, fscanf_lit,
    fscanf_set _ _ e1 e2 hf.2, fscanf_lit, fscanf_int _ _ _ _ isdigit_comma, fscanf_lit,
    fscanf_int _ _ _ _ isdigit_newline, fscanf_space, skip_space_newline]

theorem read_booking_line (b : Booking) (tail : List Char)
    (hc : clean b.startTime ∧ clean b.endTime ∧ clean b.status)
    (hf : fits 19 b.startTime ∧ fits 19 b.endTime ∧ fits 19 b.status) :
    read_booking (booking_line b ++ tail) = some (b, skip_space tail) := by
  obtain ⟨⟨a1, a2, -⟩, ⟨b1, b2, -⟩, ⟨c1, -, c3⟩⟩ := hc
  unfold read_booking booking_line BOOKING_FORMAT
  simp only [List.append_assoc, List.cons_append, List.nil_append]
  rw [fscanf_int _ _ _ _ isdigit_comma, fscanf_lit, fscanf_int _ _ _ _ isdigit_comma,
    fscanf_lit, fscanf_int _ _ _ _ isdigit_comma, fscanf_lit, fscanf_set _ _ a1 a2 hf.1,
    fscanf_lit, fscanf_set _ _ b1 b2 hf.2.1, fscanf_lit, fscanf_set _ _ c1 c3 hf.2.2,
    fscanf_space, skip_space_newline]

theorem read_payment_line (p : Payment) (tail : List Char)
    (hc : clean p.paymentDate ∧ clean p.status)
    (hf : fits 10 p.paymentDate ∧ fits 19 p.status) :
    read_payment (payment_line p ++ tail) = some (p, skip_space tail) := by
  obtain ⟨⟨a1, a2, -⟩, ⟨c1, -, c3⟩⟩ := hc
  unfold read_payment payment_line PAYMENT_FORMAT
  simp only [List.append_assoc, List.cons_append, List.nil_append]
  rw [fscanf_int _ _ _ _ isdigit_comma, fscanf_lit, fscanf_int _ _ _ _ isdigit_comma,
    fscanf_lit, fscanf_int _ _ _ _ isdigit_comma, fscanf_lit, fscanf_set _ _ a1 a2 hf.1,
    fscanf_lit, fscanf_set _ _ c1 c3 hf.2, fscanf_space, skip_space_newline]

/-- Text written by a save loop starts with a character that is not white
space, when every line starts with a `%d` field. -/
theorem skip_space_write_lines {α : Type} (line : α → List Char)
    (hline : ∀ x, ∃ d ds, line x = d :: ds ∧ isspace d = false) (xs : List α) :
    skip_space (write_lines line xs) = write_lines line xs := by
  cases xs with
  | nil => rfl
  | cons x rest =>
    obtain ⟨d, ds, h1, h2⟩ := hline x
    simp only [write_lines, h1, List.cons_append]
    exact skip_space_cons h2 _

theorem line_head_of_fmt_int (i : Int) (rest : List Char) :
    ∃ d ds, fmt_int i ++ rest = d :: ds ∧ isspace d = false := by
  obtain ⟨d, ds, h1, h2⟩ := fmt_int_head i
  exact ⟨d, ds ++ rest, by rw [h1]; rfl, h2⟩

/-- Reading back what a save loop wrote: the records come back, in order. -/
theorem scan_records_write_lines {α : Type} (read : List Char → Option (α × List Char))
    (line : α → List Char) (good : α → Prop)
    (hline : ∀ x, ∃ d ds, line x = d :: ds ∧ isspace d = false)
    (hread : ∀ x tail, good x → read (line x ++ tail) = some (x, skip_space tail))
    (hnil : read [] = none)
    (xs : List α) (hgood : ∀ x ∈ xs, good x) (fuel : Nat) (hfuel : xs.length < fuel) :
    scan_records read fuel (write_lines line xs) = xs := by
  induction xs generalizing fuel with
  | nil =>
    cases fuel with
    | zero => rfl
    | succ k => simp [scan_records, write_lines, hnil]
  | cons x rest ih =>
    cases fuel with
    | zero => simp at hfuel
    | succ k =>
      simp only [write_lines, scan_records]
      rw [hread x _ (hgood x (List.mem_cons_self _ _)), skip_space_write_lines line hline]
      simp only
      rw [ih (fun y hy => hgood y (List.mem_cons_of_mem _ hy)) k
        (by simp only [List.length_cons] at hfuel; omega)]

theorem length_write_lines {α : Type} (line : α → List Char)
    (hline : ∀ x, ∃ d ds, line x = d :: ds ∧ isspace d = false) (xs : List α) :
    xs.length ≤ (write_lines line xs).length := by
  induction xs with
  | nil => simp
  | cons x rest ih =>
    obtain ⟨d, ds, h1, -⟩ := hline x
    simp only [write_lines, h1, List.cons_append, List.length_cons, List.length_append]
    omega

/-! ## The load loops -/

theorem load_workspaces_loop_eq (fuel : Nat) (f : List Char) (s : State) (m : Int) :
    load_workspaces_loop fuel f s m =
      ({ s with workspace_list := s.workspace_list ++ scan_records read_workspace fuel f },
        (scan_records read_workspace fuel f).foldl
          (fun m w => if w.workspaceId > m then w.workspaceId else m) m) := by
  induction fuel generalizing f s m with
  | zero => simp [load_workspaces_loop, scan_records]
  | succ k ih =>
    unfold load_workspaces_loop scan_records
    cases h : read_workspace f with
    | none => simp
    | some r =>
      obtain ⟨x, rest⟩ := r
      simp only [ih, List.foldl_cons, List.append_assoc, List.singleton_append]

theorem load_bookings_loop_eq (fuel : Nat) (f : List Char) (s : State) (m : Int) :
    load_bookings_loop fuel f s m =
      ({ s with booking_list := s.booking_list ++ scan_records read_booking fuel f },
        (scan_records read_booking fuel f).foldl
          (fun m b => if b.bookingId > m then b.bookingId else m) m) := by
  induction fuel generalizing f s m with
  | zero => simp [load_bookings_loop, scan_records]
  | succ k ih =>
    unfold load_bookings_loop scan_records
    cases h : read_booking f with
    | none => simp
    | some r =>
      obtain ⟨x, rest⟩ := r
      simp only [ih, List.foldl_cons, List.append_assoc, List.singleton_append]

theorem load_payments_loop_eq (fuel : Nat) (f : List Char) (s : State) (m : Int) :
    load_payments_loop fuel f s m =
      ({ s with payment_list := s.payment_list ++ scan_records read_payment fuel f },
        (scan_records read_payment fuel f).foldl
          (fun m p => if p.paymentId > m then p.paymentId else m) m) := by
  induction fuel generalizing f s m with
  | zero => simp [load_payments_loop, scan_records]
  | succ k ih =>
    unfold load_payments_loop scan_records
    cases h : read_payment f with
    | none => simp
    | some r =>
      obtain ⟨x, rest⟩ := r
      simp only [ih, List.foldl_cons, List.append_assoc, List.singleton_append]

theorem load_members_loop_eq (fuel : Nat) (f : List Char) (s : State) (m : Int)
    (hv : ∀ x ∈ scan_records read_member fuel f, 0 ≤ hash_function x.memberId) :
    ∃ l idx, load_members_loop fuel f s m =
        some ({ s with member_list := l, member_index := idx },
          (scan_records read_member fuel f).foldl
            (fun m x => if x.memberId > m then x.memberId else m) m) ∧
      l.map (fun n => n.data) =
        s.member_list.map (fun n => n.data) ++ scan_records read_member fuel f := by
  induction fuel generalizing f s m with
  | zero => exact ⟨s.member_list, s.member_index, rfl, by simp [scan_records]⟩
  | succ k ih =>
    unfold load_members_loop
    unfold scan_records at hv ⊢
    cases h : read_member f with
    | none => exact ⟨s.member_list, s.member_index, rfl, by simp⟩
    | some r =>
      obtain ⟨x, rest⟩ := r
      rw [h] at hv
      simp only [List.mem_cons, forall_eq_or_imp] at hv
      simp only
      have hb : add_to_index s.member_index ⟨malloc s.member_list, x⟩ =
          some (Function.update s.member_index (hash_function x.memberId).toNat
            (malloc s.member_list :: s.member_index (hash_function x.memberId).toNat)) := by
        unfold add_to_index
        simp only
        rw [bucket?_of_valid _ hv.1 (hash_lt _)]
      rw [hb]
      simp only
      obtain ⟨l, idx, h1, h2⟩ := ih rest
        { s with
          member_list := s.member_list ++ [⟨malloc s.member_list, x⟩]
          member_index := Function.update s.member_index (hash_function x.memberId).toNat
            (malloc s.member_list :: s.member_index (hash_function x.memberId).toNat) }
        (if x.memberId > m then x.memberId else m) hv.2
      refine ⟨l, idx, ?_, ?_⟩
      · rw [h1]
        simp only [List.foldl_cons]
      · rw [h2]
        simp

/-- A load loop that goes through hands every record read to `add_to_index`
with a valid hash. -/
theorem load_members_loop_valid (fuel : Nat) (f : List Char) (s : State) (m : Int)
    (r : State × Int) (h : load_members_loop fuel f s m = some r) :
    ∀ x ∈ scan_records read_member fuel f, 0 ≤ hash_function x.memberId := by
  induction fuel generalizing f s m with
  | zero => intro x hx; simp [scan_records] at hx
  | succ k ih =>
    unfold load_members_loop at h
    unfold scan_records
    cases hr : read_member f with
    | none => intro x hx; simp at hx
    | some p =>
      obtain ⟨y, rest⟩ := p
      rw [hr] at h
      simp only at h
      split at h
      · cases h
      · rename_i idx hidx
        intro x hx
        simp only [List.mem_cons] at hx
        rcases hx with rfl | hx
        · unfold add_to_index at hidx
          simp only at hidx
          split at hidx
          · cases hidx
          · rename_i chain hb
            exact (bucket?_eq_some hb).1
        · exact ih _ _ _ h x hx

theorem max_id_map {α : Type} (key : α → Int) (xs : List α) :
    xs.foldl (fun m x => if key x > m then key x else m) 0 = max_id (xs.map key) := by
  unfold max_id
  rw [List.foldl_map]

theorem foldl_max_spec (ids : List Int) (m : Int) :
    m ≤ ids.foldl (fun m i => if i > m then i else m) m ∧
      ∀ i ∈ ids, i ≤ ids.foldl (fun m i => if i > m then i else m) m := by
  induction ids generalizing m with
  | nil => exact ⟨le_refl _, by intro i hi; cases hi⟩
  | cons a rest ih =>
    simp only [List.foldl_cons]
    obtain ⟨h1, h2⟩ := ih (if a > m then a else m)
    by_cases ham : a > m
    · simp only [ham, if_true] at h1 h2 ⊢
      refine ⟨by omega, ?_⟩
      intro i hi
      rcases List.mem_cons.1 hi with rfl | hi
      · exact h1
      · exact h2 i hi
    · simp only [ham, if_false] at h1 h2 ⊢
      refine ⟨h1, ?_⟩
      intro i hi
      rcases List.mem_cons.1 hi with rfl | hi
      · omega
      · exact h2 i hi

theorem max_id_spec (ids : List Int) : 0 ≤ max_id ids ∧ ∀ i ∈ ids, i ≤ max_id ids :=
  foldl_max_spec ids 0

/-- What `load_all_data` does to the initial globals: it goes through as soon
as every member id read hashes to a valid bucket; each store then holds the
records of its file, in file order, and each counter is one above the
greatest of 0 and the ids read. -/
theorem load_all_data_init (fs : Files)
    (hv : ∀ x ∈ file_records read_member fs.members, 0 ≤ hash_function x.memberId) :
    ∃ t, load_all_data fs init = some t ∧
      t.member_list.map (fun n => n.data) = file_records read_member fs.members ∧
      t.workspace_list = file_records read_workspace fs.workspaces ∧
      t.booking_list = file_records read_booking fs.bookings ∧
      t.payment_list = file_records read_payment fs.payments ∧
      (∀ e, next_id t e = max_id (store_ids t e) + 1) ∧ t.log = [] := by
  obtain ⟨mf, wf, bf, pf⟩ := fs
  have hm : ∃ s1, load_members mf init = some s1 ∧
      s1.member_list.map (fun n => n.data) = file_records read_member mf ∧
      s1.next_member_id = max_id ((file_records read_member mf).map (fun x => x.memberId)) + 1 ∧
      s1.workspace_list = [] ∧ s1.booking_list = [] ∧ s1.payment_list = [] ∧
      s1.next_workspace_id = 1 ∧ s1.next_booking_id = 1 ∧ s1.next_payment_id = 1 ∧
      s1.log = [] := by
    cases mf with
    | none => exact ⟨init, rfl, rfl, rfl, rfl, rfl, rfl, rfl, rfl, rfl, rfl⟩
    | some f =>
      obtain ⟨l, idx, h1, h2⟩ := load_members_loop_eq (f.length + 1) f init 0 hv
      refine ⟨_, by rw [load_members, h1]; rfl, ?_⟩
      refine ⟨by simpa [init] using h2, ?_, rfl, rfl, rfl, rfl, rfl, rfl, rfl⟩
      simp only [file_records]
      rw [← max_id_map]
  obtain ⟨s1, h1, h2, h3, h4, h5, h6, h7, h8, h9, h10⟩ := hm
  have h3b : s1.next_member_id =
      max_id (s1.member_list.map (fun n => n.data.memberId)) + 1 := by
    rw [h3, ← h2, List.map_map]
    rfl
  refine ⟨_, by rw [load_all_data, h1]; rfl, ?_⟩
  cases wf <;> cases bf <;> cases pf <;>
    simp only [load_workspaces, load_bookings, load_payments, load_workspaces_loop_eq,
      load_bookings_loop_eq, load_payments_loop_eq, file_records, h2, h4, h5, h6, h10,
      List.nil_append, true_and, and_true] <;>
    (intro e; cases e <;>
      simp only [next_id, store_ids, h3b, h4, h5, h6, h7, h8, h9, max_id_map,
        List.nil_append, file_records, List.map_nil] <;> rfl)

/-! ## Widths of the fields read -/

theorem fits_cstr_take (w : Nat) (buf : List Char) (hlen : buf.length ≤ w) :
    fits w (cstr buf) := by
  unfold fits cstr
  refine ⟨le_trans ((List.takeWhile_sublist _).length_le) hlen, ?_⟩
  intro hmem
  have := List.mem_takeWhile_imp hmem
  simp at this

theorem fits_getString (line : List Char) (size : Nat) : fits (size - 1) (getString line size) := by
  unfold getString
  apply fits_cstr_take
  exact le_trans ((List.takeWhile_sublist _).length_le) (List.length_take_le _ _)

theorem fits_scan_set (w : Nat) (stop : Char) (inp : List Char) :
    fits w (cstr (scan_set w stop inp)) := by
  apply fits_cstr_take
  unfold scan_set
  exact List.length_take_le _ _

theorem vals_fit_fscanf (ds : List Directive) (inp : List Char) :
    vals_fit ds (fscanf ds inp).1 := by
  induction ds generalizing inp with
  | nil => simp [fscanf, vals_fit]
  | cons d ds ih =>
    cases d with
    | int =>
      unfold fscanf
      split
      · simp [vals_fit]
      · simp only [vals_fit]
        exact ih _
    | lit c =>
      unfold fscanf
      split
      · simp [vals_fit]
      · split
        · have := ih ‹List Char›
          revert this
          cases (fscanf ds ‹List Char›).1 with
          | nil => intro _; simp [vals_fit]
          | cons v vs => intro h; simpa [vals_fit] using h
        · simp [vals_fit]
    | scanset w stop =>
      unfold fscanf
      split
      · simp [vals_fit]
      · simp only [vals_fit]
        exact ⟨fits_scan_set w stop inp, ih _⟩
    | space =>
      unfold fscanf
      have := ih (skip_space inp)
      revert this
      cases (fscanf ds (skip_space inp)).1 with
      | nil => intro _; simp [vals_fit]
      | cons v vs => intro h; simpa [vals_fit] using h

theorem read_member_fits {f rest : List Char} {m : Member} (h : read_member f = some (m, rest)) :
    fits 99 m.name ∧ fits 99 m.email := by
  have hv := vals_fit_fscanf MEMBER_FORMAT f
  unfold read_member at h
  split at h
  · rename_i heq
    simp only [Option.some.injEq, Prod.mk.injEq] at h
    rw [heq] at hv
    obtain ⟨rfl, -⟩ := h
    simpa [vals_fit, MEMBER_FORMAT] using hv
  · cases h

theorem read_workspace_fits {f rest : List Char} {w : Workspace}
    (h : read_workspace f = some (w, rest)) : fits 49 w.type ∧ fits 99 w.location := by
  have hv := vals_fit_fscanf WORKSPACE_FORMAT f
  unfold read_workspace at h
  split at h
  · rename_i heq
    simp only [Option.some.injEq, Prod.mk.injEq] at h
    rw [heq] at hv
    obtain ⟨rfl, -⟩ := h
    simpa [vals_fit, WORKSPACE_FORMAT] using hv
  · cases h

theorem read_booking_fits {f rest : List Char} {b : Booking}
    (h : read_booking f = some (b, rest)) :
    fits 19 b.startTime ∧ fits 19 b.endTime ∧ fits 19 b.status := by
  have hv := vals_fit_fscanf BOOKING_FORMAT f
  unfold read_booking at h
  split at h
  · rename_i heq
    simp only [Option.some.injEq, Prod.mk.injEq] at h
    rw [heq] at hv
    obtain ⟨rfl, -⟩ := h
    simpa [vals_fit, BOOKING_FORMAT] using hv
  · cases h

theorem read_payment_fits {f rest : List Char} {p : Payment}
    (h : read_payment f = some (p, rest)) : fits 10 p.paymentDate ∧ fits 19 p.status := by
  have hv := vals_fit_fscanf PAYMENT_FORMAT f
  unfold read_payment at h
  split at h
  · rename_i heq
    simp only [Option.some.injEq, Prod.mk.injEq] at h
    rw [heq] at hv
    obtain ⟨rfl, -⟩ := h
    simpa [vals_fit, PAYMENT_FORMAT] using hv
  · cases h

theorem scan_records_all {α : Type} (read : List Char → Option (α × List Char))
    (good : α → Prop) (hread : ∀ f x rest, read f = some (x, rest) → good x)
    (fuel : Nat) (f : List Char) : ∀ x ∈ scan_records read fuel f, good x := by
  induction fuel generalizing f with
  | zero => intro x hx; simp [scan_records] at hx
  | succ k ih =>
    unfold scan_records
    cases h : read f with
    | none => intro x hx; simp at hx
    | some r =>
      obtain ⟨y, rest⟩ := r
      intro x hx
      simp only [List.mem_cons] at hx
      rcases hx with rfl | hx
      · exact hread f _ rest h
      · exact ih rest x hx

theorem file_records_all {α : Type} (read : List Char → Option (α × List Char))
    (good : α → Prop) (hread : ∀ f x rest, read f = some (x, rest) → good x)
    (file : Option (List Char)) : ∀ x ∈ file_records read file, good x := by
  cases file with
  | none => intro x hx; simp [file_records] at hx
  | some f => exact scan_records_all read good hread _ f

/-! ## Text fields along runs -/

theorem mem_updateFirst {α : Type} {p : α → Bool} {f : α → α} {l : List α} {x : α}
    (h : x ∈ updateFirst p f l) : x ∈ l ∨ ∃ y ∈ l, x = f y := by
  induction l with
  | nil => simp [updateFirst] at h
  | cons a rest ih =>
    unfold updateFirst at h
    split at h
    · rcases List.mem_cons.1 h with rfl | h
      · exact Or.inr ⟨a, List.mem_cons_self _ _, rfl⟩
      · exact Or.inl (List.mem_cons_of_mem _ h)
    · rcases List.mem_cons.1 h with rfl | h
      · exact Or.inl (List.mem_cons_self _ _)
      · rcases ih h with h | ⟨y, hy, e⟩
        · exact Or.inl (List.mem_cons_of_mem _ h)
        · exact Or.inr ⟨y, List.mem_cons_of_mem _ hy, e⟩

theorem map_updateFirst {α β : Type} (key : α → β) {p : α → Bool} {f : α → α}
    (hf : ∀ x, key (f x) = key x) (l : List α) :
    (updateFirst p f l).map key = l.map key := by
  induction l with
  | nil => rfl
  | cons a rest ih =>
    unfold updateFirst
    split
    · simp [hf]
    · simp [ih]

/-- Facts about the state in which `main` enters its menu loop. -/
theorem boot_spec {fs : Files} {s : State} (h : load_all_data fs init = some s) :
    s.member_list.map (fun n => n.data) = file_records read_member fs.members ∧
      s.workspace_list = file_records read_workspace fs.workspaces ∧
      s.booking_list = file_records read_booking fs.bookings ∧
      s.payment_list = file_records read_payment fs.payments ∧
      (∀ e, next_id s e = max_id (store_ids s e) + 1) ∧ s.log = [] := by
  have hv : ∀ x ∈ file_records read_member fs.members, 0 ≤ hash_function x.memberId := by
    unfold load_all_data at h
    cases h1 : load_members fs.members init with
    | none => rw [h1] at h; cases h
    | some s1 =>
      unfold load_members at h1
      cases hf : fs.members with
      | none => intro x hx; simp [file_records] at hx
      | some f =>
        rw [hf] at h1
        simp only at h1
        cases hl : load_members_loop (f.length + 1) f init 0 with
        | none => rw [hl] at h1; cases h1
        | some r => exact load_members_loop_valid _ _ _ _ _ hl
  obtain ⟨t, ht, hrest⟩ := load_all_data_init fs hv
  rw [h] at ht
  simp only [Option.some.injEq] at ht
  subst ht
  exact hrest

theorem boundedText_boot {fs : Files} {s : State} (h : load_all_data fs init = some s) :
    BoundedText s := by
  obtain ⟨h1, h2, h3, h4, -, -⟩ := boot_spec h
  refine ⟨?_, ?_, ?_, ?_⟩
  · intro n hn
    have : n.data ∈ file_records read_member fs.members := by
      rw [← h1]
      exact List.mem_map_of_mem (fun n => n.data) hn
    exact file_records_all read_member _ (fun f x rest hr => read_member_fits hr) _ _ this
  · rw [h2]
    exact file_records_all read_workspace _ (fun f x rest hr => read_workspace_fits hr) _
  · rw [h3]
    exact file_records_all read_booking _ (fun f x rest hr => read_booking_fits hr) _
  · rw [h4]
    exact file_records_all read_payment _ (fun f x rest hr => read_payment_fits hr) _

theorem boundedText_step {s t : State} {op : Op} (hb : BoundedText s)
    (h : step s op = some t) : BoundedText t := by
  obtain ⟨hm, hw, hbk, hp⟩ := hb
  cases op with
  | addMember nm em =>
    simp only [step, addMember] at h
    split at h
    · simp only [Option.some.injEq] at h; subst h; exact ⟨hm, hw, hbk, hp⟩
    · split at h
      · cases h
      · simp only [Option.some.injEq] at h
        subst h
        refine ⟨?_, hw, hbk, hp⟩
        intro n hn
        simp only [log_operation, List.mem_append, List.mem_singleton] at hn
        rcases hn with hn | rfl
        · exact hm n hn
        · exact ⟨fits_getString nm 100, fits_getString em 100⟩
  | updateMember id nm =>
    simp only [step, updateMember] at h
    split at h
    · cases h
    · simp only [Option.some.injEq] at h; subst h; exact ⟨hm, hw, hbk, hp⟩
    · rename_i node _
      simp only [Option.some.injEq] at h
      subst h
      refine ⟨?_, hw, hbk, hp⟩
      intro n hn
      simp only [log_operation, List.mem_map] at hn
      obtain ⟨y, hy, rfl⟩ := hn
      by_cases e : y.addr = node.addr
      · simp only [e, if_true]
        exact ⟨fits_getString nm 100, (hm y hy).2⟩
      · simp only [e, if_false]
        exact hm y hy
  | deleteMember id =>
    simp only [step, deleteMember] at h
    split at h
    · cases h
    · simp only [Option.some.injEq] at h; subst h; exact ⟨hm, hw, hbk, hp⟩
    · split at h
      · cases h
      · simp only [Option.some.injEq] at h
        subst h
        refine ⟨?_, hw, hbk, hp⟩
        intro n hn
        exact hm n (List.mem_filter.1 hn).1
  | addWorkspace ty lo c p =>
    simp only [step, addWorkspace, Option.some.injEq] at h
    subst h
    refine ⟨hm, ?_, hbk, hp⟩
    intro w hw2
    simp only [log_operation, List.mem_append, List.mem_singleton] at hw2
    rcases hw2 with hw2 | rfl
    · exact hw w hw2
    · exact ⟨fits_getString ty 50, fits_getString lo 100⟩
  | updateWorkspace id c p =>
    simp only [step, updateWorkspace] at h
    split at h
    · simp only [Option.some.injEq] at h; subst h; exact ⟨hm, hw, hbk, hp⟩
    · simp only [Option.some.injEq] at h
      subst h
      refine ⟨hm, ?_, hbk, hp⟩
      intro w hw2
      rcases mem_updateFirst hw2 with hw2 | ⟨y, hy, rfl⟩
      · exact hw w hw2
      · exact hw y hy
  | deleteWorkspace id =>
    simp only [step, deleteWorkspace] at h
    split at h
    · simp only [Option.some.injEq] at h; subst h; exact ⟨hm, hw, hbk, hp⟩
    · simp only [Option.some.injEq] at h
      subst h
      exact ⟨hm, fun w hw2 => hw w (List.mem_of_mem_eraseP hw2), hbk, hp⟩
  | addBooking mId wId a b c =>
    simp only [step, addBooking] at h
    split at h
    · cases h
    · simp only [Option.some.injEq] at h; subst h; exact ⟨hm, hw, hbk, hp⟩
    · split at h
      · simp only [Option.some.injEq] at h; subst h; exact ⟨hm, hw, hbk, hp⟩
      · simp only [Option.some.injEq] at h
        subst h
        refine ⟨hm, hw, ?_, hp⟩
        intro x hx
        simp only [log_operation, List.mem_append, List.mem_singleton] at hx
        rcases hx with hx | rfl
        · exact hbk x hx
        · exact ⟨fits_getString a 20, fits_getString b 20, fits_getString c 20⟩
  | updateBooking id st =>
    simp only [step, updateBooking] at h
    split at h
    · simp only [Option.some.injEq] at h; subst h; exact ⟨hm, hw, hbk, hp⟩
    · simp only [Option.some.injEq] at h
      subst h
      refine ⟨hm, hw, ?_, hp⟩
      intro x hx
      rcases mem_updateFirst hx with hx | ⟨y, hy, rfl⟩
      · exact hbk x hx
      · exact ⟨(hbk y hy).1, (hbk y hy).2.1, fits_getString st 20⟩
  | deleteBooking id =>
    simp only [step, deleteBooking] at h
    split at h
    · simp only [Option.some.injEq] at h; subst h; exact ⟨hm, hw, hbk, hp⟩
    · simp only [Option.some.injEq] at h
      subst h
      exact ⟨hm, hw, fun x hx => hbk x (List.mem_of_mem_eraseP hx), hp⟩
  | addPayment bId am d st =>
    simp only [step, addPayment] at h
    split at h
    · simp only [Option.some.injEq] at h; subst h; exact ⟨hm, hw, hbk, hp⟩
    · simp only [Option.some.injEq] at h
      subst h
      refine ⟨hm, hw, hbk, ?_⟩
      intro x hx
      simp only [log_operation, List.mem_append, List.mem_singleton] at hx
      rcases hx with hx | rfl
      · exact hp x hx
      · exact ⟨fits_getString d 11, fits_getString st 20⟩
  | updatePayment id st =>
    simp only [step, updatePayment] at h
    split at h
    · simp only [Option.some.injEq] at h; subst h; exact ⟨hm, hw, hbk, hp⟩
    · simp only [Option.some.injEq] at h
      subst h
      refine ⟨hm, hw, hbk, ?_⟩
      intro x hx
      rcases mem_updateFirst hx with hx | ⟨y, hy, rfl⟩
      · exact hp x hx
      · exact ⟨(hp y hy).1, fits_getString st 20⟩
  | deletePayment id =>
    simp only [step, deletePayment] at h
    split at h
    · simp only [Option.some.injEq] at h; subst h; exact ⟨hm, hw, hbk, hp⟩
    · simp only [Option.some.injEq] at h
      subst h
      exact ⟨hm, hw, hbk, fun x hx => hp x (List.mem_of_mem_eraseP hx)⟩

theorem boundedText_of_reachable {s : State} (h : Reachable s) : BoundedText s := by
  induction h with
  | boot fs s h => exact boundedText_boot h
  | step s t op _ h ih => exact boundedText_step ih h

/-! ## Ids and counters along runs -/

theorem map_update_member (l : List MemberNode) (a : Nat) (nm : List Char) :
    (l.map (fun n => if n.addr = a then
        ({ n with data := { n.data with name := nm } } : MemberNode) else n)).map
      (fun n => n.data.memberId) = l.map (fun n => n.data.memberId) := by
  rw [List.map_map]
  apply List.map_congr_left
  intro n _
  by_cases e : n.addr = a <;> simp [e]

/-- Effect of one menu choice on the ids of a store and on its counter:
either the counter stays and no id is added, or the counter is appended to
the ids and incremented. -/
theorem step_effect {s t : State} {op : Op} (h : step s op = some t) (e : Entity) :
    (next_id t e = next_id s e ∧ (store_ids t e).Sublist (store_ids s e)) ∨
      (next_id t e = next_id s e + 1 ∧ store_ids t e = store_ids s e ++ [next_id s e]) := by
  have keep : ∀ u : State, next_id u e = next_id s e → store_ids u e = store_ids s e →
      (next_id u e = next_id s e ∧ (store_ids u e).Sublist (store_ids s e)) ∨
      (next_id u e = next_id s e + 1 ∧ store_ids u e = store_ids s e ++ [next_id s e]) := by
    intro u h1 h2
    exact Or.inl ⟨h1, by rw [h2]⟩
  cases op with
  | addMember nm em =>
    simp only [step, addMember] at h
    split at h
    · simp only [Option.some.injEq] at h; subst h; exact keep _ rfl rfl
    · split at h
      · cases h
      · simp only [Option.some.injEq] at h
        subst h
        cases e
        · exact Or.inr ⟨rfl, by simp [store_ids, log_operation, next_id]⟩
        all_goals exact keep _ rfl rfl
  | updateMember id nm =>
    simp only [step, updateMember] at h
    split at h
    · cases h
    · simp only [Option.some.injEq] at h; subst h; exact keep _ rfl rfl
    · simp only [Option.some.injEq] at h
      subst h
      cases e
      · exact keep _ rfl (map_update_member _ _ _)
      all_goals exact keep _ rfl rfl
  | deleteMember id =>
    simp only [step, deleteMember] at h
    split at h
    · cases h
    · simp only [Option.some.injEq] at h; subst h; exact keep _ rfl rfl
    · split at h
      · cases h
      · simp only [Option.some.injEq] at h
        subst h
        cases e
        · exact Or.inl ⟨rfl, (List.filter_sublist _).map _⟩
        all_goals exact keep _ rfl rfl
  | addWorkspace ty lo c p =>
    simp only [step, addWorkspace, Option.some.injEq] at h
    subst h
    cases e
    · exact keep _ rfl rfl
    · exact Or.inr ⟨rfl, by simp [store_ids, log_operation, next_id]⟩
    all_goals exact keep _ rfl rfl
  | updateWorkspace id c p =>
    simp only [step, updateWorkspace] at h
    split at h
    · simp only [Option.some.injEq] at h; subst h; exact keep _ rfl rfl
    · simp only [Option.some.injEq] at h
      subst h
      cases e
      · exact keep _ rfl rfl
      · exact keep _ rfl (by simp only [store_ids, log_operation]; apply map_updateFirst; intro x; rfl)
      all_goals exact keep _ rfl rfl
  | deleteWorkspace id =>
    simp only [step, deleteWorkspace] at h
    split at h
    · simp only [Option.some.injEq] at h; subst h; exact keep _ rfl rfl
    · simp only [Option.some.injEq] at h
      subst h
      cases e
      · exact keep _ rfl rfl
      · exact Or.inl ⟨rfl, (List.eraseP_sublist _).map _⟩
      all_goals exact keep _ rfl rfl
  | addBooking mId wId a b c =>
    simp only [step, addBooking] at h
    split at h
    · cases h
    · simp only [Option.some.injEq] at h; subst h; exact keep _ rfl rfl
    · split at h
      · simp only [Option.some.injEq] at h; subst h; exact keep _ rfl rfl
      · simp only [Option.some.injEq] at h
        subst h
        cases e
        · exact keep _ rfl rfl
        · exact keep _ rfl rfl
        · exact Or.inr ⟨rfl, by simp [store_ids, log_operation, next_id]⟩
        · exact keep _ rfl rfl
  | updateBooking id st =>
    simp only [step, updateBooking] at h
    split at h
    · simp only [Option.some.injEq] at h; subst h; exact keep _ rfl rfl
    · simp only [Option.some.injEq] at h
      subst h
      cases e
      · exact keep _ rfl rfl
      · exact keep _ rfl rfl
      · exact keep _ rfl (by simp only [store_ids, log_operation]; apply map_updateFirst; intro x; rfl)
      · exact keep _ rfl rfl
  | deleteBooking id =>
    simp only [step, deleteBooking] at h
    split at h
    · simp only [Option.some.injEq] at h; subst h; exact keep _ rfl rfl
    · simp only [Option.some.injEq] at h
      subst h
      cases e
      · exact keep _ rfl rfl
      · exact keep _ rfl rfl
      · exact Or.inl ⟨rfl, (List.eraseP_sublist _).map _⟩
      · exact keep _ rfl rfl
  | addPayment bId am d st =>
    simp only [step, addPayment] at h
    split at h
    · simp only [Option.some.injEq] at h; subst h; exact keep _ rfl rfl
    · simp only [Option.some.injEq] at h
      subst h
      cases e
      · exact keep _ rfl rfl
      · exact keep _ rfl rfl
      · exact keep _ rfl rfl
      · exact Or.inr ⟨rfl, by simp [store_ids, log_operation, next_id]⟩
  | updatePayment id st =>
    simp only [step, updatePayment] at h
    split at h
    · simp only [Option.some.injEq] at h; subst h; exact keep _ rfl rfl
    · simp only [Option.some.injEq] at h
      subst h
      cases e
      · exact keep _ rfl rfl
      · exact keep _ rfl rfl
      · exact keep _ rfl rfl
      · exact keep _ rfl (by simp only [store_ids, log_operation]; apply map_updateFirst; intro x; rfl)
  | deletePayment id =>
    simp only [step, deletePayment] at h
    split at h
    · simp only [Option.some.injEq] at h; subst h; exact keep _ rfl rfl
    · simp only [Option.some.injEq] at h
      subst h
      cases e
      · exact keep _ rfl rfl
      · exact keep _ rfl rfl
      · exact keep _ rfl rfl
      · exact Or.inl ⟨rfl, (List.eraseP_sublist _).map _⟩

theorem counterInv_boot {fs : Files} {s : State} (h : load_all_data fs init = some s) :
    CounterInv s := by
  obtain ⟨-, -, -, -, hc, -⟩ := boot_spec h
  intro e
  obtain ⟨h0, h1⟩ := max_id_spec (store_ids s e)
  rw [hc e]
  exact ⟨by omega, fun i hi => by have := h1 i hi; omega⟩

theorem counterInv_step {s t : State} {op : Op} (hc : CounterInv s) (h : step s op = some t) :
    CounterInv t := by
  intro e
  obtain ⟨h0, h1⟩ := hc e
  rcases step_effect h e with ⟨h2, h3⟩ | ⟨h2, h3⟩
  · rw [h2]
    exact ⟨h0, fun i hi => h1 i (h3.subset hi)⟩
  · rw [h2, h3]
    refine ⟨by omega, ?_⟩
    intro i hi
    rcases List.mem_append.1 hi with hi | hi
    · have := h1 i hi; omega
    · simp only [List.mem_singleton] at hi
      omega

theorem counterInv_of_reachable {s : State} (h : Reachable s) : CounterInv s := by
  induction h with
  | boot fs s h => exact counterInv_boot h
  | step s t op _ h ih => exact counterInv_step ih h

theorem reachable_run {s t : State} (hs : Reachable s) (ops : List Op)
    (h : run s ops = some t) : Reachable t := by
  induction ops generalizing s with
  | nil =>
    simp only [run, Option.some.injEq] at h
    subst h; exact hs
  | cons op ops ih =>
    simp only [run] at h
    cases h1 : step s op with
    | none => rw [h1] at h; cases h
    | some u =>
      rw [h1] at h
      exact ih (Reachable.step s u op hs h1) h

theorem next_id_mono_run {s t : State} (ops : List Op) (h : run s ops = some t) (e : Entity) :
    next_id s e ≤ next_id t e := by
  induction ops generalizing s with
  | nil =>
    simp only [run, Option.some.injEq] at h
    subst h; exact le_refl _
  | cons op ops ih =>
    simp only [run] at h
    cases h1 : step s op with
    | none => rw [h1] at h; cases h
    | some u =>
      rw [h1] at h
      have := ih h
      rcases step_effect h1 e with ⟨h2, -⟩ | ⟨h2, -⟩ <;> omega

theorem reachable_init : Reachable init :=
  Reachable.boot noFiles init rfl

/-! ## Fuel of the load loops -/

theorem skip_space_length (inp : List Char) : (skip_space inp).length ≤ inp.length := by
  unfold skip_space
  exact (List.dropWhile_sublist _).length_le

theorem scan_digits_length (acc : Nat) (inp : List Char) :
    (scan_digits acc inp).2.length ≤ inp.length := by
  induction inp generalizing acc with
  | nil => simp [scan_digits]
  | cons c rest ih =>
    unfold scan_digits
    split
    · have := ih (acc * 10 + (c.toNat - 48))
      simp only [List.length_cons]
      omega
    · simp

theorem scan_unsigned_length {inp rest : List Char} {n : Nat}
    (h : scan_unsigned inp = some (n, rest)) : rest.length < inp.length := by
  cases inp with
  | nil => simp [scan_unsigned] at h
  | cons c tl =>
    simp only [scan_unsigned] at h
    by_cases hd : isdigit c = true
    · rw [if_pos hd, scan_digits, if_pos hd] at h
      simp only [Option.some.injEq] at h
      have h2 := scan_digits_length (0 * 10 + (c.toNat - 48)) tl
      rw [h] at h2
      simp only [List.length_cons]
      simp only at h2
      omega
    · rw [if_neg hd] at h
      cases h

theorem scan_int_length {inp rest : List Char} {i : Int}
    (h : scan_int inp = some (i, rest)) : rest.length < inp.length := by
  unfold scan_int at h
  have hs := skip_space_length inp
  split at h
  · cases h
  · rename_i c tl heq
    rw [heq] at hs
    simp only [List.length_cons] at hs
    split at h
    · cases hu : scan_unsigned tl with
      | none => rw [hu] at h; cases h
      | some r =>
        obtain ⟨n, r2⟩ := r
        rw [hu] at h
        simp only [Option.map_some', Option.some.injEq, Prod.mk.injEq] at h
        have := scan_unsigned_length hu
        rw [← h.2]
        omega
    · split at h
      · cases hu : scan_unsigned tl with
        | none => rw [hu] at h; cases h
        | some r =>
          obtain ⟨n, r2⟩ := r
          rw [hu] at h
          simp only [Option.map_some', Option.some.injEq, Prod.mk.injEq] at h
          have := scan_unsigned_length hu
          rw [← h.2]
          omega
      · cases hu : scan_unsigned (c :: tl) with
        | none => rw [hu] at h; cases h
        | some r =>
          obtain ⟨n, r2⟩ := r
          rw [hu] at h
          simp only [Option.map_some', Option.some.injEq, Prod.mk.injEq] at h
          have := scan_unsigned_length hu
          simp only [List.length_cons] at this
          rw [← h.2]
          omega

theorem fscanf_length (ds : List Directive) (inp : List Char) :
    (fscanf ds inp).2.length ≤ inp.length := by
  induction ds generalizing inp with
  | nil => simp [fscanf]
  | cons d ds ih =>
    cases d with
    | int =>
      unfold fscanf
      split
      · simp
      · rename_i i rest h
        have := scan_int_length h
        have := ih rest
        simp only
        omega
    | lit c =>
      unfold fscanf
      split
      · simp
      · rename_i x rest
        split
        · have := ih rest
          simp only [List.length_cons]
          omega
        · simp
    | scanset w stop =>
      unfold fscanf
      split
      · simp
      · have := ih (inp.drop (scan_set w stop inp).length)
        simp only
        simp only [List.length_drop] at this
        omega
    | space =>
      unfold fscanf
      have := ih (skip_space inp)
      have := skip_space_length inp
      omega

/-- A call of `fscanf` whose format starts with `%d` and that assigns at
least one value consumes input. -/
theorem fscanf_int_consumes (ds : List Directive) (inp : List Char) (v : Value)
    (vs : List Value) (rest : List Char)
    (h : fscanf (Directive.int :: ds) inp = (v :: vs, rest)) : rest.length < inp.length := by
  unfold fscanf at h
  split at h
  · simp at h
  · rename_i i r1 hi
    simp only [Prod.mk.injEq] at h
    have h1 := scan_int_length hi
    have h2 := fscanf_length ds r1
    rw [h.2] at h2
    omega

theorem read_member_consumes (f : List Char) (x : Member) (rest : List Char)
    (h : read_member f = some (x, rest)) : rest.length < f.length := by
  unfold read_member at h
  split at h
  · rename_i heq
    simp only [Option.some.injEq, Prod.mk.injEq] at h
    rw [← h.2]
    exact fscanf_int_consumes _ _ _ _ _ heq
  · cases h

theorem read_workspace_consumes (f : List Char) (x : Workspace) (rest : List Char)
    (h : read_workspace f = some (x, rest)) : rest.length < f.length := by
  unfold read_workspace at h
  split at h
  · rename_i heq
    simp only [Option.some.injEq, Prod.mk.injEq] at h
    rw [← h.2]
    exact fscanf_int_consumes _ _ _ _ _ heq
  · cases h

theorem read_booking_consumes (f : List Char) (x : Booking) (rest : List Char)
    (h : read_booking f = some (x, rest)) : rest.length < f.length := by
  unfold read_booking at h
  split at h
  · rename_i heq
    simp only [Option.some.injEq, Prod.mk.injEq] at h
    rw [← h.2]
    exact fscanf_int_consumes _ _ _ _ _ heq
  · cases h

theorem read_payment_consumes (f : List Char) (x : Payment) (rest : List Char)
    (h : read_payment f = some (x, rest)) : rest.length < f.length := by
  unfold read_payment at h
  split at h
  · rename_i heq
    simp only [Option.some.injEq, Prod.mk.injEq] at h
    rw [← h.2]
    exact fscanf_int_consumes _ _ _ _ _ heq
  · cases h

/-- The fuel of a load loop is never exhausted: when every successful read
consumes input, any two amounts of fuel above the length of the file read
the same records. -/
theorem scan_records_fuel {α : Type} (read : List Char → Option (α × List Char))
    (hread : ∀ f x rest, read f = some (x, rest) → rest.length < f.length)
    (n m : Nat) (f : List Char) (hn : f.length < n) (hm : f.length < m) :
    scan_records read n f = scan_records read m f := by
  induction n generalizing m f with
  | zero => omega
  | succ k ih =>
    cases m with
    | zero => omega
    | succ j =>
      rw [scan_records, scan_records]
      cases h : read f with
      | none => rfl
      | some r =>
        obtain ⟨x, rest⟩ := r
        simp only
        have hlt := hread f x rest h
        rw [ih j rest (by omega) (by omega)]

/-! ## Lookup through the index -/

theorem nodup_ids_step {s t : State} {op : Op} {e : Entity} (hc : CounterInv s)
    (hn : (store_ids s e).Nodup) (h : step s op = some t) : (store_ids t e).Nodup := by
  rcases step_effect h e with ⟨-, hsub⟩ | ⟨-, heq⟩
  · exact hn.sublist hsub
  · rw [heq, List.nodup_append]
    refine ⟨hn, List.nodup_singleton _, ?_⟩
    intro a ha hb
    simp only [List.mem_singleton] at hb
    have := (hc e).2 a ha
    omega

theorem nodup_ids_run {s t : State} (ops : List Op) (e : Entity) (hs : Reachable s)
    (hn : (store_ids s e).Nodup) (h : run s ops = some t) : (store_ids t e).Nodup := by
  induction ops generalizing s with
  | nil =>
    simp only [run, Option.some.injEq] at h
    subst h; exact hn
  | cons op ops ih =>
    simp only [run] at h
    cases h1 : step s op with
    | none => rw [h1] at h; cases h
    | some u =>
      rw [h1] at h
      exact ih (Reachable.step s u op hs h1)
        (nodup_ids_step (counterInv_of_reachable hs) hn h1) h

theorem indexInv_of_reachable {s : State} (h : Reachable s) :
    IndexInv s.member_list s.member_index :=
  indexInv_of_indexReach (indexReach_of_reachable h)

/-- Lookup after a run from the empty initial state, for an id whose hash is
a valid subscript: the node that carries the id is returned when there is
one, `NULL` otherwise. -/
theorem lookup_correct (ops : List Op) (s : State) (hrun : run init ops = some s) (id : Int)
    (hid : 0 ≤ hash_function id) :
    (∀ n ∈ s.member_list, n.data.memberId = id → findMemberNodeById s id = some (some n)) ∧
      ((∀ n ∈ s.member_list, n.data.memberId ≠ id) → findMemberNodeById s id = some none) := by
  have hreach : Reachable s := reachable_run reachable_init ops hrun
  have hinv := indexInv_of_reachable hreach
  have hnd : (store_ids s Entity.member).Nodup :=
    nodup_ids_run ops Entity.member reachable_init List.nodup_nil hrun
  obtain ⟨r, hr, hnone, hsome⟩ := find_spec hinv hid
  constructor
  · intro n hn hnid
    cases r with
    | none => exact absurd hnid (hnone.1 rfl n hn)
    | some k =>
      obtain ⟨hk, hkid⟩ := hsome k rfl
      have : k = n :=
        List.inj_on_of_nodup_map hnd hk hn (by rw [hkid, hnid])
      rw [hr, this]
  · intro hall
    rw [hr, hnone.2 hall]

/-- C1: the claim requires `NULL` for every id never assigned.  For the id -1
in the empty initial state `hash_function` yields -1, and the lookup (reached
from `deleteMember` with -1 typed at the prompt) subscripts `member_index`
with it: the outcome is undefined behaviour, not `NULL`. -/
theorem lookup_negative_id_undefined :
    hash_function (-1) = -1 ∧ findMemberNodeById init (-1) = none ∧
      run init [Op.deleteMember (-1)] = none := by
  exact ⟨by decide, rfl, rfl⟩

/-! ## Save and load -/

theorem read_member_nil : read_member [] = none := rfl
theorem read_workspace_nil : read_workspace [] = none := rfl
theorem read_booking_nil : read_booking [] = none := rfl
theorem read_payment_nil : read_payment [] = none := rfl

/-- Saving a reachable state with clean text fields and loading the files in
a fresh process: the load goes through, the four lists come back, and each
counter is one above the greatest of 0 and the ids saved. -/
theorem save_load_spec (s : State) (hs : Reachable s) (hc : CleanText s) (old : Files) :
    ∃ t, load_all_data (save_all_data allOk old s) init = some t ∧
      t.member_list.map (fun n => n.data) = s.member_list.map (fun n => n.data) ∧
      t.workspace_list = s.workspace_list ∧ t.booking_list = s.booking_list ∧
      t.payment_list = s.payment_list ∧
      ∀ e, next_id t e = max_id (store_ids s e) + 1 := by
  obtain ⟨bm, bw, bb, bp⟩ := boundedText_of_reachable hs
  obtain ⟨cm, cw, cb, cp⟩ := hc
  have hinv := indexInv_of_reachable hs
  have em : file_records read_member (save_all_data allOk old s).members =
      s.member_list.map (fun n => n.data) := by
    apply scan_records_write_lines read_member member_line
      (fun m => (clean m.name ∧ clean m.email) ∧ (fits 99 m.name ∧ fits 99 m.email))
      (fun m => line_head_of_fmt_int _ _)
      (fun m tail hg => read_member_line m tail hg.1 hg.2) read_member_nil
    · intro m hm
      obtain ⟨n, hn, rfl⟩ := List.mem_map.1 hm
      exact ⟨cm n hn, bm n hn⟩
    · exact Nat.lt_succ_of_le (length_write_lines _ (fun m => line_head_of_fmt_int _ _) _)
  have ew : file_records read_workspace (save_all_data allOk old s).workspaces =
      s.workspace_list := by
    apply scan_records_write_lines read_workspace workspace_line
      (fun w => (clean w.type ∧ clean w.location) ∧ (fits 49 w.type ∧ fits 99 w.location))
      (fun w => line_head_of_fmt_int _ _)
      (fun w tail hg => read_workspace_line w tail hg.1 hg.2) read_workspace_nil
    · exact fun w hw => ⟨cw w hw, bw w hw⟩
    · exact Nat.lt_succ_of_le (length_write_lines _ (fun w => line_head_of_fmt_int _ _) _)
  have eb : file_records read_booking (save_all_data allOk old s).bookings =
      s.booking_list := by
    apply scan_records_write_lines read_booking booking_line
      (fun b => (clean b.startTime ∧ clean b.endTime ∧ clean b.status) ∧
        (fits 19 b.startTime ∧ fits 19 b.endTime ∧ fits 19 b.status))
      (fun b => line_head_of_fmt_int _ _)
      (fun b tail hg => read_booking_line b tail hg.1 hg.2) read_booking_nil
    · exact fun b hb => ⟨cb b hb, bb b hb⟩
    · exact Nat.lt_succ_of_le (length_write_lines _ (fun b => line_head_of_fmt_int _ _) _)
  have ep : file_records read_payment (save_all_data allOk old s).payments =
      s.payment_list := by
    apply scan_records_write_lines read_payment payment_line
      (fun p => (clean p.paymentDate ∧ clean p.status) ∧
        (fits 10 p.paymentDate ∧ fits 19 p.status))
      (fun p => line_head_of_fmt_int _ _)
      (fun p tail hg => read_payment_line p tail hg.1 hg.2) read_payment_nil
    · exact fun p hp => ⟨cp p hp, bp p hp⟩
    · exact Nat.lt_succ_of_le (length_write_lines _ (fun p => line_head_of_fmt_int _ _) _)
  have hv : ∀ x ∈ file_records read_member (save_all_data allOk old s).members,
      0 ≤ hash_function x.memberId := by
    rw [em]
    intro x hx
    obtain ⟨n, hn, rfl⟩ := List.mem_map.1 hx
    exact hinv.valid n hn
  obtain ⟨t, ht, h1, h2, h3, h4, h5, -⟩ := load_all_data_init _ hv
  refine ⟨t, ht, by rw [h1, em], by rw [h2, ew], by rw [h3, eb], by rw [h4, ep], ?_⟩
  intro e
  rw [h5 e]
  have hids : store_ids t e = store_ids s e := by
    cases e
    · show t.member_list.map (fun n => n.data.memberId) = s.member_list.map (fun n => n.data.memberId)
      have := congrArg (List.map (fun m : Member => m.memberId)) (h1.trans em)
      simpa [List.map_map] using this
    · show t.workspace_list.map _ = s.workspace_list.map _
      rw [h2, ew]
    · show t.booking_list.map _ = s.booking_list.map _
      rw [h3, eb]
    · show t.payment_list.map _ = s.payment_list.map _
      rw [h4, ep]
  rw [hids]

/-- C2, counterexample: a member added with an empty line typed for the name
is in a state without comma or newline in any text field; its line is
`1,,bo@x.com`, on which `%99[^,]` fails, so the load brings back no
member. -/
theorem roundtrip_loses_empty_name :
    run init [Op.addMember [] "bo@x.com".toList] = some ex_noname ∧ SeparatorFree ex_noname ∧
      ∃ t, load_all_data (save_all_data allOk noFiles ex_noname) init = some t ∧
        t.member_list.map (fun n => n.data) ≠ ex_noname.member_list.map (fun n => n.data) :=
  ⟨rfl, by decide, _, rfl, by decide⟩

/-- C2, amended: for every reachable state whose text fields are not empty
and contain no comma and no newline, writing the four stores with
`save_all_data` and reading the files with `load_all_data` into the initial
state goes through and yields, for each entity type, the list that was saved,
field by field and in the same order. -/
theorem save_load_roundtrip (s : State) (hs : Reachable s) (hc : CleanText s) (old : Files) :
    ∃ t, load_all_data (save_all_data allOk old s) init = some t ∧
      t.member_list.map (fun n => n.data) = s.member_list.map (fun n => n.data) ∧
      t.workspace_list = s.workspace_list ∧ t.booking_list = s.booking_list ∧
      t.payment_list = s.payment_list := by
  obtain ⟨t, h0, h1, h2, h3, h4, -⟩ := save_load_spec s hs hc old
  exact ⟨t, h0, h1, h2, h3, h4⟩

theorem reachable_ex_desk : Reachable ex_desk :=
  Reachable.step ex_ana ex_desk (Op.addWorkspace "Desk".toList "Floor1".toList 4 500)
    (Reachable.step init ex_ana (Op.addMember "Ana".toList "ana@x.com".toList)
      reachable_init rfl) rfl

theorem reachable_ex_deleted : Reachable ex_deleted :=
  Reachable.step ex_ana ex_deleted (Op.deleteMember 1)
    (Reachable.step init ex_ana (Op.addMember "Ana".toList "ana@x.com".toList)
      reachable_init rfl) rfl

/-- Witness of `save_load_roundtrip`: the state with Ana and the desk. -/
theorem save_load_roundtrip_witness :
    Reachable ex_desk ∧ CleanText ex_desk ∧
      ∃ t, load_all_data (save_all_data allOk noFiles ex_desk) init = some t ∧
        t.member_list.map (fun n => n.data) = ex_desk.member_list.map (fun n => n.data) ∧
        t.workspace_list = ex_desk.workspace_list ∧ t.booking_list = ex_desk.booking_list ∧
        t.payment_list = ex_desk.payment_list :=
  ⟨reachable_ex_desk, by decide,
    save_load_roundtrip ex_desk reachable_ex_desk (by decide) noFiles⟩

theorem max_id_mem (ids : List Int) : max_id ids = 0 ∨ max_id ids ∈ ids := by
  unfold max_id
  have key : ∀ (l : List Int) (m : Int),
      l.foldl (fun m i => if i > m then i else m) m = m ∨
        l.foldl (fun m i => if i > m then i else m) m ∈ l := by
    intro l
    induction l with
    | nil => intro m; exact Or.inl rfl
    | cons a rest ih =>
      intro m
      simp only [List.foldl_cons]
      by_cases ham : a > m
      · simp only [ham, if_true]
        rcases ih a with h | h
        · rw [h]; exact Or.inr (List.mem_cons_self _ _)
        · exact Or.inr (List.mem_cons_of_mem _ h)
      · simp only [ham, if_false]
        rcases ih m with h | h
        · exact Or.inl h
        · exact Or.inr (List.mem_cons_of_mem _ h)
  exact key ids 0

/-- C3, counterexample: Ana is added (id 1) and deleted, the counter is 2;
the members file is then empty and the load sets the counter to 1. -/
theorem counter_lost_after_delete :
    run init [Op.addMember "Ana".toList "ana@x.com".toList, Op.deleteMember 1]
        = some ex_deleted ∧
      next_id ex_deleted Entity.member = 2 ∧
      ∃ t, load_all_data (save_all_data allOk noFiles ex_deleted) init = some t ∧
        next_id t Entity.member = 1 :=
  ⟨rfl, rfl, _, rfl, rfl⟩

/-- C3, amended: for every reachable state with clean text fields in which no
counter has passed `INT_MAX`, saving and then loading into a fresh process
goes through and sets each counter to one above the greatest of 0 and the ids
in the saved store, a value of type `int`.  That value never exceeds the
counter before the save, and it is the counter before the save exactly when a
record with the last id handed out (counter - 1) is still in the store or the
counter is 1. -/
theorem save_load_counter (s : State) (hs : Reachable s) (hc : CleanText s)
    (hmax : ∀ e, next_id s e ≤ INT_MAX) (old : Files) :
    ∃ t, load_all_data (save_all_data allOk old s) init = some t ∧
      ∀ e, next_id t e = max_id (store_ids s e) + 1 ∧ is_int (next_id t e) ∧
        next_id t e ≤ next_id s e ∧
        (next_id t e = next_id s e ↔ next_id s e - 1 ∈ store_ids s e ∨ next_id s e = 1) := by
  obtain ⟨t, h0, -, -, -, -, h5⟩ := save_load_spec s hs hc old
  refine ⟨t, h0, ?_⟩
  intro e
  obtain ⟨hpos, hlt⟩ := counterInv_of_reachable hs e
  obtain ⟨hm0, hmx⟩ := max_id_spec (store_ids s e)
  have hle : max_id (store_ids s e) + 1 ≤ next_id s e := by
    rcases max_id_mem (store_ids s e) with h | h
    · omega
    · have := hlt _ h
      omega
  have hm := hmax e
  refine ⟨h5 e, ?_, by rw [h5 e]; exact hle, ?_⟩
  · rw [h5 e]
    unfold is_int INT_MIN
    unfold INT_MAX at hm ⊢
    omega
  · rw [h5 e]
    constructor
    · intro h
      rcases max_id_mem (store_ids s e) with h1 | h1
      · right; omega
      · left
        have e1 : next_id s e - 1 = max_id (store_ids s e) := by omega
        rw [e1]
        exact h1
    · intro h
      rcases h with h | h
      · have := hmx _ h
        omega
      · omega

/-- Witness of `save_load_counter`: the state with Ana and the desk. -/
theorem save_load_counter_witness :
    Reachable ex_desk ∧ CleanText ex_desk ∧ (∀ e, next_id ex_desk e ≤ INT_MAX) ∧
      ∃ t, load_all_data (save_all_data allOk noFiles ex_desk) init = some t ∧
        ∀ e, next_id t e = max_id (store_ids ex_desk e) + 1 ∧ is_int (next_id t e) ∧
          next_id t e ≤ next_id ex_desk e ∧
          (next_id t e = next_id ex_desk e ↔
            next_id ex_desk e - 1 ∈ store_ids ex_desk e ∨ next_id ex_desk e = 1) :=
  ⟨reachable_ex_desk, by decide, fun e => by cases e <;> decide,
    save_load_counter ex_desk reachable_ex_desk (by decide)
      (fun e => by cases e <;> decide) noFiles⟩

/-! ## Ids and counters -/

/-- C4: ids are never reused within a run.  Let `s0` be any state of a run of
the program (after the load at startup, or the empty initial state), let
further menu choices lead from it to `s1`, and let the next choice append a
record with id `i` to the store of entity type `e` (a successful add).  Then
`i` is the counter of `e` in `s1`, it is positive, and it is greater than
every id in the store of `e` in `s0` and in `s1`: greater than every id that
was present at any earlier moment, which includes every id assigned earlier,
deleted since or not.  Integers are unbounded in the embedding, which is the
claim's assumption that the counter stays below `INT_MAX`. -/
theorem ids_never_reused (s0 : State) (h0 : Reachable s0) (ops : List Op) (s1 s2 : State)
    (op : Op) (e : Entity) (i : Int) (hrun : run s0 ops = some s1)
    (hstep : step s1 op = some s2) (hadd : store_ids s2 e = store_ids s1 e ++ [i]) :
    i = next_id s1 e ∧ 0 < i ∧ (∀ j ∈ store_ids s0 e, j < i) ∧
      (∀ j ∈ store_ids s1 e, j < i) ∧ next_id s2 e = i + 1 := by
  have h1 : Reachable s1 := reachable_run h0 ops hrun
  have hi : i = next_id s1 e ∧ next_id s2 e = i + 1 := by
    rcases step_effect hstep e with ⟨-, hsub⟩ | ⟨hn, heq⟩
    · have := hsub.length_le
      rw [hadd] at this
      simp only [List.length_append, List.length_singleton] at this
      omega
    · rw [hadd] at heq
      have := List.append_cancel_left heq
      simp only [List.cons.injEq, and_true] at this
      rw [hn, this]
      exact ⟨rfl, rfl⟩
  obtain ⟨hi, hnext⟩ := hi
  subst hi
  have hmono := next_id_mono_run ops hrun e
  refine ⟨rfl, (counterInv_of_reachable h1 e).1, ?_, (counterInv_of_reachable h1 e).2, hnext⟩
  intro j hj
  have := (counterInv_of_reachable h0 e).2 j hj
  omega

/-- Witness of `ids_never_reused`: Ana gets id 1 and is deleted; the next
member gets id 2. -/
theorem ids_never_reused_witness :
    Reachable ex_ana ∧ run ex_ana [Op.deleteMember 1] = some ex_deleted ∧
      (∃ s2, step ex_deleted (Op.addMember "Bo".toList "bo@x.com".toList) = some s2 ∧
        store_ids s2 Entity.member = store_ids ex_deleted Entity.member ++ [2] ∧
        ((2 : Int) = next_id ex_deleted Entity.member ∧ (0 : Int) < 2 ∧
          (∀ j ∈ store_ids ex_ana Entity.member, j < 2) ∧
          (∀ j ∈ store_ids ex_deleted Entity.member, j < 2) ∧
          next_id s2 Entity.member = 2 + 1)) :=
  ⟨Reachable.step init ex_ana (Op.addMember "Ana".toList "ana@x.com".toList) reachable_init rfl,
    rfl, _, rfl, rfl,
    ids_never_reused ex_ana
      (Reachable.step init ex_ana (Op.addMember "Ana".toList "ana@x.com".toList)
        reachable_init rfl)
      [Op.deleteMember 1] ex_deleted _ (Op.addMember "Bo".toList "bo@x.com".toList)
      Entity.member 2 rfl rfl rfl⟩

/-- C5, counterexample: the workspaces file holds the single record
`-3,Desk,Floor1,4,500`.  It is loaded, the greatest id among the loaded
records is -3, and the counter is 1, not -3 + 1. -/
theorem load_counter_negative_ids :
    ∃ t, load_all_data ex_negative_file init = some t ∧
      store_ids t Entity.workspace = [-3] ∧ next_id t Entity.workspace = 1 ∧
      next_id t Entity.workspace ≠ -3 + 1 :=
  ⟨_, rfl, by decide, by decide, by decide⟩

/-- C5, amended: `load_all_data` on the empty initial state runs to
completion when every member id read hashes to a valid bucket.  When moreover
every number of the records read is a value of type `int` and no id read is
`INT_MAX`, each store then holds the records read from its file, in file
order (none for a missing file), and each counter equals the greatest of 0
and the loaded ids, plus 1, a value of type `int`; so it is 1 when the file
is missing or yields no record. -/
theorem load_counters (fs : Files)
    (hv : ∀ x ∈ file_records read_member fs.members, 0 ≤ hash_function x.memberId)
    (hr : FilesInRange fs) :
    ∃ t, load_all_data fs init = some t ∧
      t.member_list.map (fun n => n.data) = file_records read_member fs.members ∧
      t.workspace_list = file_records read_workspace fs.workspaces ∧
      t.booking_list = file_records read_booking fs.bookings ∧
      t.payment_list = file_records read_payment fs.payments ∧
      ∀ e, next_id t e = max_id (store_ids t e) + 1 ∧ is_int (next_id t e) ∧
        (store_ids t e = [] → next_id t e = 1) := by
  obtain ⟨t, h0, h1, h2, h3, h4, h5, -⟩ := load_all_data_init fs hv
  refine ⟨t, h0, h1, h2, h3, h4, ?_⟩
  intro e
  have hlt : ∀ i ∈ store_ids t e, i < INT_MAX := by
    obtain ⟨r1, r2, r3, r4⟩ := hr
    intro i hi
    cases e with
    | member =>
      simp only [store_ids, List.mem_map] at hi
      obtain ⟨n, hn, rfl⟩ := hi
      have hmem : n.data ∈ t.member_list.map (fun n => n.data) := List.mem_map.2 ⟨n, hn, rfl⟩
      rw [h1] at hmem
      exact (r1 _ hmem).2
    | workspace =>
      simp only [store_ids, List.mem_map] at hi
      obtain ⟨w, hw, rfl⟩ := hi
      rw [h2] at hw
      exact (r2 _ hw).2.1
    | booking =>
      simp only [store_ids, List.mem_map] at hi
      obtain ⟨b, hb, rfl⟩ := hi
      rw [h3] at hb
      exact (r3 _ hb).2.1
    | payment =>
      simp only [store_ids, List.mem_map] at hi
      obtain ⟨p, hp, rfl⟩ := hi
      rw [h4] at hp
      exact (r4 _ hp).2.1
  refine ⟨h5 e, ?_, ?_⟩
  · obtain ⟨hm0, -⟩ := max_id_spec (store_ids t e)
    rw [h5 e]
    unfold is_int INT_MIN
    rcases max_id_mem (store_ids t e) with h | h
    · rw [h]; decide
    · have := hlt _ h
      unfold INT_MAX at this ⊢
      omega
  · intro hnil
    rw [h5 e, hnil]
    rfl

/-- Witness of `load_counters`: a members file with two records of id 7. -/
theorem load_counters_witness :
    (∀ x ∈ file_records read_member ex_twins_file.members, 0 ≤ hash_function x.memberId) ∧
    FilesInRange ex_twins_file ∧
    ∃ t, load_all_data ex_twins_file init = some t ∧
      t.member_list.map (fun n => n.data) = file_records read_member ex_twins_file.members ∧
      t.workspace_list = file_records read_workspace ex_twins_file.workspaces ∧
      t.booking_list = file_records read_booking ex_twins_file.bookings ∧
      t.payment_list = file_records read_payment ex_twins_file.payments ∧
      ∀ e, next_id t e = max_id (store_ids t e) + 1 ∧ is_int (next_id t e) ∧
        (store_ids t e = [] → next_id t e = 1) :=
  ⟨by decide, by decide, load_counters ex_twins_file (by decide) (by decide)⟩

/-! ## Rejected operations -/

/-- C6: `addMember` with an email equal, as a string, to the email of a
member of the list returns with the globals exactly as they were: member
list, index, `next_member_id`, log and everything else. -/
theorem addMember_duplicate_email (s : State) (nameIn emailIn : List Char)
    (h : ∃ n ∈ s.member_list, n.data.email = getString emailIn 100) :
    addMember s nameIn emailIn = some s := by
  obtain ⟨n, hn, he⟩ := h
  unfold addMember
  simp only
  rw [if_pos]
  exact List.any_eq_true.2 ⟨n, hn, by simp [he]⟩

/-- Witness of `addMember_duplicate_email`: Ana has id 1; Bo with the email
of Ana is rejected, and the store still has exactly one member. -/
theorem addMember_duplicate_email_witness :
    addMember init "Ana".toList "ana@x.com".toList = some ex_ana ∧
      (∃ n ∈ ex_ana.member_list, n.data.email = getString "ana@x.com".toList 100) ∧
      addMember ex_ana "Bo".toList "ana@x.com".toList = some ex_ana ∧
      ex_ana.member_list.length = 1 :=
  ⟨rfl, by decide,
    addMember_duplicate_email ex_ana "Bo".toList "ana@x.com".toList (by decide), rfl⟩

/-- C7: a failed integrity check creates nothing.  `addBooking` with a member
id for which `findMemberNodeById` returns `NULL`, or with a member that is
found and a workspace id for which `findWorkspaceNodeById` returns `NULL`,
and `addPayment` with a booking id for which `findBookingNodeById` returns
`NULL`, return with the globals exactly as they were (lists, counters and
log). -/
theorem integrity_failure_creates_nothing (s : State) (mId wId bId amount : Int)
    (a b c d st : List Char) :
    (findMemberNodeById s mId = some none → addBooking s mId wId a b c = some s) ∧
      ((∃ n, findMemberNodeById s mId = some (some n)) → findWorkspaceNodeById s wId = none →
        addBooking s mId wId a b c = some s) ∧
      (findBookingNodeById s bId = none → addPayment s bId amount d st = some s) := by
  refine ⟨?_, ?_, ?_⟩
  · intro h
    unfold addBooking
    rw [h]
  · rintro ⟨n, h⟩ hw
    unfold addBooking
    rw [h]
    simp only
    rw [hw]
  · intro h
    unfold addPayment
    rw [h]

/-- Witness of `integrity_failure_creates_nothing`: with Ana as the only
member and no workspace and no booking, a booking for member 2, a booking for
member 1 at workspace 5 and a payment for booking 9 are all refused. -/
theorem integrity_failure_creates_nothing_witness :
    findMemberNodeById ex_ana 2 = some none ∧
      (∃ n, findMemberNodeById ex_ana 1 = some (some n)) ∧
      findWorkspaceNodeById ex_ana 5 = none ∧ findBookingNodeById ex_ana 9 = none ∧
      addBooking ex_ana 2 5 "a".toList "b".toList "c".toList = some ex_ana ∧
      addBooking ex_ana 1 5 "a".toList "b".toList "c".toList = some ex_ana ∧
      addPayment ex_ana 9 100 "d".toList "Paid".toList = some ex_ana :=
  ⟨rfl, ⟨_, rfl⟩, rfl, rfl,
    (integrity_failure_creates_nothing ex_ana 2 5 9 100 "a".toList "b".toList "c".toList
      "d".toList "Paid".toList).1 rfl,
    (integrity_failure_creates_nothing ex_ana 1 5 9 100 "a".toList "b".toList "c".toList
      "d".toList "Paid".toList).2.1 ⟨_, rfl⟩ rfl,
    (integrity_failure_creates_nothing ex_ana 1 5 9 100 "a".toList "b".toList "c".toList
      "d".toList "Paid".toList).2.2 rfl⟩

/-! ## Successful adds -/

theorem find?_isSome_of_mem {α : Type} (p : α → Bool) {l : List α} {x : α} (hx : x ∈ l)
    (hp : p x = true) : ∃ y, l.find? p = some y := by
  cases h : l.find? p with
  | none =>
    rw [List.find?_eq_none] at h
    exact absurd hp (h x hx)
  | some y => exact ⟨y, rfl⟩

/-- Successful adds, on what their reads obtain: in every state of a run, an
add that passes its checks appends exactly one record at the end of its
store, with the current counter as id, the values returned by `getInt` and
the `getString` buffers of what the `fgets` calls store as the other fields,
and increments the counter (in the integers).  The checks are: for
`addMember`, no member of the list has the email; for `addBooking`, the
member and the workspace are in their lists; for `addPayment`, the booking is
in its list; `addWorkspace` has none. -/
theorem add_appends (s : State) (hs : Reachable s) :
    (∀ nameIn emailIn, (∀ n ∈ s.member_list, n.data.email ≠ getString emailIn 100) →
      ∃ t p, addMember s nameIn emailIn = some t ∧
        t.member_list = s.member_list ++
          [⟨p, ⟨s.next_member_id, getString nameIn 100, getString emailIn 100⟩⟩] ∧
        t.next_member_id = s.next_member_id + 1) ∧
    (∀ typeIn locationIn capacity price,
      ∃ t, addWorkspace s typeIn locationIn capacity price = some t ∧
        t.workspace_list = s.workspace_list ++
          [⟨s.next_workspace_id, getString typeIn 50, getString locationIn 100, capacity,
            price⟩] ∧
        t.next_workspace_id = s.next_workspace_id + 1) ∧
    (∀ mId wId startIn endIn statusIn, (∃ n ∈ s.member_list, n.data.memberId = mId) →
      (∃ w ∈ s.workspace_list, w.workspaceId = wId) →
      ∃ t, addBooking s mId wId startIn endIn statusIn = some t ∧
        t.booking_list = s.booking_list ++
          [⟨s.next_booking_id, mId, wId, getString startIn 20, getString endIn 20,
            getString statusIn 20⟩] ∧
        t.next_booking_id = s.next_booking_id + 1) ∧
    (∀ bId amount dateIn statusIn, (∃ b ∈ s.booking_list, b.bookingId = bId) →
      ∃ t, addPayment s bId amount dateIn statusIn = some t ∧
        t.payment_list = s.payment_list ++
          [⟨s.next_payment_id, bId, amount, getString dateIn 11, getString statusIn 20⟩] ∧
        t.next_payment_id = s.next_payment_id + 1) := by
  have hinv := indexInv_of_reachable hs
  have hcnt := counterInv_of_reachable hs
  refine ⟨?_, ?_, ?_, ?_⟩
  · intro nameIn emailIn hnew
    have hany : (s.member_list.any (fun n => n.data.email == getString emailIn 100)) = false := by
      rw [Bool.eq_false_iff]
      intro h
      obtain ⟨n, hn, he⟩ := List.any_eq_true.1 h
      exact hnew n hn (by simpa using he)
    have hpos : 0 < s.next_member_id := (hcnt Entity.member).1
    have hb := bucket?_of_valid s.member_index
      (hash_of_nonneg (le_of_lt hpos)) (hash_lt s.next_member_id)
    unfold addMember add_to_index
    simp only [hany, hb, Bool.false_eq_true, if_false]
    exact ⟨_, malloc s.member_list, rfl, rfl, rfl⟩
  · intro typeIn locationIn capacity price
    exact ⟨_, rfl, rfl, rfl⟩
  · rintro mId wId startIn endIn statusIn ⟨n, hn, hnid⟩ ⟨w, hw, hwid⟩
    have hvalid : 0 ≤ hash_function mId := hnid ▸ hinv.valid n hn
    obtain ⟨r, hr, hnone, -⟩ := find_spec hinv hvalid
    obtain ⟨w2, hw2⟩ := find?_isSome_of_mem (fun w => w.workspaceId == wId) hw
      (by simp [hwid])
    cases r with
    | none => exact absurd hnid (hnone.1 rfl n hn)
    | some k =>
      unfold addBooking
      rw [hr]
      simp only
      unfold findWorkspaceNodeById
      rw [hw2]
      exact ⟨_, rfl, rfl, rfl⟩
  · rintro bId amount dateIn statusIn ⟨b, hb, hbid⟩
    obtain ⟨b2, hb2⟩ := find?_isSome_of_mem (fun b => b.bookingId == bId) hb
      (by simp [hbid])
    unfold addPayment findBookingNodeById
    rw [hb2]
    exact ⟨_, rfl, rfl, rfl⟩

/-- Witness of `add_appends`: after one member and one workspace have been
added in the empty state, the booking for member 1 at workspace 1 succeeds
with id 1. -/
theorem add_appends_witness :
    Reachable ex_desk ∧
      (∃ t, addBooking ex_desk 1 1 "2024-01-01T09:00".toList "2024-01-01T17:00".toList
          "Confirmed".toList = some t ∧
        t.booking_list = [⟨1, 1, 1, "2024-01-01T09:00".toList, "2024-01-01T17:00".toList,
          "Confirmed".toList⟩] ∧ t.next_booking_id = 2) :=
  ⟨reachable_ex_desk,
    (add_appends ex_desk reachable_ex_desk).2.2.1 1 1 "2024-01-01T09:00".toList
      "2024-01-01T17:00".toList "Confirmed".toList (by decide) (by decide)⟩

/-! ## The index and the list -/

/-- Lockstep along the executions without undefined behaviour: in every state
obtained from the empty initial state by calls of `load_all_data` and menu
choices (among them `addMember`, `updateMember` and `deleteMember`) that keep
every subscript of `member_index` within the buckets, the index and the
member list are in lockstep: every node of the list is the target of exactly
one chain entry, that entry is in bucket `memberId mod 1009`, and every chain
entry targets a node of the list. -/
theorem lockstep_invariant (s : State) (h : IndexReach s) : Lockstep s :=
  lockstep_of_indexInv (indexInv_of_indexReach h)

/-- Witness of `lockstep_invariant`: two members with the same id are loaded
and one of them is deleted. -/
theorem lockstep_invariant_witness : IndexReach ex_twins_deleted ∧ Lockstep ex_twins_deleted :=
  ⟨IndexReach.step ex_twins ex_twins_deleted (Op.deleteMember 7)
      (IndexReach.load ex_twins_file init ex_twins IndexReach.init rfl) rfl,
    lockstep_invariant ex_twins_deleted
      (IndexReach.step ex_twins ex_twins_deleted (Op.deleteMember 7)
        (IndexReach.load ex_twins_file init ex_twins IndexReach.init rfl) rfl)⟩

/-! ## Unknown ids -/

/-- Update and delete with an id that no record carries, in a state of a run:
nothing changes, for a member id under the proviso that its hash is a valid
subscript of `member_index`. -/
theorem not_found_noop (s : State) (hs : Reachable s) (id : Int) :
    (0 ≤ hash_function id → (∀ n ∈ s.member_list, n.data.memberId ≠ id) →
      ∀ nameIn, updateMember s id nameIn = some s ∧ deleteMember s id = some s) ∧
    ((∀ w ∈ s.workspace_list, w.workspaceId ≠ id) →
      ∀ capacity price, updateWorkspace s id capacity price = some s ∧
        deleteWorkspace s id = some s) ∧
    ((∀ b ∈ s.booking_list, b.bookingId ≠ id) →
      ∀ statusIn, updateBooking s id statusIn = some s ∧ deleteBooking s id = some s) ∧
    ((∀ p ∈ s.payment_list, p.paymentId ≠ id) →
      ∀ statusIn, updatePayment s id statusIn = some s ∧ deletePayment s id = some s) := by
  refine ⟨?_, ?_, ?_, ?_⟩
  · intro hid hall nameIn
    obtain ⟨r, hr, hnone, -⟩ := find_spec (indexInv_of_reachable hs) hid
    have : r = none := hnone.2 hall
    subst this
    constructor
    · unfold updateMember; rw [hr]
    · unfold deleteMember; rw [hr]
  · intro hall capacity price
    have : findWorkspaceNodeById s id = none := by
      unfold findWorkspaceNodeById
      rw [List.find?_eq_none]
      intro w hw
      simpa using hall w hw
    constructor
    · unfold updateWorkspace; rw [this]
    · unfold deleteWorkspace; rw [this]
  · intro hall statusIn
    have : findBookingNodeById s id = none := by
      unfold findBookingNodeById
      rw [List.find?_eq_none]
      intro b hb
      simpa using hall b hb
    constructor
    · unfold updateBooking; rw [this]
    · unfold deleteBooking; rw [this]
  · intro hall statusIn
    have : findPaymentNodeById s id = none := by
      unfold findPaymentNodeById
      rw [List.find?_eq_none]
      intro p hp
      simpa using hall p hp
    constructor
    · unfold updatePayment; rw [this]
    · unfold deletePayment; rw [this]

/-- C10: the claim requires update and delete with an unknown id to change
nothing.  In the empty initial state no member carries the id -1, and
`updateMember` and `deleteMember` called with -1 subscript `member_index`
with `hash_function (-1) = -1`: undefined behaviour, not the unchanged
state. -/
theorem unknown_negative_member_id_undefined :
    (∀ n ∈ init.member_list, n.data.memberId ≠ -1) ∧
      updateMember init (-1) "Zed".toList = none ∧ deleteMember init (-1) = none := by
  refine ⟨?_, rfl, rfl⟩
  intro n hn
  cases hn

/-! ## Update and delete of a located record -/

theorem map_at_addr {pre post : List MemberNode} {node : MemberNode}
    (hnd : ((pre ++ node :: post).map (fun n => n.addr)).Nodup) (g : MemberNode → MemberNode) :
    (pre ++ node :: post).map (fun n => if n.addr = node.addr then g n else n) =
      pre ++ g node :: post := by
  rw [List.map_append, List.nodup_append] at hnd
  obtain ⟨-, hpost, hdisj⟩ := hnd
  simp only [List.map_cons, List.nodup_cons, List.mem_map, not_exists, not_and] at hpost
  have hpre : ∀ x ∈ pre, x.addr ≠ node.addr := by
    intro x hx e
    exact hdisj (List.mem_map_of_mem (fun n => n.addr) hx)
      (by rw [e]; exact List.mem_cons_self _ _)
  have hpo : ∀ x ∈ post, x.addr ≠ node.addr := fun x hx => hpost.1 x hx
  rw [List.map_append, List.map_cons, if_pos rfl]
  congr 1
  · conv_rhs => rw [← List.map_id pre]
    apply List.map_congr_left
    intro x hx
    simp [hpre x hx]
  · congr 1
    conv_rhs => rw [← List.map_id post]
    apply List.map_congr_left
    intro x hx
    simp [hpo x hx]

theorem filter_at_addr {pre post : List MemberNode} {node : MemberNode}
    (hnd : ((pre ++ node :: post).map (fun n => n.addr)).Nodup) :
    (pre ++ node :: post).filter (fun n => n.addr != node.addr) = pre ++ post := by
  rw [List.map_append, List.nodup_append] at hnd
  obtain ⟨-, hpost, hdisj⟩ := hnd
  simp only [List.map_cons, List.nodup_cons, List.mem_map, not_exists, not_and] at hpost
  have hpre : ∀ x ∈ pre, x.addr ≠ node.addr := by
    intro x hx e
    exact hdisj (List.mem_map_of_mem (fun n => n.addr) hx)
      (by rw [e]; exact List.mem_cons_self _ _)
  have hpo : ∀ x ∈ post, x.addr ≠ node.addr := fun x hx => hpost.1 x hx
  rw [List.filter_append, List.filter_cons]
  simp only [bne_self_eq_false, Bool.false_eq_true, if_false]
  congr 1
  · rw [List.filter_eq_self]
    intro x hx
    simpa using hpre x hx
  · rw [List.filter_eq_self]
    intro x hx
    simpa using hpo x hx

theorem updateFirst_split {α : Type} (p : α → Bool) (f : α → α) {l : List α}
    (h : ∃ x ∈ l, p x = true) :
    ∃ pre w post, l = pre ++ w :: post ∧ (∀ x ∈ pre, p x = false) ∧ p w = true ∧
      updateFirst p f l = pre ++ f w :: post ∧ l.eraseP p = pre ++ post ∧
      l.find? p = some w := by
  induction l with
  | nil =>
    obtain ⟨x, hx, -⟩ := h
    cases hx
  | cons a rest ih =>
    by_cases ha : p a = true
    · refine ⟨[], a, rest, rfl, ?_, ha, ?_, ?_, ?_⟩
      · intro x hx; cases hx
      · simp [updateFirst, ha]
      · simp [List.eraseP_cons, ha]
      · simp [List.find?_cons, ha]
    · obtain ⟨x, hx, hpx⟩ := h
      have hrest : ∃ x ∈ rest, p x = true := by
        rcases List.mem_cons.1 hx with rfl | hx
        · exact absurd hpx ha
        · exact ⟨x, hx, hpx⟩
      obtain ⟨pre, w, post, h1, h2, h3, h4, h5, h6⟩ := ih hrest
      have ha2 : p a = false := by simpa using ha
      refine ⟨a :: pre, w, post, by rw [h1]; rfl, ?_, h3, ?_, ?_, ?_⟩
      · intro y hy
        rcases List.mem_cons.1 hy with rfl | hy
        · exact ha2
        · exact h2 y hy
      · simp [updateFirst, ha2, h4]
      · simp [List.eraseP_cons, ha2, h5]
      · simp [List.find?_cons, ha2, h6]

/-- The member lookup in a state of a run, for an id that a node of the list
carries: it returns a node of the list with that id, and the walk of
`remove_from_index` goes through. -/
theorem find_present {s : State} (hs : Reachable s) {id : Int}
    (h : ∃ n ∈ s.member_list, n.data.memberId = id) :
    ∃ node pre post, findMemberNodeById s id = some (some node) ∧ node.data.memberId = id ∧
      s.member_list = pre ++ node :: post ∧
      ∃ idx, remove_from_index s.member_list s.member_index id = some idx := by
  obtain ⟨n, hn, hnid⟩ := h
  have hinv := indexInv_of_reachable hs
  have hvalid : 0 ≤ hash_function id := hnid ▸ hinv.valid n hn
  obtain ⟨r, hr, hnone, hsome⟩ := find_spec hinv hvalid
  cases r with
  | none => exact absurd hnid (hnone.1 rfl n hn)
  | some k =>
    obtain ⟨hk, hkid⟩ := hsome k rfl
    obtain ⟨pre, post, hsplit⟩ := List.append_of_mem hk
    refine ⟨k, pre, post, hr, hkid, hsplit, ?_⟩
    have hb := bucket?_of_valid s.member_index hvalid (hash_lt id)
    unfold findMemberNodeById at hr
    rw [hb] at hr
    simp only at hr
    obtain ⟨-, -, -, hrem⟩ := find_in_chain_some hr
    unfold remove_from_index
    simp only [hb, hrem, Option.map_some']
    exact ⟨_, rfl⟩

theorem only_store_changed_intro (e : Entity) (s t : State)
    (hm : e ≠ Entity.member → t.member_list = s.member_list)
    (hw : e ≠ Entity.workspace → t.workspace_list = s.workspace_list)
    (hb : e ≠ Entity.booking → t.booking_list = s.booking_list)
    (hp : e ≠ Entity.payment → t.payment_list = s.payment_list)
    (h1 : t.next_member_id = s.next_member_id) (h2 : t.next_workspace_id = s.next_workspace_id)
    (h3 : t.next_booking_id = s.next_booking_id) (h4 : t.next_payment_id = s.next_payment_id) :
    only_store_changed e s t := by
  refine ⟨?_, ?_⟩
  · intro e2 hne
    cases e2
    · exact hm (fun h => hne h.symm)
    · exact hw (fun h => hne h.symm)
    · exact hb (fun h => hne h.symm)
    · exact hp (fun h => hne h.symm)
  · intro e2
    cases e2
    · exact h1
    · exact h2
    · exact h3
    · exact h4

/-- C11: an update changes only the designated fields.  In a state of a run,
when a record with the id is in its store, the update goes through and the
new store is the old one with the located record replaced in place:
`updateMember` sets its name (id, email and address kept), `updateWorkspace`
its capacity and price, `updateBooking` and `updatePayment` its status.  The
records before and after it, the other three stores, the index and the four
counters are unchanged.  For the three searched lists the located record is
the first one with the id. -/
theorem update_changes_designated_fields (s : State) (hs : Reachable s) (id : Int) :
    ((∃ n ∈ s.member_list, n.data.memberId = id) → ∀ nameIn,
      ∃ t pre n post, updateMember s id nameIn = some t ∧ n.data.memberId = id ∧
        s.member_list = pre ++ n :: post ∧
        t.member_list =
          pre ++ ⟨n.addr, ⟨n.data.memberId, getString nameIn 100, n.data.email⟩⟩ :: post ∧
        t.member_index = s.member_index ∧ only_store_changed Entity.member s t) ∧
    ((∃ w ∈ s.workspace_list, w.workspaceId = id) → ∀ capacity price,
      ∃ t pre w post, updateWorkspace s id capacity price = some t ∧ w.workspaceId = id ∧
        (∀ x ∈ pre, x.workspaceId ≠ id) ∧ s.workspace_list = pre ++ w :: post ∧
        t.workspace_list = pre ++ ⟨w.workspaceId, w.type, w.location, capacity, price⟩ :: post ∧
        t.member_index = s.member_index ∧ only_store_changed Entity.workspace s t) ∧
    ((∃ b ∈ s.booking_list, b.bookingId = id) → ∀ statusIn,
      ∃ t pre b post, updateBooking s id statusIn = some t ∧ b.bookingId = id ∧
        (∀ x ∈ pre, x.bookingId ≠ id) ∧ s.booking_list = pre ++ b :: post ∧
        t.booking_list = pre ++ ⟨b.bookingId, b.memberId, b.workspaceId, b.startTime,
          b.endTime, getString statusIn 20⟩ :: post ∧
        t.member_index = s.member_index ∧ only_store_changed Entity.booking s t) ∧
    ((∃ p ∈ s.payment_list, p.paymentId = id) → ∀ statusIn,
      ∃ t pre p post, updatePayment s id statusIn = some t ∧ p.paymentId = id ∧
        (∀ x ∈ pre, x.paymentId ≠ id) ∧ s.payment_list = pre ++ p :: post ∧
        t.payment_list = pre ++ ⟨p.paymentId, p.bookingId, p.amount_in_cents, p.paymentDate,
          getString statusIn 20⟩ :: post ∧
        t.member_index = s.member_index ∧ only_store_changed Entity.payment s t) := by
  refine ⟨?_, ?_, ?_, ?_⟩
  · intro h nameIn
    obtain ⟨node, pre, post, hfind, hid, hsplit, -⟩ := find_present hs h
    have hnd := (indexInv_of_reachable hs).nodup
    rw [hsplit] at hnd
    unfold updateMember
    rw [hfind]
    simp only
    refine ⟨_, pre, node, post, rfl, hid, hsplit, ?_, rfl, ?_⟩
    · show (s.member_list.map _) = _
      rw [hsplit]
      exact map_at_addr hnd _
    · exact only_store_changed_intro _ _ _ (fun h => absurd rfl h) (fun _ => rfl)
        (fun _ => rfl) (fun _ => rfl) rfl rfl rfl rfl
  · rintro ⟨w, hw, hwid⟩ capacity price
    obtain ⟨pre, x, post, h1, h2, h3, h4, -, h6⟩ :=
      updateFirst_split (fun w => w.workspaceId == id)
        (fun w => ({ w with capacity := capacity, price_in_cents := price } : Workspace))
        ⟨w, hw, by simp [hwid]⟩
    unfold updateWorkspace findWorkspaceNodeById
    rw [h6]
    simp only
    refine ⟨_, pre, x, post, rfl, by simpa using h3, ?_, h1, h4, rfl, ?_⟩
    · intro y hy
      simpa using h2 y hy
    · exact only_store_changed_intro _ _ _ (fun _ => rfl) (fun h => absurd rfl h)
        (fun _ => rfl) (fun _ => rfl) rfl rfl rfl rfl
  · rintro ⟨b, hb, hbid⟩ statusIn
    obtain ⟨pre, x, post, h1, h2, h3, h4, -, h6⟩ :=
      updateFirst_split (fun b => b.bookingId == id)
        (fun b => ({ b with status := getString statusIn 20 } : Booking))
        ⟨b, hb, by simp [hbid]⟩
    unfold updateBooking findBookingNodeById
    rw [h6]
    simp only
    refine ⟨_, pre, x, post, rfl, by simpa using h3, ?_, h1, h4, rfl, ?_⟩
    · intro y hy
      simpa using h2 y hy
    · exact only_store_changed_intro _ _ _ (fun _ => rfl) (fun _ => rfl)
        (fun h => absurd rfl h) (fun _ => rfl) rfl rfl rfl rfl
  · rintro ⟨p, hp, hpid⟩ statusIn
    obtain ⟨pre, x, post, h1, h2, h3, h4, -, h6⟩ :=
      updateFirst_split (fun p => p.paymentId == id)
        (fun p => ({ p with status := getString statusIn 20 } : Payment))
        ⟨p, hp, by simp [hpid]⟩
    unfold updatePayment findPaymentNodeById
    rw [h6]
    simp only
    refine ⟨_, pre, x, post, rfl, by simpa using h3, ?_, h1, h4, rfl, ?_⟩
    · intro y hy
      simpa using h2 y hy
    · exact only_store_changed_intro _ _ _ (fun _ => rfl) (fun _ => rfl) (fun _ => rfl)
        (fun h => absurd rfl h) rfl rfl rfl rfl

/-- Witness of `update_changes_designated_fields`: the workspace of `ex_desk`
gets capacity 10 and price 900. -/
theorem update_changes_designated_fields_witness :
    Reachable ex_desk ∧ (∃ w ∈ ex_desk.workspace_list, w.workspaceId = 1) ∧
      ∃ t pre w post, updateWorkspace ex_desk 1 10 900 = some t ∧ w.workspaceId = 1 ∧
        (∀ x ∈ pre, x.workspaceId ≠ 1) ∧ ex_desk.workspace_list = pre ++ w :: post ∧
        t.workspace_list = pre ++ ⟨w.workspaceId, w.type, w.location, 10, 900⟩ :: post ∧
        t.member_index = ex_desk.member_index ∧
        only_store_changed Entity.workspace ex_desk t :=
  ⟨reachable_ex_desk, by decide,
    (update_changes_designated_fields ex_desk reachable_ex_desk 1).2.1 (by decide) 10 900⟩

/-- C12: a delete removes exactly one record and does not cascade.  In a state
of a run, when a record with the id is in its store, the delete goes through
and the new store is the old one without the located record, the records
before and after it in their order; the other three stores and the four
counters are unchanged, so the bookings of a deleted member and the payments
of a deleted booking stay.  For the three searched lists the located record
is the first one with the id. -/
theorem delete_removes_one_record (s : State) (hs : Reachable s) (id : Int) :
    ((∃ n ∈ s.member_list, n.data.memberId = id) →
      ∃ t pre n post, deleteMember s id = some t ∧ n.data.memberId = id ∧
        s.member_list = pre ++ n :: post ∧ t.member_list = pre ++ post ∧
        only_store_changed Entity.member s t) ∧
    ((∃ w ∈ s.workspace_list, w.workspaceId = id) →
      ∃ t pre w post, deleteWorkspace s id = some t ∧ w.workspaceId = id ∧
        (∀ x ∈ pre, x.workspaceId ≠ id) ∧ s.workspace_list = pre ++ w :: post ∧
        t.workspace_list = pre ++ post ∧ only_store_changed Entity.workspace s t) ∧
    ((∃ b ∈ s.booking_list, b.bookingId = id) →
      ∃ t pre b post, deleteBooking s id = some t ∧ b.bookingId = id ∧
        (∀ x ∈ pre, x.bookingId ≠ id) ∧ s.booking_list = pre ++ b :: post ∧
        t.booking_list = pre ++ post ∧ only_store_changed Entity.booking s t) ∧
    ((∃ p ∈ s.payment_list, p.paymentId = id) →
      ∃ t pre p post, deletePayment s id = some t ∧ p.paymentId = id ∧
        (∀ x ∈ pre, x.paymentId ≠ id) ∧ s.payment_list = pre ++ p :: post ∧
        t.payment_list = pre ++ post ∧ only_store_changed Entity.payment s t) := by
  refine ⟨?_, ?_, ?_, ?_⟩
  · intro h
    obtain ⟨node, pre, post, hfind, hid, hsplit, idx, hidx⟩ := find_present hs h
    have hnd := (indexInv_of_reachable hs).nodup
    rw [hsplit] at hnd
    unfold deleteMember
    rw [hfind]
    simp only
    rw [hidx]
    simp only
    refine ⟨_, pre, node, post, rfl, hid, hsplit, ?_, ?_⟩
    · show s.member_list.filter _ = _
      rw [hsplit]
      exact filter_at_addr hnd
    · exact only_store_changed_intro _ _ _ (fun h => absurd rfl h) (fun _ => rfl)
        (fun _ => rfl) (fun _ => rfl) rfl rfl rfl rfl
  · rintro ⟨w, hw, hwid⟩
    obtain ⟨pre, x, post, h1, h2, h3, -, h5, h6⟩ :=
      updateFirst_split (fun w => w.workspaceId == id) (fun w : Workspace => w)
        ⟨w, hw, by simp [hwid]⟩
    unfold deleteWorkspace findWorkspaceNodeById
    rw [h6]
    simp only
    refine ⟨_, pre, x, post, rfl, by simpa using h3, ?_, h1, h5, ?_⟩
    · intro y hy
      simpa using h2 y hy
    · exact only_store_changed_intro _ _ _ (fun _ => rfl) (fun h => absurd rfl h)
        (fun _ => rfl) (fun _ => rfl) rfl rfl rfl rfl
  · rintro ⟨b, hb, hbid⟩
    obtain ⟨pre, x, post, h1, h2, h3, -, h5, h6⟩ :=
      updateFirst_split (fun b => b.bookingId == id) (fun b : Booking => b)
        ⟨b, hb, by simp [hbid]⟩
    unfold deleteBooking findBookingNodeById
    rw [h6]
    simp only
    refine ⟨_, pre, x, post, rfl, by simpa using h3, ?_, h1, h5, ?_⟩
    · intro y hy
      simpa using h2 y hy
    · exact only_store_changed_intro _ _ _ (fun _ => rfl) (fun _ => rfl)
        (fun h => absurd rfl h) (fun _ => rfl) rfl rfl rfl rfl
  · rintro ⟨p, hp, hpid⟩
    obtain ⟨pre, x, post, h1, h2, h3, -, h5, h6⟩ :=
      updateFirst_split (fun p => p.paymentId == id) (fun p : Payment => p)
        ⟨p, hp, by simp [hpid]⟩
    unfold deletePayment findPaymentNodeById
    rw [h6]
    simp only
    refine ⟨_, pre, x, post, rfl, by simpa using h3, ?_, h1, h5, ?_⟩
    · intro y hy
      simpa using h2 y hy
    · exact only_store_changed_intro _ _ _ (fun _ => rfl) (fun _ => rfl) (fun _ => rfl)
        (fun h => absurd rfl h) rfl rfl rfl rfl

theorem reachable_ex_booked : Reachable ex_booked :=
  Reachable.step ex_desk ex_booked
    (Op.addBooking 1 1 "2024-01-01T09:00".toList "2024-01-01T17:00".toList "Confirmed".toList)
    reachable_ex_desk rfl

/-- Witness of `delete_removes_one_record`: Ana has a booking; deleting Ana
empties the member list and leaves the booking, which still names member
1. -/
theorem delete_removes_one_record_witness :
    Reachable ex_booked ∧ (∃ n ∈ ex_booked.member_list, n.data.memberId = 1) ∧
      (∃ t pre n post, deleteMember ex_booked 1 = some t ∧ n.data.memberId = 1 ∧
        ex_booked.member_list = pre ++ n :: post ∧ t.member_list = pre ++ post ∧
        only_store_changed Entity.member ex_booked t) ∧
      (deleteMember ex_booked 1).map (fun t => (t.member_list, t.booking_list)) =
        some ([], ex_booked.booking_list) ∧
      ex_booked.booking_list.map (fun b => b.memberId) = [1] :=
  ⟨reachable_ex_booked, by decide,
    (delete_removes_one_record ex_booked reachable_ex_booked 1).1 (by decide), by decide,
    by decide⟩

/-! ## Emails -/

theorem emails_step {s t : State} {op : Op}
    (hn : (s.member_list.map (fun n => n.data.email)).Nodup) (h : step s op = some t) :
    (t.member_list.map (fun n => n.data.email)).Nodup := by
  cases op with
  | addMember nm em =>
    simp only [step, addMember] at h
    split at h
    · simp only [Option.some.injEq] at h; subst h; exact hn
    · rename_i hany
      split at h
      · cases h
      · simp only [Option.some.injEq] at h
        subst h
        simp only [log_operation, List.map_append, List.map_cons, List.map_nil]
        rw [List.nodup_append]
        refine ⟨hn, List.nodup_singleton _, ?_⟩
        intro a ha hb
        simp only [List.mem_singleton] at hb
        subst hb
        obtain ⟨n, hmem, he⟩ := List.mem_map.1 ha
        apply hany
        exact List.any_eq_true.2 ⟨n, hmem, by simp [he]⟩
  | updateMember id nm =>
    simp only [step, updateMember] at h
    split at h
    · cases h
    · simp only [Option.some.injEq] at h; subst h; exact hn
    · rename_i node _
      simp only [Option.some.injEq] at h
      subst h
      have : (s.member_list.map (fun n => if n.addr = node.addr then
          ({ n with data := { n.data with name := getString nm 100 } } : MemberNode)
          else n)).map (fun n => n.data.email) = s.member_list.map (fun n => n.data.email) := by
        rw [List.map_map]
        apply List.map_congr_left
        intro n _
        by_cases e : n.addr = node.addr <;> simp [e]
      show (List.map _ (List.map _ s.member_list)).Nodup
      rw [this]
      exact hn
  | deleteMember id =>
    simp only [step, deleteMember] at h
    split at h
    · cases h
    · simp only [Option.some.injEq] at h; subst h; exact hn
    · split at h
      · cases h
      · simp only [Option.some.injEq] at h
        subst h
        exact hn.sublist ((List.filter_sublist _).map _)
  | addWorkspace a b c d =>
    simp only [step, addWorkspace, Option.some.injEq] at h
    subst h; exact hn
  | updateWorkspace id c p =>
    simp only [step, updateWorkspace] at h
    split at h <;> (simp only [Option.some.injEq] at h; subst h; exact hn)
  | deleteWorkspace id =>
    simp only [step, deleteWorkspace] at h
    split at h <;> (simp only [Option.some.injEq] at h; subst h; exact hn)
  | addBooking m w a b c =>
    simp only [step, addBooking] at h
    split at h
    · cases h
    · simp only [Option.some.injEq] at h; subst h; exact hn
    · split at h <;> (simp only [Option.some.injEq] at h; subst h; exact hn)
  | updateBooking id st =>
    simp only [step, updateBooking] at h
    split at h <;> (simp only [Option.some.injEq] at h; subst h; exact hn)
  | deleteBooking id =>
    simp only [step, deleteBooking] at h
    split at h <;> (simp only [Option.some.injEq] at h; subst h; exact hn)
  | addPayment b a d st =>
    simp only [step, addPayment] at h
    split at h <;> (simp only [Option.some.injEq] at h; subst h; exact hn)
  | updatePayment id st =>
    simp only [step, updatePayment] at h
    split at h <;> (simp only [Option.some.injEq] at h; subst h; exact hn)
  | deletePayment id =>
    simp only [step, deletePayment] at h
    split at h <;> (simp only [Option.some.injEq] at h; subst h; exact hn)

theorem emails_run {s t : State} (ops : List Op)
    (hn : (s.member_list.map (fun n => n.data.email)).Nodup) (h : run s ops = some t) :
    (t.member_list.map (fun n => n.data.email)).Nodup := by
  induction ops generalizing s with
  | nil =>
    simp only [run, Option.some.injEq] at h
    subst h; exact hn
  | cons op ops ih =>
    simp only [run] at h
    cases h1 : step s op with
    | none => rw [h1] at h; cases h
    | some u =>
      rw [h1] at h
      exact ih (emails_step hn h1) h

/-- C13: member emails stay unique.  In every state that a sequence of menu
choices (among them `addMember`, `updateMember` and `deleteMember`) reaches
from the empty initial state, the emails of the member list are pairwise
different as strings. -/
theorem emails_stay_unique (ops : List Op) (s : State) (h : run init ops = some s) :
    (s.member_list.map (fun n => n.data.email)).Nodup :=
  emails_run ops (show (init.member_list.map (fun n => n.data.email)).Nodup from
    List.nodup_nil) h

/-- Witness of `emails_stay_unique`: Ana is added, Bo with the email of Ana is
refused, and the renamed Ana is still the only member. -/
theorem emails_stay_unique_witness :
    run init [Op.addMember "Ana".toList "ana@x.com".toList,
        Op.addMember "Bo".toList "ana@x.com".toList, Op.updateMember 1 "\n".toList]
        = some ex_ana_renamed ∧
      (ex_ana_renamed.member_list.map (fun n => n.data.email)).Nodup :=
  ⟨rfl, emails_stay_unique
    [Op.addMember "Ana".toList "ana@x.com".toList,
      Op.addMember "Bo".toList "ana@x.com".toList, Op.updateMember 1 "\n".toList]
    ex_ana_renamed rfl⟩

/-! ## Records admitted by the load loops -/

/-- Every path releases exactly the locks it acquires. -/
theorem lock_traces_balanced (p : Path) : balanced (path_trace p) = true := by
  cases p with
  | addBooking m w => cases m <;> cases w <;> rfl
  | save_all_data ok =>
    obtain ⟨a, b, c, d⟩ := ok
    cases a <;> cases b <;> cases c <;> cases d <;> rfl
  | addMember b => cases b <;> rfl
  | updateMember b => cases b <;> rfl
  | deleteMember b => cases b <;> rfl
  | updateWorkspace b => cases b <;> rfl
  | deleteWorkspace b => cases b <;> rfl
  | updateBooking b => cases b <;> rfl
  | deleteBooking b => cases b <;> rfl
  | addPayment b => cases b <;> rfl
  | updatePayment b => cases b <;> rfl
  | deletePayment b => cases b <;> rfl
  | displayAllMembers => rfl
  | displayAllWorkspaces => rfl
  | displayAllBookings => rfl
  | displayAllPayments => rfl
  | addWorkspace => rfl

/-- The paths on which every access is made under the lock of its entity
type are exactly those that insert no record. -/
theorem lock_traces_guarded (p : Path) : guarded [] (path_trace p) = !inserts p := by
  cases p with
  | addBooking m w => cases m <;> cases w <;> rfl
  | save_all_data ok =>
    obtain ⟨a, b, c, d⟩ := ok
    cases a <;> cases b <;> cases c <;> cases d <;> rfl
  | addMember b => cases b <;> rfl
  | updateMember b => cases b <;> rfl
  | deleteMember b => cases b <;> rfl
  | updateWorkspace b => cases b <;> rfl
  | deleteWorkspace b => cases b <;> rfl
  | updateBooking b => cases b <;> rfl
  | deleteBooking b => cases b <;> rfl
  | addPayment b => cases b <;> rfl
  | updatePayment b => cases b <;> rfl
  | deletePayment b => cases b <;> rfl
  | displayAllMembers => rfl
  | displayAllWorkspaces => rfl
  | displayAllBookings => rfl
  | displayAllPayments => rfl
  | addWorkspace => rfl

/-- C15: the claim requires every read of a store to happen under the lock of
its entity type.  On the paths of the four adds that insert a record the
trace is balanced, but its last event is the `printf` that reads the id of
the new record, now linked in the store, after the lock has been
released. -/
theorem add_reads_record_after_unlock :
    (balanced (addMember_trace false) = true ∧ guarded [] (addMember_trace false) = false) ∧
    (balanced addWorkspace_trace = true ∧ guarded [] addWorkspace_trace = false) ∧
    (balanced (addBooking_trace true true) = true ∧
      guarded [] (addBooking_trace true true) = false) ∧
    (balanced (addPayment_trace true) = true ∧ guarded [] (addPayment_trace true) = false) ∧
    (addMember_trace false).getLast? = some (LockEvent.read Entity.member) := by
  decide

/-! ## Renaming a member -/

/-- C16: the claim requires the name to stay when just Enter is typed.  For
Ana, `getString` stores the empty line into `node->data.name` itself: the
name after `updateMember` is the empty string, not `Ana`. -/
theorem enter_erases_name :
    ex_ana.member_list.map (fun n => n.data.name) = ["Ana".toList] ∧
      getString "\n".toList 100 = [] ∧
      updateMember ex_ana 1 "\n".toList = some ex_ana_renamed ∧
      ex_ana_renamed.member_list.map (fun n => n.data.name) = [[]] :=
  ⟨rfl, rfl, rfl, rfl⟩

/-! ## Range of the hash -/

/-- The hash of a non-negative id is a valid subscript of `member_index`. -/
theorem hash_in_range_of_nonneg (id : Int) (h : 0 ≤ id) :
    0 ≤ hash_function id ∧ hash_function id < 1009 :=
  ⟨hash_of_nonneg h, hash_lt id⟩

/-- The hash of a negative id that is not a multiple of 1009 is negative. -/
theorem hash_negative (id : Int) (h : id < 0) (hm : id % 1009 ≠ 0) : hash_function id < 0 := by
  by_contra hge
  have h0 : 0 ≤ hash_function id := by omega
  have he := hash_eq_emod h0
  unfold hash_function INDEX_SIZE at h0 he
  rcases id with n | n
  · have : (0 : Int) ≤ Int.ofNat n := Int.ofNat_nonneg n
    omega
  · have e : Int.tmod (Int.negSucc n) 1009 = -((((n + 1) % 1009 : Nat)) : Int) := rfl
    rw [e] at h0 he
    omega

/-- C17: the claim requires `0 <= hash_function(id) < 1009` for every id a
user can type or a file can hold.  For -1 (and for -1010) the truncating
remainder is -1, which is not a subscript of `member_index`, and a members
file with the line `-1,Ana,ana@x.com` makes `load_all_data` call
`add_to_index` with it. -/
theorem hash_function_negative_id :
    hash_function (-1) = -1 ∧ hash_function (-1010) = -1 ∧
      bucket? init.member_index (hash_function (-1)) = none ∧
      load_all_data ⟨some "-1,Ana,ana@x.com\n".toList, none, none, none⟩ init = none ∧
      addBooking ex_desk (-1) 1 "a".toList "b".toList "c".toList = none := by
  refine ⟨by decide, by decide, rfl, rfl, rfl⟩

/-! ## Reads on standard input -/

theorem read_line_append (line rest : List Char) (h : '\n' ∉ line) :
    read_line (line ++ '\n' :: rest) = line ++ ['\n'] := by
  induction line with
  | nil => simp [read_line]
  | cons c cs ih =>
    have hc : c ≠ '\n' := fun e => h (e ▸ List.mem_cons_self _ _)
    have hcs : '\n' ∉ cs := fun e => h (List.mem_cons_of_mem _ e)
    show read_line (c :: (cs ++ '\n' :: rest)) = c :: (cs ++ ['\n'])
    rw [read_line, if_neg hc, ih hcs]

/-- A line that fits the buffer with its newline is stored whole by `fgets`,
newline included, and nothing of it is left. -/
theorem fgets_line (size : Nat) (line rest : List Char) (h : '\n' ∉ line)
    (hlen : line.length + 2 ≤ size) :
    fgets size (line ++ '\n' :: rest) = some (line ++ ['\n'], rest) := by
  have hne : line ++ '\n' :: rest ≠ [] := by simp
  have hrl := read_line_append line rest h
  have htake : (line ++ ['\n']).take (size - 1) = line ++ ['\n'] := by
    apply List.take_of_length_le
    simp only [List.length_append, List.length_singleton]
    omega
  have hdrop : (line ++ '\n' :: rest).drop (line ++ ['\n']).length = rest := by
    have e : line ++ '\n' :: rest = (line ++ ['\n']) ++ rest := by simp
    rw [e, List.drop_left]
  cases hl : line ++ '\n' :: rest with
  | nil => exact absurd hl hne
  | cons c cs =>
    rw [← hl]
    unfold fgets
    rw [hl]
    simp only []
    rw [← hl, hrl, htake, hdrop]

/-- Of a line of `size - 1` characters or more `fgets` stores the first
`size - 1`; the others and the newline are left for the next read. -/
theorem fgets_cut (size : Nat) (line rest : List Char) (h : '\n' ∉ line)
    (hlen : size - 1 ≤ line.length) :
    fgets size (line ++ '\n' :: rest)
      = some (line.take (size - 1), line.drop (size - 1) ++ '\n' :: rest) := by
  have hne : line ++ '\n' :: rest ≠ [] := by simp
  have hrl := read_line_append line rest h
  have htake : (line ++ ['\n']).take (size - 1) = line.take (size - 1) := by
    rw [List.take_append_of_le_length hlen]
  have hl2 : (line.take (size - 1)).length = size - 1 := by
    rw [List.length_take]; omega
  have hdrop : (line ++ '\n' :: rest).drop (size - 1)
      = line.drop (size - 1) ++ '\n' :: rest := by
    rw [List.drop_append_of_le_length hlen]
  cases hl : line ++ '\n' :: rest with
  | nil => exact absurd hl hne
  | cons c cs =>
    rw [← hl]
    unfold fgets
    rw [hl]
    simp only []
    rw [← hl, hrl, htake, hl2, hdrop]

/-- What `fgets` stores fits the buffer and is the front of the input; the
rest is left. -/
theorem fgets_length (size : Nat) (stdin line rest : List Char)
    (h : fgets size stdin = some (line, rest)) :
    line.length ≤ size - 1 ∧ stdin = line ++ rest := by
  unfold fgets at h
  cases stdin with
  | nil => simp at h
  | cons c cs =>
    simp only [Option.some.injEq, Prod.mk.injEq] at h
    obtain ⟨h1, h2⟩ := h
    have hpre : ∀ l : List Char, read_line l <+: l := by
      intro l
      induction l with
      | nil => exact List.prefix_refl _
      | cons a as ih =>
        unfold read_line
        by_cases ha : a = '\n'
        · rw [if_pos ha]
          exact ⟨as, rfl⟩
        · rw [if_neg ha]
          exact (List.cons_prefix_cons).2 ⟨rfl, ih⟩
    have hp : line <+: c :: cs := by
      rw [← h1]
      exact (List.take_prefix _ _).trans (hpre _)
    refine ⟨?_, ?_⟩
    · rw [← h1, List.length_take]
      omega
    · rw [← h2, ← h1]
      rw [h1]
      obtain ⟨t, ht⟩ := hp
      rw [← ht, List.drop_left]

theorem skip_line_length (l r : List Char) (h : skip_line l = some r) : r.length < l.length := by
  induction l with
  | nil => simp [skip_line] at h
  | cons c cs ih =>
    unfold skip_line at h
    by_cases hc : c = '\n'
    · rw [if_pos hc] at h
      cases h
      simp
    · rw [if_neg hc] at h
      have := ih h
      simp only [List.length_cons]
      omega

/-- The fuel of `getInt` is enough: more fuel gives the same result. -/
theorem getInt_loop_fuel (fuel : Nat) (stdin : List Char) (h : stdin.length < fuel) :
    getInt_loop fuel stdin = getInt stdin := by
  unfold getInt
  have key : ∀ (n : Nat) (inp : List Char) (f1 f2 : Nat), inp.length < n →
      inp.length < f1 → inp.length < f2 → getInt_loop f1 inp = getInt_loop f2 inp := by
    intro n
    induction n with
    | zero => intro inp f1 f2 h0; omega
    | succ n ih =>
      intro inp f1 f2 h0 h1 h2
      cases f1 with
      | zero => omega
      | succ f1 =>
        cases f2 with
        | zero => omega
        | succ f2 =>
          unfold getInt_loop
          cases hs : scan_int inp with
          | some r => rfl
          | none =>
            simp only []
            cases hk : skip_line (skip_space inp) with
            | none => rfl
            | some r =>
              simp only []
              have h3 := skip_line_length _ _ hk
              have h4 := skip_space_length inp
              exact ih r f1 f2 (by omega) (by omega) (by omega)
  exact key (stdin.length + 1) stdin fuel (stdin.length + 1) (by omega) h (by omega)

/-- A number typed on a line of its own is what `getInt` returns, and the
line is consumed. -/
theorem getInt_line (i : Int) (rest : List Char) (hi : is_int i) :
    getInt (fmt_int i ++ '\n' :: rest) = some (i, rest) := by
  unfold getInt getInt_loop
  rw [scan_int_fmt i '\n' rest (by decide)]
  simp only [if_pos hi]
  simp [skip_line]

/-- With a date of at most nine characters and a status of at most eighteen,
each typed on a line of its own after the id of an existing booking and the
amount, `addPayment` on standard input is `addPayment` on those four lines. -/
theorem addPayment_stdin_lines (s : State) (bId amount : Int) (date status rest : List Char)
    (hb : is_int bId) (hf : (findBookingNodeById s bId).isSome = true) (ha : is_int amount)
    (hd : '\n' ∉ date) (hdl : date.length ≤ 9)
    (hst : '\n' ∉ status) (hsl : status.length ≤ 18) :
    addPayment_stdin s
        (fmt_int bId ++ '\n' :: (fmt_int amount ++ '\n' :: (date ++ '\n' :: (status ++ '\n' :: rest))))
      = (addPayment s bId amount (date ++ ['\n']) (status ++ ['\n'])).map (fun t => (t, rest)) := by
  unfold addPayment_stdin
  rw [getInt_line bId _ hb]
  simp only []
  cases hf2 : findBookingNodeById s bId with
  | none => rw [hf2] at hf; cases hf
  | some b =>
    simp only []
    rw [getInt_line amount _ ha]
    simp only []
    rw [fgets_line 11 date _ hd (by omega)]
    simp only []
    rw [fgets_line 20 status _ hst (by omega)]

/-- End of input at the name prompt of `updateMember`: `fgets` stores nothing,
the name of member 1 stays `Ana`, and the update is logged. -/
theorem updateMember_stdin_end_of_input :
    updateMember_stdin ex_ana "1\n".toList
      = some ({ ex_ana with
          log := ["Added Member ID 1 (Ana)".toList, "Updated Member ID 1".toList] }, []) :=
  rfl

/-- End of input at the email prompt of `addMember`: the buffer of the new
node is read as `malloc` left it. -/
theorem addMember_stdin_end_of_input : addMember_stdin init "Ana\n".toList = none :=
  rfl

/-- A name of 100 characters typed at the name prompt of `addMember`: the
name stored has 99 of them, the email prompt reads the last one, and the
email typed is left in the input. -/
theorem addMember_stdin_long_name :
    ∃ t, addMember_stdin init (List.replicate 100 'x' ++ "\nana@x.com\n".toList)
        = some (t, "ana@x.com\n".toList) ∧
      t.member_list.map (fun n => n.data) = [⟨1, List.replicate 99 'x', ['x']⟩] :=
  ⟨_, rfl, rfl⟩

/-- A line that is not a number at a `getInt` prompt is discarded and the
next line is read; at the end of the input the call does not return. -/
theorem getInt_retry :
    getInt "abc\n42 rest\nAna\n".toList = some (42, "Ana\n".toList) ∧
      getInt "abc\n".toList = none ∧ getInt "42".toList = none :=
  ⟨rfl, rfl, rfl⟩

/-! ## Operations on standard input are menu steps -/

theorem map_pair_step {s t : State} {r rest : List Char} (op : Op)
    (h : (step s op).map (fun u => (u, r)) = some (t, rest)) : ∃ op, step s op = some t := by
  cases hx : step s op with
  | none => rw [hx] at h; cases h
  | some t2 =>
    rw [hx] at h
    simp only [Option.map_some', Option.some.injEq, Prod.mk.injEq] at h
    exact ⟨op, by rw [hx, h.1]⟩

theorem addMember_stdin_step (s t : State) (stdin rest : List Char)
    (h : addMember_stdin s stdin = some (t, rest)) : ∃ op, step s op = some t := by
  unfold addMember_stdin at h
  cases h1 : fgets 100 stdin with
  | none => rw [h1] at h; cases h
  | some p1 =>
    obtain ⟨nameIn, r1⟩ := p1
    rw [h1] at h
    simp only [] at h
    cases h2 : fgets 100 r1 with
    | none => rw [h2] at h; cases h
    | some p2 =>
      obtain ⟨emailIn, r2⟩ := p2
      rw [h2] at h
      exact map_pair_step (Op.addMember nameIn emailIn) h

theorem updateMember_stdin_step (s t : State) (stdin rest : List Char)
    (h : updateMember_stdin s stdin = some (t, rest)) : ∃ op, step s op = some t := by
  unfold updateMember_stdin at h
  cases h1 : getInt stdin with
  | none => rw [h1] at h; cases h
  | some p1 =>
    obtain ⟨id, r1⟩ := p1
    rw [h1] at h
    simp only [] at h
    cases h2 : findMemberNodeById s id with
    | none => rw [h2] at h; cases h
    | some found =>
      rw [h2] at h
      cases found with
      | none =>
        simp only [Option.some.injEq, Prod.mk.injEq] at h
        exact ⟨Op.updateMember id [], by rw [← h.1]; simp only [step, updateMember, h2]⟩
      | some node =>
        simp only [] at h
        cases h3 : fgets 100 r1 with
        | none =>
          rw [h3] at h
          exact map_pair_step (Op.updateMember id node.data.name) h
        | some p3 =>
          obtain ⟨nameIn, r2⟩ := p3
          rw [h3] at h
          exact map_pair_step (Op.updateMember id nameIn) h

theorem deleteMember_stdin_step (s t : State) (stdin rest : List Char)
    (h : deleteMember_stdin s stdin = some (t, rest)) : ∃ op, step s op = some t := by
  unfold deleteMember_stdin at h
  cases h1 : getInt stdin with
  | none => rw [h1] at h; cases h
  | some p1 =>
    obtain ⟨id, r1⟩ := p1
    rw [h1] at h
    exact map_pair_step (Op.deleteMember id) h

theorem addWorkspace_stdin_step (s t : State) (stdin rest : List Char)
    (h : addWorkspace_stdin s stdin = some (t, rest)) : ∃ op, step s op = some t := by
  unfold addWorkspace_stdin at h
  cases h1 : fgets 50 stdin with
  | none => rw [h1] at h; cases h
  | some p1 =>
    obtain ⟨typeIn, r1⟩ := p1
    rw [h1] at h
    simp only [] at h
    cases h2 : fgets 100 r1 with
    | none => rw [h2] at h; cases h
    | some p2 =>
      obtain ⟨locationIn, r2⟩ := p2
      rw [h2] at h
      simp only [] at h
      cases h3 : getInt r2 with
      | none => rw [h3] at h; cases h
      | some p3 =>
        obtain ⟨capacity, r3⟩ := p3
        rw [h3] at h
        simp only [] at h
        cases h4 : getInt r3 with
        | none => rw [h4] at h; cases h
        | some p4 =>
          obtain ⟨price, r4⟩ := p4
          rw [h4] at h
          exact map_pair_step (Op.addWorkspace typeIn locationIn capacity price) h

theorem updateWorkspace_stdin_step (s t : State) (stdin rest : List Char)
    (h : updateWorkspace_stdin s stdin = some (t, rest)) : ∃ op, step s op = some t := by
  unfold updateWorkspace_stdin at h
  cases h1 : getInt stdin with
  | none => rw [h1] at h; cases h
  | some p1 =>
    obtain ⟨id, r1⟩ := p1
    rw [h1] at h
    simp only [] at h
    cases h2 : findWorkspaceNodeById s id with
    | none =>
      rw [h2] at h
      simp only [Option.some.injEq, Prod.mk.injEq] at h
      exact ⟨Op.updateWorkspace id 0 0, by rw [← h.1]; simp only [step, updateWorkspace, h2]⟩
    | some node =>
      rw [h2] at h
      simp only [] at h
      cases h3 : getInt r1 with
      | none => rw [h3] at h; cases h
      | some p3 =>
        obtain ⟨capacity, r2⟩ := p3
        rw [h3] at h
        simp only [] at h
        cases h4 : getInt r2 with
        | none => rw [h4] at h; cases h
        | some p4 =>
          obtain ⟨price, r3⟩ := p4
          rw [h4] at h
          exact map_pair_step (Op.updateWorkspace id capacity price) h

theorem deleteWorkspace_stdin_step (s t : State) (stdin rest : List Char)
    (h : deleteWorkspace_stdin s stdin = some (t, rest)) : ∃ op, step s op = some t := by
  unfold deleteWorkspace_stdin at h
  cases h1 : getInt stdin with
  | none => rw [h1] at h; cases h
  | some p1 =>
    obtain ⟨id, r1⟩ := p1
    rw [h1] at h
    exact map_pair_step (Op.deleteWorkspace id) h

theorem addBooking_stdin_step (s t : State) (stdin rest : List Char)
    (h : addBooking_stdin s stdin = some (t, rest)) : ∃ op, step s op = some t := by
  unfold addBooking_stdin at h
  cases h1 : getInt stdin with
  | none => rw [h1] at h; cases h
  | some p1 =>
    obtain ⟨mId, r1⟩ := p1
    rw [h1] at h
    simp only [] at h
    cases h2 : getInt r1 with
    | none => rw [h2] at h; cases h
    | some p2 =>
      obtain ⟨wId, r2⟩ := p2
      rw [h2] at h
      simp only [] at h
      cases h3 : findMemberNodeById s mId with
      | none => rw [h3] at h; cases h
      | some found =>
        rw [h3] at h
        cases found with
        | none =>
          simp only [Option.some.injEq, Prod.mk.injEq] at h
          exact ⟨Op.addBooking mId wId [] [] [],
            by rw [← h.1]; simp only [step, addBooking, h3]⟩
        | some node =>
          simp only [] at h
          cases h4 : findWorkspaceNodeById s wId with
          | none =>
            rw [h4] at h
            simp only [Option.some.injEq, Prod.mk.injEq] at h
            exact ⟨Op.addBooking mId wId [] [] [],
              by rw [← h.1]; simp only [step, addBooking, h3, h4]⟩
          | some w =>
            rw [h4] at h
            simp only [] at h
            cases h5 : fgets 20 r2 with
            | none => rw [h5] at h; cases h
            | some p5 =>
              obtain ⟨startIn, r3⟩ := p5
              rw [h5] at h
              simp only [] at h
              cases h6 : fgets 20 r3 with
              | none => rw [h6] at h; cases h
              | some p6 =>
                obtain ⟨endIn, r4⟩ := p6
                rw [h6] at h
                simp only [] at h
                cases h7 : fgets 20 r4 with
                | none => rw [h7] at h; cases h
                | some p7 =>
                  obtain ⟨statusIn, r5⟩ := p7
                  rw [h7] at h
                  exact map_pair_step (Op.addBooking mId wId startIn endIn statusIn) h

theorem updateBooking_stdin_step (s t : State) (stdin rest : List Char)
    (h : updateBooking_stdin s stdin = some (t, rest)) : ∃ op, step s op = some t := by
  unfold updateBooking_stdin at h
  cases h1 : getInt stdin with
  | none => rw [h1] at h; cases h
  | some p1 =>
    obtain ⟨id, r1⟩ := p1
    rw [h1] at h
    simp only [] at h
    cases h2 : findBookingNodeById s id with
    | none =>
      rw [h2] at h
      simp only [Option.some.injEq, Prod.mk.injEq] at h
      exact ⟨Op.updateBooking id [], by rw [← h.1]; simp only [step, updateBooking, h2]⟩
    | some node =>
      rw [h2] at h
      simp only [] at h
      cases h3 : fgets 20 r1 with
      | none =>
        rw [h3] at h
        exact map_pair_step (Op.updateBooking id node.status) h
      | some p3 =>
        obtain ⟨statusIn, r2⟩ := p3
        rw [h3] at h
        exact map_pair_step (Op.updateBooking id statusIn) h

theorem deleteBooking_stdin_step (s t : State) (stdin rest : List Char)
    (h : deleteBooking_stdin s stdin = some (t, rest)) : ∃ op, step s op = some t := by
  unfold deleteBooking_stdin at h
  cases h1 : getInt stdin with
  | none => rw [h1] at h; cases h
  | some p1 =>
    obtain ⟨id, r1⟩ := p1
    rw [h1] at h
    exact map_pair_step (Op.deleteBooking id) h

theorem addPayment_stdin_step (s t : State) (stdin rest : List Char)
    (h : addPayment_stdin s stdin = some (t, rest)) : ∃ op, step s op = some t := by
  unfold addPayment_stdin at h
  cases h1 : getInt stdin with
  | none => rw [h1] at h; cases h
  | some p1 =>
    obtain ⟨bId, r1⟩ := p1
    rw [h1] at h
    simp only [] at h
    cases h2 : findBookingNodeById s bId with
    | none =>
      rw [h2] at h
      simp only [Option.some.injEq, Prod.mk.injEq] at h
      exact ⟨Op.addPayment bId 0 [] [], by rw [← h.1]; simp only [step, addPayment, h2]⟩
    | some node =>
      rw [h2] at h
      simp only [] at h
      cases h3 : getInt r1 with
      | none => rw [h3] at h; cases h
      | some p3 =>
        obtain ⟨amount, r2⟩ := p3
        rw [h3] at h
        simp only [] at h
        cases h4 : fgets 11 r2 with
        | none => rw [h4] at h; cases h
        | some p4 =>
          obtain ⟨dateIn, r3⟩ := p4
          rw [h4] at h
          simp only [] at h
          cases h5 : fgets 20 r3 with
          | none => rw [h5] at h; cases h
          | some p5 =>
            obtain ⟨statusIn, r4⟩ := p5
            rw [h5] at h
            exact map_pair_step (Op.addPayment bId amount dateIn statusIn) h

theorem updatePayment_stdin_step (s t : State) (stdin rest : List Char)
    (h : updatePayment_stdin s stdin = some (t, rest)) : ∃ op, step s op = some t := by
  unfold updatePayment_stdin at h
  cases h1 : getInt stdin with
  | none => rw [h1] at h; cases h
  | some p1 =>
    obtain ⟨id, r1⟩ := p1
    rw [h1] at h
    simp only [] at h
    cases h2 : findPaymentNodeById s id with
    | none =>
      rw [h2] at h
      simp only [Option.some.injEq, Prod.mk.injEq] at h
      exact ⟨Op.updatePayment id [], by rw [← h.1]; simp only [step, updatePayment, h2]⟩
    | some node =>
      rw [h2] at h
      simp only [] at h
      cases h3 : fgets 20 r1 with
      | none =>
        rw [h3] at h
        exact map_pair_step (Op.updatePayment id node.status) h
      | some p3 =>
        obtain ⟨statusIn, r2⟩ := p3
        rw [h3] at h
        exact map_pair_step (Op.updatePayment id statusIn) h

theorem deletePayment_stdin_step (s t : State) (stdin rest : List Char)
    (h : deletePayment_stdin s stdin = some (t, rest)) : ∃ op, step s op = some t := by
  unfold deletePayment_stdin at h
  cases h1 : getInt stdin with
  | none => rw [h1] at h; cases h
  | some p1 =>
    obtain ⟨id, r1⟩ := p1
    rw [h1] at h
    exact map_pair_step (Op.deletePayment id) h

/-- Each of the twelve operations, run on standard input, does what one menu
step does with what its reads obtained: the result state is the result of
`step` for some `Op`. -/
theorem stdin_op_is_step (f : State → List Char → Option (State × List Char))
    (hf : f ∈ stdin_ops) (s t : State) (stdin rest : List Char)
    (h : f s stdin = some (t, rest)) : ∃ op, step s op = some t := by
  simp only [stdin_ops, List.mem_cons, List.mem_singleton, List.not_mem_nil, or_false] at hf
  rcases hf with rfl | rfl | rfl | rfl | rfl | rfl | rfl | rfl | rfl | rfl | rfl | rfl
  · exact addMember_stdin_step s t stdin rest h
  · exact updateMember_stdin_step s t stdin rest h
  · exact deleteMember_stdin_step s t stdin rest h
  · exact addWorkspace_stdin_step s t stdin rest h
  · exact updateWorkspace_stdin_step s t stdin rest h
  · exact deleteWorkspace_stdin_step s t stdin rest h
  · exact addBooking_stdin_step s t stdin rest h
  · exact updateBooking_stdin_step s t stdin rest h
  · exact deleteBooking_stdin_step s t stdin rest h
  · exact addPayment_stdin_step s t stdin rest h
  · exact updatePayment_stdin_step s t stdin rest h
  · exact deletePayment_stdin_step s t stdin rest h

/-- The states of a run are closed under the operations on standard input, so
what holds of every reachable state holds after every such operation. -/
theorem reachable_stdin_op (f : State → List Char → Option (State × List Char))
    (hf : f ∈ stdin_ops) (s t : State) (stdin rest : List Char) (hs : Reachable s)
    (h : f s stdin = some (t, rest)) : Reachable t := by
  obtain ⟨op, hop⟩ := stdin_op_is_step f hf s t stdin rest h
  exact Reachable.step s t op hs hop

/-! ## The two defects of the adds and of the load -/

/-- C8 fails for `addPayment`.  In the state of a run with member 1, workspace
1 and booking 1, the lines `1`, `100`, `2024-01-01` and `Paid` are typed at
the four prompts.  The `fgets(buffer, 11, stdin)` of the date prompt stores
the ten characters of the date and leaves the newline; the status prompt
reads that newline.  The record appended has the empty status, not the status
supplied, and `Paid` is left in the input. -/
theorem addPayment_status_not_as_typed :
    Reachable ex_booked ∧
      fgets 11 "2024-01-01\nPaid\n".toList = some ("2024-01-01".toList, "\nPaid\n".toList) ∧
      fgets 20 "\nPaid\n".toList = some ("\n".toList, "Paid\n".toList) ∧
      addPayment_stdin ex_booked "1\n100\n2024-01-01\nPaid\n".toList
        = some (ex_paid_blank, "Paid\n".toList) ∧
      ex_paid_blank.payment_list = ex_booked.payment_list ++
        [⟨ex_booked.next_payment_id, 1, 100, "2024-01-01".toList, []⟩] ∧
      getString "Paid\n".toList 20 = "Paid".toList :=
  ⟨reachable_ex_booked, rfl, rfl, rfl, rfl, rfl⟩

/-- C9 fails when a members file holds a negative id.  The line
`-1,Ana,ana@x.com` is read as a full record; `load_all_data` links it in the
member list and calls `add_to_index`, where `hash_function` gives -1 and
`member_index[-1]` is written, outside the buckets: the call is undefined,
and so is the load.  No bucket `0 .. 1008` receives an entry, so the linked
record has no chain entry in bucket `memberId mod 1009` and the lockstep
property does not hold of the list and the buckets. -/
theorem load_negative_id_breaks_lockstep :
    read_member "-1,Ana,ana@x.com\n".toList
        = some (⟨-1, "Ana".toList, "ana@x.com".toList⟩, []) ∧
      add_to_index init.member_index
        ⟨malloc init.member_list, ⟨-1, "Ana".toList, "ana@x.com".toList⟩⟩ = none ∧
      load_members (some "-1,Ana,ana@x.com\n".toList) init = none ∧
      ex_orphan.member_list = [⟨malloc init.member_list, ⟨-1, "Ana".toList, "ana@x.com".toList⟩⟩] ∧
      (∀ i, ex_orphan.member_index i = init.member_index i) ∧
      ¬ Lockstep ex_orphan := by
  refine ⟨rfl, rfl, rfl, rfl, fun _ => rfl, ?_⟩
  intro h
  have h1 := (h.2.1 ⟨1, ⟨-1, "Ana".toList, "ana@x.com".toList⟩⟩ (List.mem_singleton.2 rfl)).1
  simp [ex_orphan, init] at h1

end FlexDesk
